import Mathlib

/-!
VLC `mono` audio filter (modules/audio_filter/channel_mixer/mono.c)

A shallow embedding of the sample-processing functions of the filter
(`stereo_to_mono`, `mono`, `stereo2mono_downmix`, `Convert`) and theorems about them.

Modelling conventions.

* A buffer of `int16_t` samples is a `List Int`; byte sizes of the source are kept as
  numbers (`i_nb_bytes`, `i_overflow_buffer_size`) and converted to sample counts by
  dividing by `sizeof(int16_t) = 2`.
* A value stored into an `int16_t` slot goes through `toInt16`.
* A `double` amplitude factor is an exact rational number.
* A read outside a list yields `0` and a store outside a list is dropped; the index
  traces (`*_accesses`) list every index the source dereferences, in bounds or not.
* `unsigned int` counters are natural numbers: sample counts are assumed to fit 32 bits.
  The delay of an operation is kept as the `unsigned int` value the source stores
  (`toUInt32` of the converted `double`), and the sizing loop of `Init` multiplies it
  modulo `2^32`.
* The geometry of `Init` is generic in an ordered field `K` with a square root function;
  theorems about exact real arithmetic take `K = ℝ` and `Real.sqrt`.
-/

namespace Mono

/-! ## Machine arithmetic -/

/-- Conversion of an integer to `int16_t` (two's complement wrap-around; the identity on
the range -32768 .. 32767). -/
def toInt16 (x : Int) : Int := (x + 32768) % 65536 - 32768

/-- Conversion of an `int` to `unsigned int`. -/
def toUInt32 (x : Int) : Nat := (x % 4294967296).toNat

/-- The value is representable as a signed 16-bit sample. -/
def isInt16 (x : Int) : Prop := -32768 ≤ x ∧ x ≤ 32767

instance (x : Int) : Decidable (isInt16 x) := by
  unfold isInt16; infer_instance

/-- Conversion of a `double` to an integer type: truncation toward zero. -/
def truncQ (q : ℚ) : Int := if 0 ≤ q then ⌊q⌋ else ⌈q⌉

/-- The compound assignment `x += s * g` on an `int16_t` lvalue `x`, with `s` an
`int16_t` sample and `g` a `double`: the sum is formed in `double` and converted back. -/
def accumulate (x s : Int) (g : ℚ) : Int := toInt16 (truncQ ((x : ℚ) + (s : ℚ) * g))

/-- Read `p[i]` of a sample buffer. -/
def rd (p : List Int) (i : Nat) : Int := p.getD i 0

/-! ## Data structures -/

/-- One elementary operation of the downmix (`struct atomic_operation_t`). -/
structure atomic_operation_t where
  i_source_channel_offset : Nat
  i_dest_channel_offset : Nat
  i_delay : Nat
  d_amplitude_factor : ℚ
deriving DecidableEq

/-- The filter's private data (`struct filter_sys_t`). -/
structure filter_sys_t where
  b_downmix : Bool
  i_nb_channels : Nat
  i_channel_selected : Int
  i_bitspersample : Nat
  i_overflow_buffer_size : Nat
  p_overflow_buffer : List Int
  i_nb_atomic_operations : Nat
  p_atomic_operations : List atomic_operation_t
deriving DecidableEq

/-- An audio buffer (`aout_buffer_t`): samples, frame count and byte size. -/
structure aout_buffer_t where
  p_buffer : List Int
  i_nb_samples : Nat
  i_nb_bytes : Nat
deriving DecidableEq

/-- Which buffer an access goes to. -/
inductive Buf where
  | input
  | output
  | overflow
deriving DecidableEq

/-- One dereference of a buffer at a sample index. -/
structure Access where
  buf : Buf
  write : Bool
  index : Nat
deriving DecidableEq

/-! ## `mono` -/

/-- The `while` loop of `mono`: `n` walks the input by pairs, `r` counts outputs. -/
def mono_loop (total : Nat) (p_in : List Int) :
    Nat → Nat → Nat → List Int → Option (List Int × Nat)
  | 0, _, _, _ => none
  | fuel + 1, n, r, p_out =>
    if n < total then
      mono_loop total p_in fuel (n + 2) (r + 1)
        (p_out.set r (toInt16 ((rd p_in n + rd p_in (n + 1)) >>> (1 : Nat))))
    else some (p_out, r)

/-- Function `mono`: returns the output samples and the count `r`. -/
def mono (p_sys : filter_sys_t) (p_output p_input : aout_buffer_t) :
    Option (List Int × Nat) :=
  mono_loop (p_input.i_nb_samples * p_sys.i_nb_channels) p_input.p_buffer
    (p_input.i_nb_samples * p_sys.i_nb_channels + 1) 0 0 p_output.p_buffer

/-! ## `stereo_to_mono` -/

/-- The `for` loop of `stereo_to_mono`. -/
def stereo_to_mono_loop (i_nb_channels : Nat) (i_channel_selected : Int) (total : Nat)
    (p_in : List Int) : Nat → Nat → List Int → Option (List Int × Nat)
  | 0, _, _ => none
  | fuel + 1, n, p_out =>
    if n < total then
      if i_channel_selected = -1 then
        stereo_to_mono_loop i_nb_channels i_channel_selected total p_in fuel (n + 1 + 1)
          ((p_out.set (n + 1) (toInt16 ((rd p_in n + rd p_in (n + 1)) >>> (1 : Nat)))).set n
            (toInt16 ((rd p_in n + rd p_in (n + 1)) >>> (1 : Nat))))
      else if n % i_nb_channels = toUInt32 i_channel_selected then
        stereo_to_mono_loop i_nb_channels i_channel_selected total p_in fuel (n + 1)
          ((p_out.set (n + 1) (rd p_in n)).set n (rd p_in n))
      else
        stereo_to_mono_loop i_nb_channels i_channel_selected total p_in fuel (n + 1) p_out
    else some (p_out, n)

/-- Function `stereo_to_mono`: returns the output samples and the final `n`. -/
def stereo_to_mono (p_sys : filter_sys_t) (p_output p_input : aout_buffer_t) :
    Option (List Int × Nat) :=
  stereo_to_mono_loop p_sys.i_nb_channels p_sys.i_channel_selected
    (p_input.i_nb_samples * p_sys.i_nb_channels) p_input.p_buffer
    (p_input.i_nb_samples * p_sys.i_nb_channels + 1) 0 p_output.p_buffer

/-- The indices `stereo_to_mono` dereferences, in program order (same loop as
`stereo_to_mono_loop`; in `p_out[n] = p_out[n+1] = e` the operands of `e` are read
first, then `p_out[n+1]` and `p_out[n]` are stored). -/
def stereo_to_mono_accesses (i_nb_channels : Nat) (i_channel_selected : Int) (total : Nat) :
    Nat → Nat → Option (List Access)
  | 0, _ => none
  | fuel + 1, n =>
    if n < total then
      if i_channel_selected = -1 then
        (stereo_to_mono_accesses i_nb_channels i_channel_selected total fuel (n + 1 + 1)).map
          (fun rest => [⟨Buf.input, false, n⟩, ⟨Buf.input, false, n + 1⟩,
            ⟨Buf.output, true, n + 1⟩, ⟨Buf.output, true, n⟩] ++ rest)
      else if n % i_nb_channels = toUInt32 i_channel_selected then
        (stereo_to_mono_accesses i_nb_channels i_channel_selected total fuel (n + 1)).map
          (fun rest => [⟨Buf.input, false, n⟩, ⟨Buf.output, true, n + 1⟩,
            ⟨Buf.output, true, n⟩] ++ rest)
      else
        stereo_to_mono_accesses i_nb_channels i_channel_selected total fuel (n + 1)
    else some []


/-! ## `stereo2mono_downmix` -/

/-- Library call `memset(p + off, v, len)`. -/
def memset {α : Type} (p : List α) (off : Nat) (v : α) : Nat → List α
  | 0 => p
  | len + 1 => (memset p off v len).set (off + len) v

/-- Library call `memcpy(dst + d, src + s, len)` for regions that do not overlap. -/
def memcpy {α : Type} (dst : List α) (d : Nat) (src : List α) (s : Nat) : Nat → List α
  | 0 => dst
  | len + 1 =>
    match src[s + len]? with
    | some v => (memcpy dst d src s len).set (d + len) v
    | none => memcpy dst d src s len

/-- The `while` loop sliding the overflow buffer left by `i_out_size`; `p_slide` is the
offset of the pointer from `p_overflow`. Offsets and sizes are counted in elements of
the list (bytes for a byte buffer, samples for a sample buffer). -/
def slide_loop {α : Type} (zero : α) (i_overflow_size i_out_size : Nat) :
    Nat → Nat → List α → Option (List α)
  | 0, _, _ => none
  | fuel + 1, p_slide, p_overflow =>
    if p_slide < i_overflow_size then
      if p_slide + i_out_size < i_overflow_size then
        if p_slide + 2 * i_out_size < i_overflow_size then
          slide_loop zero i_overflow_size i_out_size fuel (p_slide + i_out_size)
            (memcpy (memset p_overflow p_slide zero i_out_size) p_slide
              (memset p_overflow p_slide zero i_out_size) (p_slide + i_out_size) i_out_size)
        else
          slide_loop zero i_overflow_size i_out_size fuel (p_slide + i_out_size)
            (memcpy (memset p_overflow p_slide zero i_out_size) p_slide
              (memset p_overflow p_slide zero i_out_size) (p_slide + i_out_size)
              (i_overflow_size - (p_slide + i_out_size)))
      else
        slide_loop zero i_overflow_size i_out_size fuel (p_slide + i_out_size)
          (memset p_overflow p_slide zero (i_overflow_size - p_slide))
    else some p_overflow

/-- A counted loop `for( j = 0; j < count; j++ ) body`: the state after the iterations
`j = 0, ..., count - 1`. -/
def forLoop {σ : Type} (body : Nat → σ → σ) : Nat → σ → σ
  | 0, s => s
  | count + 1, s => body count (forLoop body count s)

/-- The statement `p[i] += s * g`. -/
def addTo (p : List Int) (i : Nat) (s : Int) (g : ℚ) : List Int :=
  p.set i (accumulate (rd p i) s g)

/-- The body of the loop over the atomic operations: the state is the pair of the output
buffer and the overflow buffer. -/
def apply_atomic_operation (i_input_nb i_output_nb i_nb_samples : Nat) (p_in : List Int)
    (op : atomic_operation_t) (st : List Int × List Int) : List Int × List Int :=
  if i_nb_samples > op.i_delay then
    (forLoop (fun j p_out =>
        addTo p_out ((op.i_delay + j) * i_output_nb + op.i_dest_channel_offset)
          (rd p_in (j * i_input_nb + op.i_source_channel_offset)) op.d_amplitude_factor)
      (i_nb_samples - op.i_delay) st.1,
     forLoop (fun j p_overflow =>
        addTo p_overflow (j * i_output_nb + op.i_dest_channel_offset)
          (rd p_in ((i_nb_samples - op.i_delay + j) * i_input_nb
            + op.i_source_channel_offset)) op.d_amplitude_factor)
      op.i_delay st.2)
  else
    (st.1,
     forLoop (fun j p_overflow =>
        addTo p_overflow ((op.i_delay - i_nb_samples + j) * i_output_nb
            + op.i_dest_channel_offset)
          (rd p_in (j * i_input_nb + op.i_source_channel_offset)) op.d_amplitude_factor)
      i_nb_samples st.2)

/-- First step of `stereo2mono_downmix`: the front of the overflow buffer is copied into
the output buffer, `min(i_overflow_size, i_out_size)` bytes of it. -/
def copy_overflow (i_overflow_size i_out_size : Nat) (p_out p_overflow : List Int) :
    List Int :=
  if i_out_size > i_overflow_size then memcpy p_out 0 p_overflow 0 (i_overflow_size / 2)
  else memcpy p_out 0 p_overflow 0 (i_out_size / 2)

/-- The loop `for( i = 0; i < p_sys->i_nb_atomic_operations; i++ )`. -/
def apply_atomic_operations (sys : filter_sys_t) (i_input_nb i_output_nb i_nb_samples : Nat)
    (p_in : List Int) (st : List Int × List Int) : List Int × List Int :=
  forLoop (fun i st =>
      match sys.p_atomic_operations[i]? with
      | some op => apply_atomic_operation i_input_nb i_output_nb i_nb_samples p_in op st
      | none => st)
    sys.i_nb_atomic_operations st

/-- Function `stereo2mono_downmix`. `i_input_nb` and `i_output_nb` are the channel counts
`aout_FormatNbChannels` returns for the input and output formats. The result is the
updated private data and output buffer; `none` stands for a slide loop that does not
terminate. Byte counts are halved to index the sample lists, which is exact when they
are even: the overflow size set by `Init` and the size of a block of whole 16-bit
samples are. -/
def stereo2mono_downmix (p_sys : Option filter_sys_t) (i_input_nb i_output_nb : Nat)
    (p_in_buf p_out_buf : aout_buffer_t) : Option (Option filter_sys_t × aout_buffer_t) :=
  match p_sys with
  | some sys =>
    match slide_loop (0 : Int) (sys.i_overflow_buffer_size / 2)
        (p_in_buf.i_nb_bytes * i_output_nb / i_input_nb / 2)
        (sys.i_overflow_buffer_size / 2 + 1) 0 sys.p_overflow_buffer with
    | none => none
    | some p_slid =>
      some
        (some { sys with p_overflow_buffer :=
            (apply_atomic_operations sys i_input_nb i_output_nb p_in_buf.i_nb_samples
              p_in_buf.p_buffer
              (copy_overflow sys.i_overflow_buffer_size
                (p_in_buf.i_nb_bytes * i_output_nb / i_input_nb)
                p_out_buf.p_buffer sys.p_overflow_buffer, p_slid)).2 },
         { p_buffer :=
            (apply_atomic_operations sys i_input_nb i_output_nb p_in_buf.i_nb_samples
              p_in_buf.p_buffer
              (copy_overflow sys.i_overflow_buffer_size
                (p_in_buf.i_nb_bytes * i_output_nb / i_input_nb)
                p_out_buf.p_buffer sys.p_overflow_buffer, p_slid)).1,
           i_nb_samples := p_in_buf.i_nb_samples,
           i_nb_bytes := p_in_buf.i_nb_bytes * i_output_nb / i_input_nb })
  | none =>
    some (none,
      { p_buffer := memset p_out_buf.p_buffer 0 0
          (p_in_buf.i_nb_bytes * i_output_nb / i_input_nb / 2),
        i_nb_samples := p_in_buf.i_nb_samples,
        i_nb_bytes := p_in_buf.i_nb_bytes * i_output_nb / i_input_nb })

/-- The overflow sizing loop at the end of `Init` with the products taken in the natural
numbers: the byte size `max over the operations of i_delay * 2 * sizeof(int16_t)`. It is
the value of the machine loop `Init_overflow_buffer_size_u32` whenever every delay is
below `2^31`. -/
def Init_overflow_buffer_size (i_nb_atomic_operations : Nat)
    (p_atomic_operations : List atomic_operation_t) : Nat :=
  forLoop (fun i size =>
      match p_atomic_operations[i]? with
      | some op => if size < op.i_delay * 2 * 2 then op.i_delay * 2 * 2 else size
      | none => size)
    i_nb_atomic_operations 0

/-- The overflow sizing loop at the end of `Init` in machine arithmetic: `i_delay` is an
`unsigned int`, so `i_delay * 2` is reduced modulo `2^32` before it is multiplied by
`sizeof(int16_t)` in `size_t` (64 bits). -/
def Init_overflow_buffer_size_u32 (i_nb_atomic_operations : Nat)
    (p_atomic_operations : List atomic_operation_t) : Nat :=
  forLoop (fun i size =>
      match p_atomic_operations[i]? with
      | some op =>
        if size < op.i_delay * 2 % 4294967296 * 2 then op.i_delay * 2 % 4294967296 * 2
        else size
      | none => size)
    i_nb_atomic_operations 0

/-- The largest delay of a table of operations (`0` for the empty table). -/
def max_delay (p_atomic_operations : List atomic_operation_t) : Nat :=
  p_atomic_operations.foldl (fun m op => max m op.i_delay) 0

/-- The private data as `OpenFilter` and the end of `Init` leave it, for a given table of
atomic operations whose delays are below `2^31`: the overflow buffer is sized by the loop
of `Init` and zeroed. -/
def Init_sys (b_downmix : Bool) (i_nb_channels : Nat) (i_channel_selected : Int)
    (i_bitspersample : Nat) (ops : List atomic_operation_t) : filter_sys_t :=
  { b_downmix := b_downmix,
    i_nb_channels := i_nb_channels,
    i_channel_selected := i_channel_selected,
    i_bitspersample := i_bitspersample,
    i_overflow_buffer_size := Init_overflow_buffer_size ops.length ops,
    p_overflow_buffer := List.replicate (Init_overflow_buffer_size ops.length ops / 2) 0,
    i_nb_atomic_operations := ops.length,
    p_atomic_operations := ops }

/-! ## Block-wise use of `stereo2mono_downmix` -/

/-- One call of `stereo2mono_downmix` on a block of interleaved samples (a whole number
of frames of `i_input_nb` channels), writing into a freshly zeroed output block of
`i_output_nb` channels: the new private data and the output samples. -/
def process_block (sys : filter_sys_t) (i_input_nb i_output_nb : Nat) (block : List Int) :
    Option (filter_sys_t × List Int) :=
  match stereo2mono_downmix (some sys) i_input_nb i_output_nb
      { p_buffer := block, i_nb_samples := block.length / i_input_nb,
        i_nb_bytes := 2 * block.length }
      { p_buffer := List.replicate (block.length / i_input_nb * i_output_nb) 0,
        i_nb_samples := block.length / i_input_nb,
        i_nb_bytes := 2 * (block.length / i_input_nb * i_output_nb) } with
  | some (some sys1, out) => some (sys1, out.p_buffer)
  | _ => none

/-- A stream processed block after block: the final private data and the concatenation
of the output blocks. -/
def process_stream (sys : filter_sys_t) (i_input_nb i_output_nb : Nat) :
    List (List Int) → Option (filter_sys_t × List Int)
  | [] => some (sys, [])
  | block :: rest =>
    match process_block sys i_input_nb i_output_nb block with
    | none => none
    | some (sys1, out1) =>
      match process_stream sys1 i_input_nb i_output_nb rest with
      | none => none
      | some (sys2, out2) => some (sys2, out1 ++ out2)

/-! ## Slot-wise description of one call -/

/-- What one atomic operation does, during a call on `n` frames, to the slot of flat index
`x` counted from the start of the output block (slots from `n * M` on live in the
overflow buffer): the sample of frame `x / M - delay` is accumulated when that frame
belongs to the block and the slot is one of the operation's ear. -/
def op_update (N M n : Nat) (p_in : List Int) (op : atomic_operation_t) (x : Nat)
    (a : Int) : Int :=
  if x % M = op.i_dest_channel_offset ∧ op.i_delay ≤ x / M ∧ x / M < op.i_delay + n then
    accumulate a (rd p_in ((x / M - op.i_delay) * N + op.i_source_channel_offset))
      op.d_amplitude_factor
  else a

/-- The value of slot `x` after all operations of the table, from the value `a` the
slot has after the copy and slide steps. -/
def slot_value (N M n : Nat) (p_in : List Int) (ops : List atomic_operation_t) (x : Nat)
    (a : Int) : Int :=
  ops.foldl (fun a op => op_update N M n p_in op x a) a

/-! ## Index traces of `stereo2mono_downmix` -/

/-- The accesses of a `memset` or of one side of a `memcpy`: `len` consecutive elements
from offset `off`. -/
def range_accesses (buf : Buf) (write : Bool) (off len : Nat) : List Access :=
  (List.range len).map (fun i => ⟨buf, write, off + i⟩)

/-- The accesses of the slide loop (same control flow as `slide_loop`). -/
def slide_loop_accesses (i_overflow_size i_out_size : Nat) : Nat → Nat → Option (List Access)
  | 0, _ => none
  | fuel + 1, p_slide =>
    if p_slide < i_overflow_size then
      if p_slide + i_out_size < i_overflow_size then
        if p_slide + 2 * i_out_size < i_overflow_size then
          (slide_loop_accesses i_overflow_size i_out_size fuel (p_slide + i_out_size)).map
            (fun rest => range_accesses Buf.overflow true p_slide i_out_size
              ++ range_accesses Buf.overflow false (p_slide + i_out_size) i_out_size
              ++ range_accesses Buf.overflow true p_slide i_out_size ++ rest)
        else
          (slide_loop_accesses i_overflow_size i_out_size fuel (p_slide + i_out_size)).map
            (fun rest => range_accesses Buf.overflow true p_slide i_out_size
              ++ range_accesses Buf.overflow false (p_slide + i_out_size)
                  (i_overflow_size - (p_slide + i_out_size))
              ++ range_accesses Buf.overflow true p_slide
                  (i_overflow_size - (p_slide + i_out_size)) ++ rest)
      else
        (slide_loop_accesses i_overflow_size i_out_size fuel (p_slide + i_out_size)).map
          (fun rest => range_accesses Buf.overflow true p_slide (i_overflow_size - p_slide)
            ++ rest)
    else some []

/-- The accesses of `p[i] += p_in[k] * g` on buffer `buf`. -/
def addTo_accesses (buf : Buf) (i k : Nat) : List Access :=
  [⟨buf, false, i⟩, ⟨Buf.input, false, k⟩, ⟨buf, true, i⟩]

/-- The accesses of one atomic operation (same loops as `apply_atomic_operation`). -/
def apply_atomic_operation_accesses (i_input_nb i_output_nb i_nb_samples : Nat)
    (op : atomic_operation_t) : List Access :=
  if i_nb_samples > op.i_delay then
    (List.range (i_nb_samples - op.i_delay)).flatMap (fun j =>
        addTo_accesses Buf.output ((op.i_delay + j) * i_output_nb + op.i_dest_channel_offset)
          (j * i_input_nb + op.i_source_channel_offset))
    ++ (List.range op.i_delay).flatMap (fun j =>
        addTo_accesses Buf.overflow (j * i_output_nb + op.i_dest_channel_offset)
          ((i_nb_samples - op.i_delay + j) * i_input_nb + op.i_source_channel_offset))
  else
    (List.range i_nb_samples).flatMap (fun j =>
        addTo_accesses Buf.overflow
          ((op.i_delay - i_nb_samples + j) * i_output_nb + op.i_dest_channel_offset)
          (j * i_input_nb + op.i_source_channel_offset))

/-- The sample indices `stereo2mono_downmix` dereferences in the overflow, input and
output buffers, for non-NULL private data: the copy step, the slide step and the atomic
operations, in program order. `none` stands for a slide loop that does not terminate. -/
def stereo2mono_downmix_accesses (sys : filter_sys_t) (i_input_nb i_output_nb : Nat)
    (p_in_buf : aout_buffer_t) : Option (List Access) :=
  (slide_loop_accesses (sys.i_overflow_buffer_size / 2)
      (p_in_buf.i_nb_bytes * i_output_nb / i_input_nb / 2)
      (sys.i_overflow_buffer_size / 2 + 1) 0).map
    (fun slide =>
      (if p_in_buf.i_nb_bytes * i_output_nb / i_input_nb > sys.i_overflow_buffer_size then
          range_accesses Buf.overflow false 0 (sys.i_overflow_buffer_size / 2)
            ++ range_accesses Buf.output true 0 (sys.i_overflow_buffer_size / 2)
        else
          range_accesses Buf.overflow false 0
              (p_in_buf.i_nb_bytes * i_output_nb / i_input_nb / 2)
            ++ range_accesses Buf.output true 0
              (p_in_buf.i_nb_bytes * i_output_nb / i_input_nb / 2))
      ++ slide
      ++ (List.range sys.i_nb_atomic_operations).flatMap (fun i =>
          match sys.p_atomic_operations[i]? with
          | some op =>
            apply_atomic_operation_accesses i_input_nb i_output_nb p_in_buf.i_nb_samples op
          | none => []))

/-! ## `Convert` -/

/-- A data block of the pipeline (`block_t`): samples, byte size, frame count and
timing. -/
structure block_t where
  p_buffer : List Int
  i_buffer : Nat
  i_samples : Nat
  i_pts : Int
  i_dts : Int
  i_length : Int
deriving DecidableEq

/-- The part of `filter_t` that `Convert` uses: the channel counts that
`aout_FormatNbChannels` returns for `fmt_in.audio` and `fmt_out.audio`, and the private
data. -/
structure filter_t where
  fmt_in_nb_channels : Nat
  fmt_out_nb_channels : Nat
  p_sys : filter_sys_t
deriving DecidableEq

/-- Function `Convert`. The outer `Option` is `none` when the call does not terminate;
the result is the filter (its private data is updated by the downmix) and the returned
block, `none` for `NULL`. `alloc_ok` tells whether `pf_audio_buffer_new` succeeds; it
then returns a block of `i_out_size` bytes. -/
def Convert (p_filter : filter_t) (p_block : Option block_t) (alloc_ok : Bool) :
    Option (filter_t × Option block_t) :=
  match p_block with
  | none => some (p_filter, none)
  | some block =>
    if block.i_samples = 0 then some (p_filter, none)
    else if alloc_ok = false then some (p_filter, none)
    else if p_filter.p_sys.b_downmix then
      match stereo2mono_downmix (some p_filter.p_sys) p_filter.fmt_in_nb_channels
          p_filter.fmt_out_nb_channels
          { p_buffer := block.p_buffer, i_nb_bytes := block.i_buffer,
            i_nb_samples := block.i_samples }
          { p_buffer := List.replicate
              (block.i_samples * p_filter.p_sys.i_bitspersample / 8
                * p_filter.fmt_out_nb_channels / 2) 0,
            i_nb_bytes := block.i_samples * p_filter.p_sys.i_bitspersample / 8
              * p_filter.fmt_out_nb_channels,
            i_nb_samples := block.i_samples / p_filter.p_sys.i_nb_channels
              * p_filter.fmt_out_nb_channels } with
      | some (some sys1, out_buf) =>
        match mono sys1 out_buf
            { p_buffer := block.p_buffer, i_nb_bytes := block.i_buffer,
              i_nb_samples := block.i_samples } with
        | some (p_out, _) =>
          some ({ p_filter with p_sys := sys1 },
            some { p_buffer := p_out, i_buffer := out_buf.i_nb_bytes,
                   i_samples := out_buf.i_nb_samples, i_pts := block.i_pts,
                   i_dts := block.i_dts, i_length := block.i_length })
        | none => none
      | _ => none
    else
      match stereo_to_mono p_filter.p_sys
          { p_buffer := List.replicate
              (block.i_samples * p_filter.p_sys.i_bitspersample / 8
                * p_filter.fmt_out_nb_channels / 2) 0,
            i_nb_bytes := block.i_samples * p_filter.p_sys.i_bitspersample / 8
              * p_filter.fmt_out_nb_channels,
            i_nb_samples := block.i_samples / p_filter.p_sys.i_nb_channels
              * p_filter.fmt_out_nb_channels }
          { p_buffer := block.p_buffer, i_nb_bytes := block.i_buffer,
            i_nb_samples := block.i_samples } with
      | some (p_out, _) =>
        some (p_filter,
          some { p_buffer := p_out,
                 i_buffer := block.i_samples * p_filter.p_sys.i_bitspersample / 8
                   * p_filter.fmt_out_nb_channels,
                 i_samples := block.i_samples / p_filter.p_sys.i_nb_channels
                   * p_filter.fmt_out_nb_channels,
                 i_pts := block.i_pts, i_dts := block.i_dts, i_length := block.i_length })
      | none => none

/-- The access falls inside the buffer it goes to. -/
def access_in_bounds (p_in p_out p_overflow : List Int) (a : Access) : Prop :=
  match a.buf with
  | Buf.input => a.index < p_in.length
  | Buf.output => a.index < p_out.length
  | Buf.overflow => a.index < p_overflow.length

/-! ## `mono`: index trace -/

/-- The indices `mono` dereferences, in program order (same loop as `mono_loop`). -/
def mono_accesses (total : Nat) : Nat → Nat → Nat → Option (List Access)
  | 0, _, _ => none
  | fuel + 1, n, r =>
    if n < total then
      (mono_accesses total fuel (n + 2) (r + 1)).map
        (fun rest => [⟨Buf.input, false, n⟩, ⟨Buf.input, false, n + 1⟩,
          ⟨Buf.output, true, r⟩] ++ rest)
    else some []

/-! ## Channel layouts -/

/-- The channel flags of `i_physical_channels` that the filter tests with
`i_physical_channels & AOUT_CHAN_...`, one boolean per flag. -/
structure physical_channels where
  left : Bool
  right : Bool
  middleleft : Bool
  middleright : Bool
  rearleft : Bool
  rearright : Bool
  rearcenter : Bool
  center : Bool
  lfe : Bool
deriving DecidableEq

/-- Modelled from the spec: `aout_FormatNbChannels`, declared in `vlc_aout.h` and defined
outside the two source files. The spec's data model says that the channel count of a
layout equals the cardinality of its channel set. -/
def aout_FormatNbChannels (c : physical_channels) : Nat :=
  c.left.toNat + c.right.toNat + c.middleleft.toNat + c.middleright.toNat
    + c.rearleft.toNat + c.rearright.toNat + c.rearcenter.toNat + c.center.toNat
    + c.lfe.toNat

/-! ## `ComputeChannelOperations` and `Init`

The geometry is computed in an ordered field `K` with a square root function `sqrt`
passed as a parameter (the C library `sqrt`): with `K := ℝ` and `Real.sqrt` the delays
are those of exact real arithmetic. Amplitude factors are rational. The rounding of the
`double` operations is made explicit in `tap_delay_value_double`, which applies a rounding
function `fl` after every operation of the delay expression; with `fl` the identity it is
`tap_delay_value`. -/

/-- Conversion `(int)` of a `double`: truncation toward zero. -/
def truncK {K : Type} [LinearOrderedField K] [FloorRing K] (v : K) : Int :=
  if 0 ≤ v then ⌊v⌋ else ⌈v⌉

/-- The value that `ComputeChannelOperations` converts with `(int)` for the ear at
`(d_ear_x, 0)`: `sqrt(...) / d_c * i_rate - d_compensation_delay`, with `d_c = 340` and
`d_compensation_delay = (d_compensation_length - 0.1) / d_c * i_rate`. -/
def tap_delay_value {K : Type} [LinearOrderedField K] (sqrt : K → K) (i_rate : Nat)
    (d_ear_x d_x d_z d_compensation_length : K) : K :=
  sqrt ((d_ear_x - d_x) * (d_ear_x - d_x) + (0 - d_z) * (0 - d_z)) / 340 * (i_rate : K)
    - (d_compensation_length - 1 / 10) / 340 * (i_rate : K)

/-- The value that `ComputeChannelOperations` converts with `(int)`, as the source computes
it in `double`: `fl` is the rounding of a real number to the nearest `double`, applied to
the literal `0.1` and to the result of every operation; `sqrt` is the exact square root,
so that the library call `sqrt( x )` returns `fl (sqrt x)`. `d_ear_sign` is `-1` for the
left ear (`-0.1-d_x`) and `1` for the right ear (`0.1-d_x`). With `fl` the identity this
is `tap_delay_value`. -/
def tap_delay_value_double {K : Type} [LinearOrderedField K] (fl sqrt : K → K) (i_rate : Nat)
    (d_ear_sign d_x d_z d_compensation_length : K) : K :=
  fl (fl (fl (fl (sqrt (fl (
            fl (fl (d_ear_sign * fl (1 / 10) - d_x) * fl (d_ear_sign * fl (1 / 10) - d_x))
            + fl (fl (0 - d_z) * fl (0 - d_z))))) / 340) * (i_rate : K))
    - fl (fl (fl (d_compensation_length - fl (1 / 10)) / 340) * (i_rate : K)))

/-- The operation that `ComputeChannelOperations` stores under `/* Left ear */`. -/
def left_ear_operation {K : Type} [LinearOrderedField K] [FloorRing K] (sqrt : K → K)
    (i_rate i_source_channel_offset : Nat) (d_x d_z d_compensation_length : K)
    (d_channel_amplitude_factor : ℚ) : atomic_operation_t :=
  { i_source_channel_offset := i_source_channel_offset,
    i_dest_channel_offset := 0,
    i_delay := toUInt32
      (truncK (tap_delay_value sqrt i_rate (-(1 / 10)) d_x d_z d_compensation_length)),
    d_amplitude_factor :=
      if d_x < 0 then d_channel_amplitude_factor * (11 / 10) / 2
      else if d_x > 0 then d_channel_amplitude_factor * (9 / 10) / 2
      else d_channel_amplitude_factor / 2 }

/-- The operation that `ComputeChannelOperations` stores under `/* Right ear */`. -/
def right_ear_operation {K : Type} [LinearOrderedField K] [FloorRing K] (sqrt : K → K)
    (i_rate i_source_channel_offset : Nat) (d_x d_z d_compensation_length : K)
    (d_channel_amplitude_factor : ℚ) : atomic_operation_t :=
  { i_source_channel_offset := i_source_channel_offset,
    i_dest_channel_offset := 1,
    i_delay := toUInt32
      (truncK (tap_delay_value sqrt i_rate (1 / 10) d_x d_z d_compensation_length)),
    d_amplitude_factor :=
      if d_x < 0 then d_channel_amplitude_factor * (9 / 10) / 2
      else if d_x > 0 then d_channel_amplitude_factor * (11 / 10) / 2
      else d_channel_amplitude_factor / 2 }

/-- Function `ComputeChannelOperations`: stores the two operations of a virtual speaker
at the indices `i_next_atomic_operation` and `i_next_atomic_operation + 1` of the table.
A slot of the table holds `none` until it is written. -/
def ComputeChannelOperations {K : Type} [LinearOrderedField K] [FloorRing K]
    (sqrt : K → K) (p_atomic_operations : List (Option atomic_operation_t))
    (i_rate i_next_atomic_operation i_source_channel_offset : Nat)
    (d_x d_z d_compensation_length : K) (d_channel_amplitude_factor : ℚ) :
    List (Option atomic_operation_t) :=
  (p_atomic_operations.set i_next_atomic_operation
      (some (left_ear_operation sqrt i_rate i_source_channel_offset d_x d_z
        d_compensation_length d_channel_amplitude_factor))).set
    (i_next_atomic_operation + 1)
    (some (right_ear_operation sqrt i_rate i_source_channel_offset d_x d_z
      d_compensation_length d_channel_amplitude_factor))

/-- The local variables of `Init` that the speaker blocks update. -/
structure Init_locals where
  p_atomic_operations : List (Option atomic_operation_t)
  i_next_atomic_operation : Nat
  i_source_channel_offset : Nat

/-- One block `if( i_physical_channels & AOUT_CHAN_... )` of `Init` with a single call of
`ComputeChannelOperations`; `present` is the value of the test. -/
def Init_speaker {K : Type} [LinearOrderedField K] [FloorRing K] (sqrt : K → K)
    (present : Bool) (i_rate : Nat) (d_x d_z d_min : K)
    (d_channel_amplitude_factor : ℚ) (l : Init_locals) : Init_locals :=
  if present then
    { p_atomic_operations :=
        ComputeChannelOperations sqrt l.p_atomic_operations i_rate
          l.i_next_atomic_operation l.i_source_channel_offset d_x d_z d_min
          d_channel_amplitude_factor,
      i_next_atomic_operation := l.i_next_atomic_operation + 2,
      i_source_channel_offset := l.i_source_channel_offset + 1 }
  else l

/-- The block `if( i_physical_channels & AOUT_CHAN_CENTER )` of `Init`, with its two
calls of `ComputeChannelOperations` on the same source channel. -/
def Init_center {K : Type} [LinearOrderedField K] [FloorRing K] (sqrt : K → K)
    (present : Bool) (i_rate : Nat) (d_x d_z d_min : K)
    (d_channel_amplitude_factor : ℚ) (l : Init_locals) : Init_locals :=
  if present then
    { p_atomic_operations :=
        ComputeChannelOperations sqrt
          (ComputeChannelOperations sqrt l.p_atomic_operations i_rate
            l.i_next_atomic_operation l.i_source_channel_offset (d_x / 5) d_z d_min
            d_channel_amplitude_factor)
          i_rate (l.i_next_atomic_operation + 2) l.i_source_channel_offset (-d_x / 5) d_z
          d_min d_channel_amplitude_factor,
      i_next_atomic_operation := l.i_next_atomic_operation + 2 + 2,
      i_source_channel_offset := l.i_source_channel_offset + 1 }
  else l

/-- The compensation length `d_min` of `Init`: `0` unless `headphone-compensate` is set,
then `d_z_rear` when the layout has a rear center channel and `d_z` otherwise. -/
def Init_d_min {K : Type} [LinearOrderedField K] (headphone_compensate : Int)
    (i_physical_channels : physical_channels) (d_x : K) : K :=
  if headphone_compensate ≠ 0 then
    if i_physical_channels.rearcenter then -d_x / 3 else d_x
  else 0

/-- The number of elementary operations that `Init` declares and allocates. -/
def Init_nb_atomic_operations (i_nb_channels : Nat) (i_physical_channels : physical_channels) :
    Nat :=
  if i_physical_channels.center then i_nb_channels * 2 + 2 else i_nb_channels * 2

/-- The speaker blocks of `Init`, in source order, run on a given table: the table, the
next index and the next source channel they leave. -/
def Init_operations {K : Type} [LinearOrderedField K] [FloorRing K] (sqrt : K → K)
    (headphone_dim headphone_compensate : Int) (i_nb_channels : Nat)
    (i_physical_channels : physical_channels) (i_rate : Nat)
    (p_atomic_operations : List (Option atomic_operation_t)) : Init_locals :=
  ({ p_atomic_operations := p_atomic_operations,
     i_next_atomic_operation := 0,
     i_source_channel_offset := 0 } : Init_locals)
  |> Init_speaker sqrt i_physical_channels.left i_rate
      (-(headphone_dim : K)) (headphone_dim : K)
      (Init_d_min headphone_compensate i_physical_channels (headphone_dim : K))
      (2 / (i_nb_channels : ℚ))
  |> Init_speaker sqrt i_physical_channels.right i_rate
      (headphone_dim : K) (headphone_dim : K)
      (Init_d_min headphone_compensate i_physical_channels (headphone_dim : K))
      (2 / (i_nb_channels : ℚ))
  |> Init_speaker sqrt i_physical_channels.middleleft i_rate
      (-(headphone_dim : K)) 0
      (Init_d_min headphone_compensate i_physical_channels (headphone_dim : K))
      ((3 / 2) / (i_nb_channels : ℚ))
  |> Init_speaker sqrt i_physical_channels.middleright i_rate
      (headphone_dim : K) 0
      (Init_d_min headphone_compensate i_physical_channels (headphone_dim : K))
      ((3 / 2) / (i_nb_channels : ℚ))
  |> Init_speaker sqrt i_physical_channels.rearleft i_rate
      (-(headphone_dim : K)) (-(headphone_dim : K) / 3)
      (Init_d_min headphone_compensate i_physical_channels (headphone_dim : K))
      ((3 / 2) / (i_nb_channels : ℚ))
  |> Init_speaker sqrt i_physical_channels.rearright i_rate
      (headphone_dim : K) (-(headphone_dim : K) / 3)
      (Init_d_min headphone_compensate i_physical_channels (headphone_dim : K))
      ((3 / 2) / (i_nb_channels : ℚ))
  |> Init_speaker sqrt i_physical_channels.rearcenter i_rate
      0 (-(headphone_dim : K))
      (Init_d_min headphone_compensate i_physical_channels (headphone_dim : K))
      ((3 / 2) / (i_nb_channels : ℚ))
  |> Init_center sqrt i_physical_channels.center i_rate
      (headphone_dim : K) (headphone_dim : K)
      (Init_d_min headphone_compensate i_physical_channels (headphone_dim : K))
      ((3 / 4) / (i_nb_channels : ℚ))
  |> Init_speaker sqrt i_physical_channels.lfe i_rate
      0 (-(headphone_dim : K) / 3)
      (Init_d_min headphone_compensate i_physical_channels (headphone_dim : K))
      (5 / (i_nb_channels : ℚ))

/-- The table of operations that `Init` leaves in `p_data`: the speaker blocks run on a
freshly allocated table of the declared number of slots. A slot that was never written
would read as the zero operation. -/
def Init_atomic_operations {K : Type} [LinearOrderedField K] [FloorRing K] (sqrt : K → K)
    (headphone_dim headphone_compensate : Int) (i_nb_channels : Nat)
    (i_physical_channels : physical_channels) (i_rate : Nat) : List atomic_operation_t :=
  (Init_operations sqrt headphone_dim headphone_compensate i_nb_channels
    i_physical_channels i_rate
    (List.replicate (Init_nb_atomic_operations i_nb_channels i_physical_channels)
      none)).p_atomic_operations.map (fun o => o.getD ⟨0, 0, 0, 0⟩)

/-- How a call of `Init` ends: it returns a code, leaving the private data as given, or
it reaches `memset( p_data->p_overflow_buffer, 0, ... )` with a NULL overflow buffer. -/
inductive Init_outcome where
  | ret (code : Int) (p_data : Option filter_sys_t)
  | memset_null (p_data : filter_sys_t)
deriving DecidableEq

/-- Function `Init`. `headphone_dim` and `headphone_compensate` are the values of
`config_GetInt`; `table_alloc_ok` and `overflow_alloc_ok` tell whether the two `malloc`
calls succeed. A NULL table or buffer is the empty list. The second allocation check of
the source tests `p_atomic_operations` again, so a failed allocation of the overflow
buffer is not caught and the `memset` that follows goes through the NULL pointer. The
overflow size is that of the machine loop `Init_overflow_buffer_size_u32`. -/
def Init {K : Type} [LinearOrderedField K] [FloorRing K] (sqrt : K → K)
    (headphone_dim headphone_compensate : Int) (table_alloc_ok overflow_alloc_ok : Bool)
    (p_data : Option filter_sys_t) (i_nb_channels : Nat)
    (i_physical_channels : physical_channels) (i_rate : Nat) : Init_outcome :=
  match p_data with
  | none => Init_outcome.ret 0 none
  | some data =>
    if table_alloc_ok = false then
      Init_outcome.ret (-1)
        (some { data with
          i_nb_atomic_operations :=
            Init_nb_atomic_operations i_nb_channels i_physical_channels,
          p_atomic_operations := [] })
    else if overflow_alloc_ok = false then
      Init_outcome.memset_null
        { data with
          i_nb_atomic_operations :=
            Init_nb_atomic_operations i_nb_channels i_physical_channels,
          p_atomic_operations :=
            Init_atomic_operations sqrt headphone_dim headphone_compensate i_nb_channels
              i_physical_channels i_rate,
          i_overflow_buffer_size :=
            Init_overflow_buffer_size_u32
              (Init_nb_atomic_operations i_nb_channels i_physical_channels)
              (Init_atomic_operations sqrt headphone_dim headphone_compensate i_nb_channels
                i_physical_channels i_rate),
          p_overflow_buffer := [] }
    else
      Init_outcome.ret 0
        (some { data with
          i_nb_atomic_operations :=
            Init_nb_atomic_operations i_nb_channels i_physical_channels,
          p_atomic_operations :=
            Init_atomic_operations sqrt headphone_dim headphone_compensate i_nb_channels
              i_physical_channels i_rate,
          i_overflow_buffer_size :=
            Init_overflow_buffer_size_u32
              (Init_nb_atomic_operations i_nb_channels i_physical_channels)
              (Init_atomic_operations sqrt headphone_dim headphone_compensate i_nb_channels
                i_physical_channels i_rate),
          p_overflow_buffer :=
            List.replicate
              (Init_overflow_buffer_size_u32
                (Init_nb_atomic_operations i_nb_channels i_physical_channels)
                (Init_atomic_operations sqrt headphone_dim headphone_compensate
                  i_nb_channels i_physical_channels i_rate) / 2)
              0 })

/-! ## `OpenFilter` -/

/-- The fields of `audio_format_t` that `OpenFilter` reads or sets. -/
structure audio_format_t where
  i_format : Nat
  i_rate : Nat
  i_physical_channels : physical_channels
  i_channels : Nat
  i_bitspersample : Nat
deriving DecidableEq

/-- The fields of `es_format_t` that `OpenFilter` reads or sets. -/
structure es_format_t where
  i_codec : Nat
  audio : audio_format_t
deriving DecidableEq

/-- How a call of `OpenFilter` ends: with `VLC_EGENERIC`, with `-1`, inside `Init` at the
`memset` through a NULL overflow buffer, or with `VLC_SUCCESS`, the output format and the
filter being set. -/
inductive OpenFilter_outcome where
  | egeneric
  | minus_one
  | memset_null
  | success (fmt_out : es_format_t) (p_filter : filter_t)
deriving DecidableEq

/-- The output channel flags that `OpenFilter` sets: `AOUT_CHAN_CENTER` in downmix mode,
`AOUT_CHAN_LEFT | AOUT_CHAN_RIGHT` in pseudo-mono mode. -/
def OpenFilter_out_channels (downmix : Bool) : physical_channels :=
  if downmix then ⟨false, false, false, false, false, false, false, true, false⟩
  else ⟨true, true, false, false, false, false, false, false, false⟩

/-- Function `OpenFilter`. `AOUT_FMT_S16_NE` is the codec constant of `vlc_aout.h`;
`downmix` and `channel` are the values of the variables `sout-mono-downmix` and
`sout-mono-channel`; `sys_alloc_ok` tells whether the `malloc` of the private data
succeeds; the other parameters are those of `Init`. `Init` is called with a non-NULL
private data, so its outcome `ret _ none` does not occur here. -/
def OpenFilter {K : Type} [LinearOrderedField K] [FloorRing K] (sqrt : K → K)
    (AOUT_FMT_S16_NE : Nat) (headphone_dim headphone_compensate : Int)
    (downmix : Bool) (channel : Int) (sys_alloc_ok table_alloc_ok overflow_alloc_ok : Bool)
    (fmt_in fmt_out : es_format_t) : OpenFilter_outcome :=
  if aout_FormatNbChannels fmt_in.audio.i_physical_channels = 1 then
    OpenFilter_outcome.egeneric
  else if fmt_in.i_codec ≠ AOUT_FMT_S16_NE ∨ fmt_out.i_codec ≠ AOUT_FMT_S16_NE then
    OpenFilter_outcome.minus_one
  else if fmt_in.audio.i_format ≠ fmt_out.audio.i_format ∧
      fmt_in.audio.i_rate ≠ fmt_out.audio.i_rate ∧
      fmt_in.audio.i_format ≠ AOUT_FMT_S16_NE ∧
      fmt_out.audio.i_format ≠ AOUT_FMT_S16_NE ∧
      fmt_in.audio.i_bitspersample ≠ fmt_out.audio.i_bitspersample then
    OpenFilter_outcome.egeneric
  else if sys_alloc_ok = false then
    OpenFilter_outcome.egeneric
  else
    match Init sqrt headphone_dim headphone_compensate table_alloc_ok overflow_alloc_ok
        (some { b_downmix := downmix,
                i_nb_channels := aout_FormatNbChannels fmt_in.audio.i_physical_channels,
                i_channel_selected := channel,
                i_bitspersample := fmt_out.audio.i_bitspersample,
                i_overflow_buffer_size := 0,
                p_overflow_buffer := [],
                i_nb_atomic_operations := 0,
                p_atomic_operations := [] })
        (aout_FormatNbChannels fmt_in.audio.i_physical_channels)
        fmt_in.audio.i_physical_channels fmt_in.audio.i_rate with
    | Init_outcome.memset_null _ => OpenFilter_outcome.memset_null
    | Init_outcome.ret _ none => OpenFilter_outcome.egeneric
    | Init_outcome.ret code (some sys) =>
      if code < 0 then OpenFilter_outcome.egeneric
      else
        OpenFilter_outcome.success
          { i_codec := fmt_out.i_codec,
            audio :=
              { i_format := fmt_out.i_codec,
                i_rate := fmt_in.audio.i_rate,
                i_physical_channels := OpenFilter_out_channels downmix,
                i_channels := if downmix then 1 else 2,
                i_bitspersample := fmt_out.audio.i_bitspersample } }
          { fmt_in_nb_channels := aout_FormatNbChannels fmt_in.audio.i_physical_channels,
            fmt_out_nb_channels := aout_FormatNbChannels (OpenFilter_out_channels downmix),
            p_sys := sys }

/-! ## The tap table in the words of the spec -/

/-- A virtual speaker: its source channel, its position `(x, z)` and its weight `base`. -/
structure virtual_speaker (K : Type) where
  source : Nat
  x : K
  z : K
  base : ℚ

/-- Spec wording (section 4.1): the virtual speakers of a layout in canonical order, for
head radius `d` and `N` active channels. Left `(-d, d)`, Right `(d, d)`, MiddleLeft
`(-d, 0)`, MiddleRight `(d, 0)`, RearLeft `(-d, -d/3)`, RearRight `(d, -d/3)`, RearCenter
`(0, -d)`, Center two speakers at `(d/5, d)` and `(-d/5, d)`, LFE `(0, -d/3)`; `base` is
`2/N` for Left and Right, `1.5/N` for the middle and rear channels, `0.75/N` for each
Center speaker and `5/N` for LFE. The source channel of a speaker is the rank of its
channel among the active ones. -/
def spec_virtual_speakers {K : Type} [LinearOrderedField K] (c : physical_channels) (d : K)
    (N : Nat) : List (virtual_speaker K) :=
  (if c.left then [⟨0, -d, d, 2 / (N : ℚ)⟩] else [])
  ++ (if c.right then [⟨c.left.toNat, d, d, 2 / (N : ℚ)⟩] else [])
  ++ (if c.middleleft then [⟨c.left.toNat + c.right.toNat, -d, 0, (3 / 2) / (N : ℚ)⟩] else [])
  ++ (if c.middleright then
        [⟨c.left.toNat + c.right.toNat + c.middleleft.toNat, d, 0, (3 / 2) / (N : ℚ)⟩]
      else [])
  ++ (if c.rearleft then
        [⟨c.left.toNat + c.right.toNat + c.middleleft.toNat + c.middleright.toNat,
          -d, -d / 3, (3 / 2) / (N : ℚ)⟩]
      else [])
  ++ (if c.rearright then
        [⟨c.left.toNat + c.right.toNat + c.middleleft.toNat + c.middleright.toNat
            + c.rearleft.toNat, d, -d / 3, (3 / 2) / (N : ℚ)⟩]
      else [])
  ++ (if c.rearcenter then
        [⟨c.left.toNat + c.right.toNat + c.middleleft.toNat + c.middleright.toNat
            + c.rearleft.toNat + c.rearright.toNat, 0, -d, (3 / 2) / (N : ℚ)⟩]
      else [])
  ++ (if c.center then
        [⟨c.left.toNat + c.right.toNat + c.middleleft.toNat + c.middleright.toNat
            + c.rearleft.toNat + c.rearright.toNat + c.rearcenter.toNat,
          d / 5, d, (3 / 4) / (N : ℚ)⟩,
         ⟨c.left.toNat + c.right.toNat + c.middleleft.toNat + c.middleright.toNat
            + c.rearleft.toNat + c.rearright.toNat + c.rearcenter.toNat,
          -d / 5, d, (3 / 4) / (N : ℚ)⟩]
      else [])
  ++ (if c.lfe then
        [⟨c.left.toNat + c.right.toNat + c.middleleft.toNat + c.middleright.toNat
            + c.rearleft.toNat + c.rearright.toNat + c.rearcenter.toNat + c.center.toNat,
          0, -d / 3, 5 / (N : ℚ)⟩]
      else [])

/-- Spec wording (section 4.1): the panning gains `(left ear, right ear)` of a speaker
at horizontal position `x` with weight `base`. -/
def spec_panning_gains {K : Type} [LinearOrderedField K] (x : K) (base : ℚ) : List ℚ :=
  if x < 0 then [base * (11 / 10) / 2, base * (9 / 10) / 2]
  else if x > 0 then [base * (9 / 10) / 2, base * (11 / 10) / 2]
  else [base / 2, base / 2]

/-- The two operations of a virtual speaker, left ear first, as
`ComputeChannelOperations` computes them. -/
def speaker_operations {K : Type} [LinearOrderedField K] [FloorRing K] (sqrt : K → K)
    (i_rate : Nat) (d_compensation_length : K) (s : virtual_speaker K) :
    List atomic_operation_t :=
  [left_ear_operation sqrt i_rate s.source s.x s.z d_compensation_length s.base,
   right_ear_operation sqrt i_rate s.source s.x s.z d_compensation_length s.base]

/-! ## Gain directed at one ear -/

/-- The sum of the gains of the operations of a table that are directed at the ear
`ear` (`i_dest_channel_offset`: 0 for the left ear, 1 for the right ear). -/
def ear_gain (p_atomic_operations : List atomic_operation_t) (ear : Nat) : ℚ :=
  ((p_atomic_operations.filter (fun op => op.i_dest_channel_offset = ear)).map
    (fun op => op.d_amplitude_factor)).sum

/-! ## The copy and slide steps on bytes -/

/-- The part of `stereo2mono_downmix` under `/* Slide the overflow buffer */`, on buffers
of bytes (`byte_t`): `i_overflow_size` and `i_out_size` are the byte sizes of the source.
The result is the output buffer after the `memcpy` from the front of the overflow buffer
and the overflow buffer after the slide loop; `none` stands for a loop that does not
terminate. -/
def slide_overflow {α : Type} (zero : α) (i_overflow_size i_out_size : Nat)
    (p_out p_overflow : List α) : Option (List α × List α) :=
  match slide_loop zero i_overflow_size i_out_size (i_overflow_size + 1) 0 p_overflow with
  | none => none
  | some p_slid =>
    some (if i_out_size > i_overflow_size then memcpy p_out 0 p_overflow 0 i_overflow_size
          else memcpy p_out 0 p_overflow 0 i_out_size,
      p_slid)

/-! ## The delayed weighted sum in the words of the spec -/

/-- Spec wording (section 4.3): the delayed weighted sum for frame `t` and ear `e` of a
stream `input` of frames of `N` channels, restricted to the taps of delay at least `lo`:
the sum, over the taps with destination `e` and `lo <= delay <= t`, of
`gain * input[t - delay][source]`. -/
def delayed_sum (N : Nat) (input : List Int) (ops : List atomic_operation_t) (lo t e : Nat) :
    ℚ :=
  ((ops.filter (fun op => op.i_dest_channel_offset = e ∧ lo ≤ op.i_delay ∧ op.i_delay ≤ t)).map
    (fun op => (rd input ((t - op.i_delay) * N + op.i_source_channel_offset) : ℚ)
      * op.d_amplitude_factor)).sum

end Mono

/-!
VLC `duplicate` stream output (modules/stream_out/duplicate.c)

A shallow embedding of `NumInRange`, `ESSelected`, `Add` and `Send`.

Modelling conventions.

* A C string is the `List Char` of its characters before the terminating NUL; a NULL
  pointer is `none`.
* An `int` is an integer; `sscanf` stores a converted number reduced to 32 bits
  (`toInt32`).
* A loop whose termination is not structural takes a fuel argument and returns `none`
  when the fuel runs out; the theorems show that the fuel given by the caller suffices.
* The other modules of the stream output chain are parameters: `sout_StreamIdAdd` is a
  function of the output stream, and what `Send` passes to `sout_StreamIdSend` is
  recorded as a list of events.
-/

namespace Duplicate

/-! ## `sscanf` -/

/-- Conversion of an integer to `int` (two's complement wrap-around; the identity on the
range -2^31 .. 2^31 - 1). -/
def toInt32 (x : Int) : Int := (x + 2147483648) % 4294967296 - 2147483648

/-- Library call `isspace` in the "C" locale. -/
def isspace (c : Char) : Bool :=
  c = ' ' ∨ c = '\t' ∨ c = '\n' ∨ c = Char.ofNat 11 ∨ c = Char.ofNat 12 ∨ c = '\r'

/-- Library call `isdigit`. -/
def isdigit (c : Char) : Bool := '0' ≤ c ∧ c ≤ '9'

/-- The value of a string of decimal digits after the digits already read gave `acc`. -/
def scan_digits (acc : Nat) : List Char → Nat × List Char
  | [] => (acc, [])
  | c :: cs =>
    if isdigit c then scan_digits (acc * 10 + (c.toNat - 48)) cs else (acc, c :: cs)

/-- The conversion `%d` of `sscanf` once white space has been skipped: an optional sign and
at least one decimal digit. The result is the number and the rest of the input, `none`
for a matching failure. -/
def scan_int (s : List Char) : Option (Int × List Char) :=
  match s with
  | '-' :: c :: cs =>
    if isdigit c then
      some (-((scan_digits 0 (c :: cs)).1 : Int), (scan_digits 0 (c :: cs)).2)
    else none
  | '+' :: c :: cs =>
    if isdigit c then
      some (((scan_digits 0 (c :: cs)).1 : Int), (scan_digits 0 (c :: cs)).2)
    else none
  | c :: cs =>
    if isdigit c then
      some (((scan_digits 0 (c :: cs)).1 : Int), (scan_digits 0 (c :: cs)).2)
    else none
  | [] => none

/-- Library call `sscanf( s, "%d-%d", &beginRange, &endRange )`: the result is the return
value and the contents of the two variables afterwards. The return value is `EOF = -1`
when the input ends before the first conversion, otherwise the number of variables
assigned; a variable that is not assigned keeps the value it had (`beginRange0`,
`endRange0`). -/
def sscanf_range (s : List Char) (beginRange0 endRange0 : Int) : Int × Int × Int :=
  if s.dropWhile isspace = [] then (-1, beginRange0, endRange0)
  else
    match scan_int (s.dropWhile isspace) with
    | none => (0, beginRange0, endRange0)
    | some (a, rest) =>
      match rest with
      | '-' :: rest1 =>
        match scan_int (rest1.dropWhile isspace) with
        | some (b, _) => (2, toInt32 a, toInt32 b)
        | none => (1, toInt32 a, endRange0)
      | _ => (1, toInt32 a, endRange0)

/-! ## `NumInRange` -/

/-- Function `NumInRange`. `beginRange0` and `endRange0` are the values that the
uninitialised locals `beginRange` and `endRange` hold before the call of `sscanf`. -/
def NumInRange (beginRange0 endRange0 : Int) (psz_range : List Char) (i_num : Int) : Bool :=
  if (sscanf_range psz_range beginRange0 endRange0).1 = 0 then false
  else if (sscanf_range psz_range beginRange0 endRange0).1 = 1 then
    decide ((sscanf_range psz_range beginRange0 endRange0).2.1 = i_num)
  else
    (decide (i_num ≥ (sscanf_range psz_range beginRange0 endRange0).2.1) &&
      decide (i_num ≤ (sscanf_range psz_range beginRange0 endRange0).2.2))
    || (decide ((sscanf_range psz_range beginRange0 endRange0).2.1
          > (sscanf_range psz_range beginRange0 endRange0).2.2) &&
        (decide (i_num ≤ (sscanf_range psz_range beginRange0 endRange0).2.1) &&
          decide (i_num ≥ (sscanf_range psz_range beginRange0 endRange0).2.2)))

/-! ## Decimal numerals -/

/-- The decimal digit `d` as a character. -/
def digit_char (d : Nat) : Char := Char.ofNat (48 + d)

/-- The decimal numeral of a natural number, most significant digit first. -/
def decimal_nat (n : Nat) : List Char :=
  if n = 0 then ['0'] else (Nat.digits 10 n).reverse.map digit_char

/-- The decimal numeral of an integer, with a minus sign when it is negative. -/
def decimal (z : Int) : List Char :=
  if z < 0 then '-' :: decimal_nat z.natAbs else decimal_nat z.natAbs

/-! ## `ESSelected` -/

/-- Modelled from the spec: the ES categories of `enum es_format_category_e`
(`vlc_es.h`). -/
inductive es_format_category_e where
  | UNKNOWN_ES
  | VIDEO_ES
  | AUDIO_ES
  | SPU_ES
  | DATA_ES
deriving DecidableEq

/-- The fields of `es_format_t` that `ESSelected` reads. -/
structure es_format_t where
  i_cat : es_format_category_e
  i_id : Int
  i_group : Int
deriving DecidableEq

/-- The three tri-state variables of `ESSelected`: not tested (-1), failed (0),
succeeded (1). -/
structure selection_t where
  i_cat : Int
  i_es : Int
  i_prgm : Int
deriving DecidableEq

/-- Library call `strchr( psz, c )`: the characters before the first `c` and the
characters after it, `none` when `c` does not occur. -/
def strchr (c : Char) : List Char → Option (List Char × List Char)
  | [] => none
  | x :: xs =>
    if x = c then some ([], xs)
    else
      match strchr c xs with
      | some (before, after) => some (x :: before, after)
      | none => none

/-- The test `!strncmp( psz, lit, strlen( lit ) )`: `lit` is an initial segment of
`psz`. -/
def strncmp_eq (psz lit : List Char) : Bool := lit.isPrefixOf psz

/-- The body of the `while` loop of `ESSelected` for one selection `psz` (the characters
up to the next comma, white space skipped): the new values of the three variables. -/
def ESSelected_token (beginRange0 endRange0 : Int) (fmt : es_format_t) (psz : List Char)
    (st : selection_t) : selection_t :=
  if strncmp_eq psz "no-audio".toList ∨ strncmp_eq psz "noaudio".toList then
    if st.i_cat = -1 then
      { st with i_cat := if fmt.i_cat ≠ es_format_category_e.AUDIO_ES then 1 else 0 }
    else st
  else if strncmp_eq psz "no-video".toList ∨ strncmp_eq psz "novideo".toList then
    if st.i_cat = -1 then
      { st with i_cat := if fmt.i_cat ≠ es_format_category_e.VIDEO_ES then 1 else 0 }
    else st
  else if strncmp_eq psz "no-spu".toList ∨ strncmp_eq psz "nospu".toList then
    if st.i_cat = -1 then
      { st with i_cat := if fmt.i_cat ≠ es_format_category_e.SPU_ES then 1 else 0 }
    else st
  else if strncmp_eq psz "audio".toList then
    if st.i_cat = -1 then
      { st with i_cat := if fmt.i_cat = es_format_category_e.AUDIO_ES then 1 else 0 }
    else st
  else if strncmp_eq psz "video".toList then
    if st.i_cat = -1 then
      { st with i_cat := if fmt.i_cat = es_format_category_e.VIDEO_ES then 1 else 0 }
    else st
  else if strncmp_eq psz "spu".toList then
    if st.i_cat = -1 then
      { st with i_cat := if fmt.i_cat = es_format_category_e.SPU_ES then 1 else 0 }
    else st
  else
    match strchr '=' psz with
    | some (name, psz_arg) =>
      if name = "no-es".toList ∨ name = "noes".toList then
        if st.i_es = -1 then
          { st with i_es :=
              if NumInRange beginRange0 endRange0 psz_arg fmt.i_id then 0 else -1 }
        else st
      else if name = "es".toList then
        if st.i_es = -1 then
          { st with i_es :=
              if NumInRange beginRange0 endRange0 psz_arg fmt.i_id then 1 else -1 }
        else st
      else if name = "no-prgm".toList ∨ name = "noprgm".toList ∨
          name = "no-program".toList ∨ name = "noprogram".toList then
        if fmt.i_group ≥ 0 ∧ st.i_prgm = -1 then
          { st with i_prgm :=
              if NumInRange beginRange0 endRange0 psz_arg fmt.i_group then 0 else -1 }
        else st
      else if name = "prgm".toList ∨ name = "program".toList then
        if fmt.i_group ≥ 0 ∧ st.i_prgm = -1 then
          { st with i_prgm :=
              if NumInRange beginRange0 endRange0 psz_arg fmt.i_group then 1 else -1 }
        else st
      else st
    | none => st

/-- The statement `while( *psz == ' ' || *psz == '\t' ) psz++;`. -/
def skip_blank (psz : List Char) : List Char :=
  psz.dropWhile (fun c => c = ' ' ∨ c = '\t')

/-- The `while( psz && *psz )` loop of `ESSelected`: `psz` is what remains of the copy of
the selection string. After the last selection (no comma found) `psz` becomes NULL and
the loop ends. -/
def ESSelected_loop (beginRange0 endRange0 : Int) (fmt : es_format_t) :
    Nat → List Char → selection_t → Option selection_t
  | 0, _, _ => none
  | fuel + 1, psz, st =>
    if psz = [] then some st
    else
      match strchr ',' (skip_blank psz) with
      | some ([], p) => ESSelected_loop beginRange0 endRange0 fmt fuel p st
      | some (tok, p) =>
        ESSelected_loop beginRange0 endRange0 fmt fuel p
          (ESSelected_token beginRange0 endRange0 fmt tok st)
      | none => some (ESSelected_token beginRange0 endRange0 fmt (skip_blank psz) st)

/-- Function `ESSelected`. `strdup_ok` tells whether `strdup` succeeds; `beginRange0` and
`endRange0` are the parameters of `NumInRange`. The result is `none` when the loop does
not terminate. -/
def ESSelected (beginRange0 endRange0 : Int) (strdup_ok : Bool) (fmt : es_format_t)
    (psz_select : Option (List Char)) : Option Bool :=
  match psz_select with
  | none => some true
  | some s =>
    if s = [] then some true
    else if strdup_ok = false then some false
    else
      (ESSelected_loop beginRange0 endRange0 fmt (s.length + 1) s ⟨-1, -1, -1⟩).map
        (fun st => decide (st.i_cat = 1 ∨ st.i_es = 1 ∨ st.i_prgm = 1))

/-! ## Selection chains as lists of selections -/

/-- The selection string made of the selections `toks` separated by commas. -/
def chain_of (toks : List (List Char)) : List Char := [','].intercalate toks

/-- The selection begins with one of the category words that `ESSelected` recognises:
`no-audio`, `noaudio`, `no-video`, `novideo`, `no-spu`, `nospu`, `audio`, `video`,
`spu`. -/
def is_category_token (psz : List Char) : Bool :=
  strncmp_eq psz "no-audio".toList || strncmp_eq psz "noaudio".toList ||
  strncmp_eq psz "no-video".toList || strncmp_eq psz "novideo".toList ||
  strncmp_eq psz "no-spu".toList || strncmp_eq psz "nospu".toList ||
  strncmp_eq psz "audio".toList || strncmp_eq psz "video".toList ||
  strncmp_eq psz "spu".toList

/-! ## `Add` -/

/-- A duplicated output (`duplicated_stream_t`): the output stream, identified by a
number, and its selection string. -/
structure duplicated_stream_t where
  stream : Nat
  select_chain : Option (List Char)
deriving DecidableEq

/-- The entry of one output in an id (`duplicated_id_t`): the id that the output returned
(`none` for NULL) and the output stream. -/
structure duplicated_id_t where
  id : Option Nat
  stream_owner : Nat
deriving DecidableEq

/-- The `vlc_vector_foreach_ref` loop of `Add` from the stream of index `idx` on: the
vector `dup_ids` and the counter `i_valid_streams` at the end. `sout_StreamIdAdd` gives
the id that an output returns for the ES, `strdup_ok idx` tells whether the `strdup` of
`ESSelected` succeeds for the stream `idx`, and `push_ok idx` whether `vlc_vector_push`
does; a failed push leaves the vector as it is. The result is `none` when a call of
`ESSelected` does not terminate. -/
def Add_loop (beginRange0 endRange0 : Int) (sout_StreamIdAdd : Nat → Option Nat)
    (strdup_ok push_ok : Nat → Bool) (p_fmt : es_format_t) :
    List duplicated_stream_t → Nat → List duplicated_id_t → Nat →
      Option (List duplicated_id_t × Nat)
  | [], _, dup_ids, i_valid_streams => some (dup_ids, i_valid_streams)
  | dup_stream :: rest, idx, dup_ids, i_valid_streams =>
    match ESSelected beginRange0 endRange0 (strdup_ok idx) p_fmt dup_stream.select_chain with
    | none => none
    | some true =>
      Add_loop beginRange0 endRange0 sout_StreamIdAdd strdup_ok push_ok p_fmt rest (idx + 1)
        (if push_ok idx then
            dup_ids ++ [⟨sout_StreamIdAdd dup_stream.stream, dup_stream.stream⟩]
          else dup_ids)
        (if sout_StreamIdAdd dup_stream.stream ≠ none then i_valid_streams + 1
          else i_valid_streams)
    | some false =>
      Add_loop beginRange0 endRange0 sout_StreamIdAdd strdup_ok push_ok p_fmt rest (idx + 1)
        (if push_ok idx then dup_ids ++ [⟨none, dup_stream.stream⟩] else dup_ids)
        i_valid_streams

/-- The entry that the loop of `Add` builds for the stream `dup_stream` of index `idx`: the
id returned by the output when the ES is selected for it, NULL when the ES is ignored;
the output stream is recorded in both cases. -/
def Add_entry (beginRange0 endRange0 : Int) (sout_StreamIdAdd : Nat → Option Nat)
    (strdup_ok : Nat → Bool) (p_fmt : es_format_t) (idx : Nat)
    (dup_stream : duplicated_stream_t) : duplicated_id_t :=
  { id :=
      if ESSelected beginRange0 endRange0 (strdup_ok idx) p_fmt dup_stream.select_chain
          = some true then sout_StreamIdAdd dup_stream.stream
      else none,
    stream_owner := dup_stream.stream }

/-- Function `Add`. `id_alloc_ok` tells whether the `malloc` of the id succeeds. The inner
`Option` is the returned id (`none` for NULL), given by its vector `dup_ids`; the outer
one is `none` when the call does not terminate. -/
def Add (beginRange0 endRange0 : Int) (sout_StreamIdAdd : Nat → Option Nat)
    (id_alloc_ok : Bool) (strdup_ok push_ok : Nat → Bool)
    (streams : List duplicated_stream_t) (p_fmt : es_format_t) :
    Option (Option (List duplicated_id_t)) :=
  if id_alloc_ok = false then some none
  else
    match Add_loop beginRange0 endRange0 sout_StreamIdAdd strdup_ok push_ok p_fmt streams 0
        [] 0 with
    | none => none
    | some (dup_ids, i_valid_streams) =>
      if i_valid_streams ≤ 0 then some none else some (some dup_ids)

/-! ## `Send` -/

/-- What `Send` does with a buffer: it passes the buffer itself or a duplicate of it to
`sout_StreamIdSend` with an output stream and an id, or it releases the buffer. -/
inductive send_event where
  | StreamIdSend (stream_owner : Nat) (id : Option Nat) (p_buffer : Nat) (duplicate : Bool)
  | Release (p_buffer : Nat)
deriving DecidableEq

/-- The body of the `while` loop of `Send` for the buffer `p_buffer`. `block_Duplicate_ok i`
tells whether `block_Duplicate` succeeds for the entry `i`. The result is `none` when the
assertion `id->dup_ids.size > 0` fails. The pointer `vlc_vector_last_ref( &id->dup_ids )`
is the address of the last entry, which is not NULL. -/
def Send_buffer (block_Duplicate_ok : Nat → Bool) (dup_ids : List duplicated_id_t)
    (p_buffer : Nat) : Option (List send_event) :=
  if dup_ids.length > 0 then
    some
      ((List.range (dup_ids.length - 1)).flatMap (fun i =>
          match dup_ids[i]? with
          | some dup_id =>
            if dup_id.id ≠ none ∧ block_Duplicate_ok i = true then
              [send_event.StreamIdSend dup_id.stream_owner dup_id.id p_buffer true]
            else []
          | none => [])
        ++ (match dup_ids.getLast? with
            | some last_dup_id =>
              [send_event.StreamIdSend last_dup_id.stream_owner last_dup_id.id p_buffer false]
            | none => [send_event.Release p_buffer]))
  else none

/-- Function `Send` on the linked list of buffers `p_buffer`, with the vector `dup_ids`
of the id: the events in program order, `none` when the assertion fails. -/
def Send (block_Duplicate_ok : Nat → Nat → Bool) (dup_ids : List duplicated_id_t) :
    List Nat → Option (List send_event)
  | [] => some []
  | p_buffer :: p_next =>
    match Send_buffer (block_Duplicate_ok p_buffer) dup_ids p_buffer with
    | none => none
    | some events =>
      match Send block_Duplicate_ok dup_ids p_next with
      | none => none
      | some rest => some (events ++ rest)

end Duplicate

namespace Mono

/-! ## Basic facts -/

theorem toInt16_of_isInt16 {x : Int} (h : isInt16 x) : toInt16 x = x := by
  unfold isInt16 at h
  unfold toInt16
  omega

theorem isInt16_toInt16 (x : Int) : isInt16 (toInt16 x) := by
  unfold isInt16 toInt16
  omega

theorem shiftRight_one (x : Int) : x >>> (1 : Nat) = x / 2 := by
  rw [Int.shiftRight_eq_div_pow]
  norm_num

theorem rd_of_getElem? {p : List Int} {i : Nat} {a : Int} (h : p[i]? = some a) :
    rd p i = a := by
  simp [rd, List.getD_eq_getElem?_getD, h]

theorem isInt16_rd {p : List Int} (h : ∀ x ∈ p, isInt16 x) (i : Nat) : isInt16 (rd p i) := by
  unfold rd
  rw [List.getD_eq_getElem?_getD]
  by_cases hi : i < p.length
  · rw [List.getElem?_eq_getElem hi]
    exact h _ (List.getElem_mem hi)
  · rw [List.getElem?_eq_none (not_lt.mp hi)]
    decide

/-- The average of two 16-bit samples is a 16-bit sample lying between them. -/
theorem average_facts {a b : Int} (ha : isInt16 a) (hb : isInt16 b) :
    isInt16 ((a + b) >>> (1 : Nat)) ∧ min a b ≤ (a + b) >>> (1 : Nat) ∧
      (a + b) >>> (1 : Nat) ≤ max a b := by
  rw [shiftRight_one]
  unfold isInt16 at *
  omega

/-! ## `mono` -/

theorem mono_loop_spec (total : Nat) (p_in : List Int) :
    ∀ (fuel n r : Nat) (p_out : List Int), total + 2 ≤ n + 2 * fuel → 0 < fuel →
      ∃ out, mono_loop total p_in fuel n r p_out = some (out, r + (total + 1 - n) / 2) ∧
        out.length = p_out.length ∧
        ∀ i, out[i]? =
          if r ≤ i ∧ i < r + (total + 1 - n) / 2 ∧ i < p_out.length then
            some (toInt16
              ((rd p_in (n + 2 * (i - r)) + rd p_in (n + 2 * (i - r) + 1)) >>> (1 : Nat)))
          else p_out[i]? := by
  intro fuel
  induction fuel with
  | zero => intro n r p_out _ h; omega
  | succ fuel ih =>
    intro n r p_out h _
    unfold mono_loop
    by_cases hn : n < total
    · rw [if_pos hn]
      obtain ⟨out, h1, h2, h3⟩ := ih (n + 2) (r + 1)
        (p_out.set r (toInt16 ((rd p_in n + rd p_in (n + 1)) >>> (1 : Nat))))
        (by omega) (by omega)
      refine ⟨out, ?_, ?_, ?_⟩
      · rw [h1]
        have : r + 1 + (total + 1 - (n + 2)) / 2 = r + (total + 1 - n) / 2 := by omega
        rw [this]
      · rw [h2, List.length_set]
      · intro i
        rw [h3 i, List.length_set, List.getElem?_set]
        by_cases hi : r = i
        · subst hi
          have e : (total + 1 - n) / 2 ≥ 1 := by omega
          by_cases hl : r < p_out.length
          · rw [if_neg (by omega), if_pos rfl, if_pos hl, if_pos ⟨le_refl _, by omega, hl⟩]
            simp
          · rw [if_neg (by omega), if_pos rfl, if_neg hl, if_neg (by omega)]
            simp [List.getElem?_eq_none (not_lt.mp hl)]
        · rw [if_neg hi]
          by_cases hc : r + 1 ≤ i ∧ i < r + 1 + (total + 1 - (n + 2)) / 2 ∧ i < p_out.length
          · rw [if_pos hc, if_pos (by omega)]
            have : n + 2 + 2 * (i - (r + 1)) = n + 2 * (i - r) := by omega
            rw [this]
          · rw [if_neg hc, if_neg (by omega)]
    · rw [if_neg hn]
      refine ⟨p_out, ?_, rfl, ?_⟩
      · have : (total + 1 - n) / 2 = 0 := by omega
        rw [this]; rfl
      · intro i
        rw [if_neg (by omega)]

/-- C5. `mono` (the downmix reducer) terminates, and for every complete pair of 16-bit
input samples `(a, b) = (p_in[2r], p_in[2r+1])` whose output slot exists, the output
sample `r` is `(a + b) >> 1`; this value is `floor((a + b) / 2)` computed without
overflow, it fits in 16 bits and lies between `min a b` and `max a b`. -/
theorem mono_pair_average (p_sys : filter_sys_t) (p_output p_input : aout_buffer_t)
    (h16 : ∀ x ∈ p_input.p_buffer, isInt16 x) :
    ∃ out count, mono p_sys p_output p_input = some (out, count) ∧
      ∀ r a b, 2 * r + 1 < p_input.i_nb_samples * p_sys.i_nb_channels →
        r < p_output.p_buffer.length →
        p_input.p_buffer[2 * r]? = some a → p_input.p_buffer[2 * r + 1]? = some b →
        out[r]? = some ((a + b) >>> (1 : Nat)) ∧
        (a + b) >>> (1 : Nat) = ⌊((a : ℚ) + (b : ℚ)) / 2⌋ ∧
        isInt16 ((a + b) >>> (1 : Nat)) ∧
        min a b ≤ (a + b) >>> (1 : Nat) ∧ (a + b) >>> (1 : Nat) ≤ max a b := by
  obtain ⟨out, h1, _, h3⟩ := mono_loop_spec (p_input.i_nb_samples * p_sys.i_nb_channels)
    p_input.p_buffer (p_input.i_nb_samples * p_sys.i_nb_channels + 1) 0 0 p_output.p_buffer
    (by omega) (by omega)
  refine ⟨out, _, h1, ?_⟩
  intro r a b hr hlen ha hb
  have ha16 : isInt16 a := h16 a (List.getElem?_mem ha)
  have hb16 : isInt16 b := h16 b (List.getElem?_mem hb)
  obtain ⟨f1, f2, f3⟩ := average_facts ha16 hb16
  refine ⟨?_, ?_, f1, f2, f3⟩
  · rw [h3 r, if_pos ⟨Nat.zero_le _, by omega, hlen⟩]
    have e1 : 0 + 2 * (r - 0) = 2 * r := by omega
    rw [e1, rd_of_getElem? ha, rd_of_getElem? hb, toInt16_of_isInt16 f1]
  · rw [shiftRight_one]
    have : ((a : ℚ) + (b : ℚ)) / 2 = (((a + b : Int) : ℚ)) / ((2 : Nat) : ℚ) := by
      push_cast; ring
    rw [this, Rat.floor_intCast_div_natCast]
    rfl

/-- C5 witness: the pair `(100, -100)` is reduced to `0`. -/
theorem mono_pair_average_witness :
    ∃ out count, mono ⟨true, 2, -1, 16, 0, [], 0, []⟩ ⟨[0], 1, 2⟩ ⟨[100, -100], 1, 4⟩
        = some (out, count) ∧ out[0]? = some 0 := by
  obtain ⟨out, count, h, hr⟩ :=
    mono_pair_average ⟨true, 2, -1, 16, 0, [], 0, []⟩ ⟨[0], 1, 2⟩ ⟨[100, -100], 1, 4⟩
      (by decide)
  exact ⟨out, count, h, ((hr 0 100 (-100) (by decide) (by decide) (by decide) (by decide)).1).trans (by decide)⟩

/-! ## `stereo_to_mono` -/

theorem stereo_to_mono_loop_average (N total : Nat) (p_in : List Int) :
    ∀ (fuel n : Nat) (p_out : List Int), total + 2 ≤ n + 2 * fuel → 0 < fuel →
      n ≤ total → (total - n) % 2 = 0 → total ≤ p_out.length →
      ∃ out, stereo_to_mono_loop N (-1) total p_in fuel n p_out = some (out, total) ∧
        out.length = p_out.length ∧
        ∀ i, out[i]? =
          if n ≤ i ∧ i < total then
            some (toInt16 ((rd p_in (i - (i - n) % 2) + rd p_in (i - (i - n) % 2 + 1))
              >>> (1 : Nat)))
          else p_out[i]? := by
  intro fuel
  induction fuel with
  | zero => intro n p_out _ h; omega
  | succ fuel ih =>
    intro n p_out h _ hn hpar hlen
    unfold stereo_to_mono_loop
    by_cases hlt : n < total
    · rw [if_pos hlt, if_pos rfl]
      obtain ⟨out, h1, h2, h3⟩ := ih (n + 1 + 1)
        ((p_out.set (n + 1) (toInt16 ((rd p_in n + rd p_in (n + 1)) >>> (1 : Nat)))).set n
          (toInt16 ((rd p_in n + rd p_in (n + 1)) >>> (1 : Nat))))
        (by omega) (by omega) (by omega) (by omega) (by simpa using hlen)
      refine ⟨out, h1, by simpa using h2, ?_⟩
      intro i
      rw [h3 i, List.getElem?_set, List.getElem?_set, List.length_set]
      by_cases e0 : n = i
      · subst e0
        rw [if_neg (by omega), if_pos rfl, if_pos (by omega), if_pos (by omega)]
        have : n - (n - n) % 2 = n := by omega
        rw [this]
      · by_cases e1 : n + 1 = i
        · subst e1
          rw [if_neg (by omega), if_neg (by omega), if_pos rfl, if_pos (by omega),
            if_pos (by omega)]
          have : n + 1 - (n + 1 - n) % 2 = n := by omega
          rw [this]
        · rw [if_neg e0, if_neg e1]
          by_cases hc : n + 1 + 1 ≤ i ∧ i < total
          · rw [if_pos hc, if_pos (by omega)]
            have : (i - (n + 1 + 1)) % 2 = (i - n) % 2 := by omega
            rw [this]
          · rw [if_neg hc, if_neg (by omega)]
    · rw [if_neg hlt]
      have : n = total := by omega
      subst this
      refine ⟨p_out, rfl, rfl, ?_⟩
      intro i
      rw [if_neg (by omega)]

theorem toUInt32_natCast {c : Nat} (h : c < 4294967296) : toUInt32 (c : Int) = c := by
  unfold toUInt32
  omega

theorem stereo_to_mono_loop_selected (N c total : Nat) (p_in : List Int)
    (hc32 : c < 4294967296) :
    ∀ (fuel n : Nat) (p_out : List Int), total + 1 ≤ n + fuel → 0 < fuel →
      ∃ out, stereo_to_mono_loop N (c : Int) total p_in fuel n p_out
          = some (out, max n total) ∧
        out.length = p_out.length ∧
        ∀ i, out[i]? =
          if i < p_out.length then
            if n ≤ i ∧ i < total ∧ i % N = c then some (rd p_in i)
            else if n + 1 ≤ i ∧ i < total + 1 ∧ (i - 1) % N = c then some (rd p_in (i - 1))
            else p_out[i]?
          else none := by
  intro fuel
  induction fuel with
  | zero => intro n p_out _ h; omega
  | succ fuel ih =>
    intro n p_out h _
    unfold stereo_to_mono_loop
    by_cases hlt : n < total
    · have hne : ¬ ((c : Int) = -1) := by omega
      rw [if_pos hlt, if_neg hne, toUInt32_natCast hc32]
      have hmax : max (n + 1) total = max n total := by omega
      by_cases hsel : n % N = c
      · rw [if_pos hsel]
        obtain ⟨out, h1, h2, h3⟩ := ih (n + 1)
          ((p_out.set (n + 1) (rd p_in n)).set n (rd p_in n)) (by omega) (by omega)
        refine ⟨out, by rw [h1, hmax], by simpa using h2, ?_⟩
        intro i
        rw [h3 i, List.getElem?_set, List.getElem?_set]
        simp only [List.length_set]
        by_cases e0 : i = n
        · subst e0
          split_ifs <;> first | rfl | omega
        · by_cases e1 : i = n + 1
          · subst e1
            have hs' : (n + 1 - 1) % N = c := by simpa using hsel
            have hr' : n + 1 - 1 = n := by omega
            rw [hr']
            split_ifs <;> first | rfl | omega
          · split_ifs <;> first | rfl | omega
      · rw [if_neg hsel]
        obtain ⟨out, h1, h2, h3⟩ := ih (n + 1) p_out (by omega) (by omega)
        refine ⟨out, by rw [h1, hmax], h2, ?_⟩
        intro i
        rw [h3 i]
        by_cases e0 : i = n
        · subst e0
          split_ifs <;> first | rfl | omega
        · by_cases e1 : i = n + 1
          · subst e1
            have hs' : ¬ (n + 1 - 1) % N = c := by simpa using hsel
            split_ifs <;> first | rfl | omega
          · split_ifs <;> first | rfl | omega
    · rw [if_neg hlt]
      refine ⟨p_out, ?_, rfl, ?_⟩
      · have : max n total = n := by omega
        rw [this]
      · intro i
        by_cases hi : i < p_out.length
        · rw [if_pos hi, if_neg (by omega), if_neg (by omega)]
        · rw [if_neg hi, List.getElem?_eq_none (not_lt.mp hi)]

theorem stereo_to_mono_accesses_selected (N c total : Nat) (hc32 : c < 4294967296) :
    ∀ (fuel n : Nat), total + 1 ≤ n + fuel → 0 < fuel →
      ∃ tr, stereo_to_mono_accesses N (c : Int) total fuel n = some tr ∧
        ∀ a, a ∈ tr ↔ ∃ m, n ≤ m ∧ m < total ∧ m % N = c ∧
          (a = ⟨Buf.input, false, m⟩ ∨ a = ⟨Buf.output, true, m + 1⟩ ∨
            a = ⟨Buf.output, true, m⟩) := by
  intro fuel
  induction fuel with
  | zero => intro n _ h; omega
  | succ fuel ih =>
    intro n h _
    unfold stereo_to_mono_accesses
    by_cases hlt : n < total
    · have hne : ¬ ((c : Int) = -1) := by omega
      rw [if_pos hlt, if_neg hne, toUInt32_natCast hc32]
      obtain ⟨tr, h1, h2⟩ := ih (n + 1) (by omega) (by omega)
      by_cases hsel : n % N = c
      · rw [if_pos hsel, h1]
        refine ⟨_, rfl, ?_⟩
        intro a
        simp only [List.mem_append, List.mem_cons, List.mem_singleton, List.not_mem_nil,
          or_false, h2 a, List.cons_append, List.nil_append]
        constructor
        · rintro (h | h | h | ⟨m, hm1, hm2, hm3, hm4⟩)
          · exact ⟨n, le_refl _, hlt, hsel, Or.inl h⟩
          · exact ⟨n, le_refl _, hlt, hsel, Or.inr (Or.inl h)⟩
          · exact ⟨n, le_refl _, hlt, hsel, Or.inr (Or.inr h)⟩
          · exact ⟨m, by omega, hm2, hm3, hm4⟩
        · rintro ⟨m, hm1, hm2, hm3, hm4⟩
          by_cases e : m = n
          · subst e
            rcases hm4 with h | h | h
            · exact Or.inl h
            · exact Or.inr (Or.inl h)
            · exact Or.inr (Or.inr (Or.inl h))
          · exact Or.inr (Or.inr (Or.inr ⟨m, by omega, hm2, hm3, hm4⟩))
      · rw [if_neg hsel, h1]
        refine ⟨_, rfl, ?_⟩
        intro a
        rw [h2 a]
        constructor
        · rintro ⟨m, hm1, hm2, hm3, hm4⟩
          exact ⟨m, by omega, hm2, hm3, hm4⟩
        · rintro ⟨m, hm1, hm2, hm3, hm4⟩
          have : m ≠ n := by
            intro e; subst e; exact hsel hm3
          exact ⟨m, by omega, hm2, hm3, hm4⟩
    · rw [if_neg hlt]
      refine ⟨_, rfl, ?_⟩
      intro a
      constructor
      · intro h; simp at h
      · rintro ⟨m, hm1, hm2, _⟩
        omega

theorem frame_index_mod (N f c : Nat) (hc : c < N) : (f * N + c) % N = c := by
  rw [Nat.add_comm, Nat.add_mul_mod_self_right, Nat.mod_eq_of_lt hc]

theorem frame_index_lt {N f c frames : Nat} (hc : c < N) (hf : f < frames) :
    f * N + c < frames * N := by
  have : (f + 1) * N ≤ frames * N := Nat.mul_le_mul_right N hf
  rw [Nat.add_mul, Nat.one_mul] at this
  omega

/-- A sample index below `frames * N` decomposes as frame and channel. -/
theorem index_decompose {N i frames : Nat} (hN : 0 < N) (hi : i < frames * N) :
    i / N < frames ∧ i = i / N * N + i % N := by
  refine ⟨(Nat.div_lt_iff_lt_mul hN).mpr hi, ?_⟩
  have := Nat.div_add_mod i N
  rw [Nat.mul_comm] at this
  omega

theorem succ_index_lt {N i c frames : Nat} (hi : i < frames * N)
    (hm : i % N = c) (hc : c + 1 < N) : i + 1 < frames * N := by
  obtain ⟨h1, h2⟩ := index_decompose (by omega : 0 < N) hi
  have := @frame_index_lt N (i / N) (c + 1) frames hc h1
  omega

theorem succ_mod_of_lt {N i c : Nat} (hm : i % N = c) (hc : c + 1 < N) :
    (i + 1) % N = c + 1 := by
  rw [Nat.add_mod, hm, Nat.mod_eq_of_lt (by omega : 1 < N), Nat.mod_eq_of_lt hc]

/-- C6. Average mode of `stereo_to_mono` (selected channel -1): for a block whose flat
sample count `frames * channels` is even, with 16-bit input samples and an output buffer
holding at least as many samples, the call returns and for every `k < frames * channels / 2`
both output slots `2k` and `2k+1` hold `(in[2k] + in[2k+1]) >> 1`; the pairs run over the
flat interleaved stream whatever the channel count, and no slot from `frames * channels`
on is modified. -/
theorem stereo_to_mono_average (p_sys : filter_sys_t) (p_output p_input : aout_buffer_t)
    (hsel : p_sys.i_channel_selected = -1)
    (heven : (p_input.i_nb_samples * p_sys.i_nb_channels) % 2 = 0)
    (h16 : ∀ x ∈ p_input.p_buffer, isInt16 x)
    (hout : p_input.i_nb_samples * p_sys.i_nb_channels ≤ p_output.p_buffer.length) :
    ∃ out, stereo_to_mono p_sys p_output p_input
        = some (out, p_input.i_nb_samples * p_sys.i_nb_channels) ∧
      out.length = p_output.p_buffer.length ∧
      (∀ k, k < p_input.i_nb_samples * p_sys.i_nb_channels / 2 →
        out[2 * k]? = some ((rd p_input.p_buffer (2 * k) + rd p_input.p_buffer (2 * k + 1))
          >>> (1 : Nat)) ∧
        out[2 * k + 1]? = some ((rd p_input.p_buffer (2 * k) + rd p_input.p_buffer (2 * k + 1))
          >>> (1 : Nat))) ∧
      (∀ i, p_input.i_nb_samples * p_sys.i_nb_channels ≤ i →
        out[i]? = p_output.p_buffer[i]?) := by
  unfold stereo_to_mono
  rw [hsel]
  obtain ⟨out, h1, h2, h3⟩ := stereo_to_mono_loop_average p_sys.i_nb_channels
    (p_input.i_nb_samples * p_sys.i_nb_channels) p_input.p_buffer
    (p_input.i_nb_samples * p_sys.i_nb_channels + 1) 0 p_output.p_buffer
    (by omega) (by omega) (by omega) (by omega) hout
  refine ⟨out, h1, h2, ?_, ?_⟩
  · intro k hk
    have hv := (average_facts (isInt16_rd h16 (2 * k)) (isInt16_rd h16 (2 * k + 1))).1
    constructor
    · rw [h3 (2 * k), if_pos (by omega)]
      have : 2 * k - (2 * k - 0) % 2 = 2 * k := by omega
      rw [this, toInt16_of_isInt16 hv]
    · rw [h3 (2 * k + 1), if_pos (by omega)]
      have : 2 * k + 1 - (2 * k + 1 - 0) % 2 = 2 * k := by omega
      rw [this, toInt16_of_isInt16 hv]
  · intro i hi
    rw [h3 i, if_neg (by omega)]

/-- C6 witness: a 3-channel, 2-frame block is averaged by flat pairs `(0,1) (2,3) (4,5)`,
across the frame boundary. -/
theorem stereo_to_mono_average_witness :
    ∃ out, stereo_to_mono ⟨false, 3, -1, 16, 0, [], 0, []⟩ ⟨[0, 0, 0, 0, 0, 0, 9], 2, 12⟩
        ⟨[1, 3, 5, 7, 20, 40], 2, 12⟩ = some (out, 6) ∧
      out[2]? = some 6 ∧ out[3]? = some 6 ∧ out[6]? = some 9 := by
  obtain ⟨out, h1, _, h3, h4⟩ :=
    stereo_to_mono_average ⟨false, 3, -1, 16, 0, [], 0, []⟩ ⟨[0, 0, 0, 0, 0, 0, 9], 2, 12⟩
      ⟨[1, 3, 5, 7, 20, 40], 2, 12⟩ rfl (by decide) (by decide) (by decide)
  exact ⟨out, h1, (h3 1 (by decide)).1.trans (by decide),
    (h3 1 (by decide)).2.trans (by decide), (h4 6 (by decide)).trans (by decide)⟩

/-- C7 (as stated, refuted). Average mode on the 2-channel block `[10, 20, 30, 40]` does
not yield `[15, 15, 15, 15]`. -/
theorem stereo_to_mono_average_example_not_15 :
    ¬ ∃ n, stereo_to_mono ⟨false, 2, -1, 16, 0, [], 0, []⟩ ⟨[0, 0, 0, 0], 2, 8⟩
        ⟨[10, 20, 30, 40], 2, 8⟩ = some ([15, 15, 15, 15], n) := by
  rintro ⟨n, h⟩
  have e : stereo_to_mono ⟨false, 2, -1, 16, 0, [], 0, []⟩ ⟨[0, 0, 0, 0], 2, 8⟩
      ⟨[10, 20, 30, 40], 2, 8⟩ = some ([15, 15, 35, 35], 4) := by decide
  rw [e] at h
  revert h
  simp

/-- C7 (amended). Average mode on the 2-channel, 2-frame block `[10, 20, 30, 40]` yields
`[15, 15, 35, 35]`: each frame is replaced by its own average. -/
theorem stereo_to_mono_average_example :
    stereo_to_mono ⟨false, 2, -1, 16, 0, [], 0, []⟩ ⟨[0, 0, 0, 0], 2, 8⟩
      ⟨[10, 20, 30, 40], 2, 8⟩ = some ([15, 15, 35, 35], 4) := by
  decide

/-- C8. Selected-channel mode of `stereo_to_mono`: for `N >= 2` channels, a selected
index `c <= N - 2`, a block of `frames * N` samples and a pre-zeroed output of the same
size, the call returns and every frame `f` has `out[f*N+c] = out[f*N+c+1] = in[f*N+c]`,
while every other output slot is `0`. -/
theorem stereo_to_mono_selected (p_sys : filter_sys_t) (p_output p_input : aout_buffer_t)
    (c : Nat) (hN32 : p_sys.i_nb_channels < 4294967296)
    (hc : c + 2 ≤ p_sys.i_nb_channels) (hsel : p_sys.i_channel_selected = (c : Int))
    (hout : p_output.p_buffer
      = List.replicate (p_input.i_nb_samples * p_sys.i_nb_channels) 0) :
    ∃ out, stereo_to_mono p_sys p_output p_input
        = some (out, p_input.i_nb_samples * p_sys.i_nb_channels) ∧
      out.length = p_input.i_nb_samples * p_sys.i_nb_channels ∧
      (∀ f, f < p_input.i_nb_samples →
        out[f * p_sys.i_nb_channels + c]?
          = some (rd p_input.p_buffer (f * p_sys.i_nb_channels + c)) ∧
        out[f * p_sys.i_nb_channels + c + 1]?
          = some (rd p_input.p_buffer (f * p_sys.i_nb_channels + c))) ∧
      (∀ i, i < p_input.i_nb_samples * p_sys.i_nb_channels →
        i % p_sys.i_nb_channels ≠ c → i % p_sys.i_nb_channels ≠ c + 1 →
        out[i]? = some 0) := by
  unfold stereo_to_mono
  rw [hsel]
  obtain ⟨out, h1, h2, h3⟩ := stereo_to_mono_loop_selected p_sys.i_nb_channels c
    (p_input.i_nb_samples * p_sys.i_nb_channels) p_input.p_buffer (by omega)
    (p_input.i_nb_samples * p_sys.i_nb_channels + 1) 0 p_output.p_buffer
    (by omega) (by omega)
  have hlen : p_output.p_buffer.length = p_input.i_nb_samples * p_sys.i_nb_channels := by
    rw [hout, List.length_replicate]
  refine ⟨out, by simpa using h1, by rw [h2, hlen], ?_, ?_⟩
  · intro f hf
    have hlt := @frame_index_lt p_sys.i_nb_channels f c p_input.i_nb_samples (by omega) hf
    have hmod := frame_index_mod p_sys.i_nb_channels f c (by omega)
    constructor
    · rw [h3, hlen, if_pos hlt, if_pos ⟨Nat.zero_le _, hlt, hmod⟩]
    · have hlt1 := succ_index_lt hlt hmod (by omega)
      have hmod1 := succ_mod_of_lt hmod (by omega : c + 1 < p_sys.i_nb_channels)
      rw [h3, hlen, if_pos hlt1, if_neg (by omega), if_pos ⟨by omega, by omega, by simpa using hmod⟩]
      simp
  · intro i hi hne0 hne1
    rw [h3, hlen, if_pos hi, if_neg (by tauto)]
    have hz : p_output.p_buffer[i]? = some 0 := by
      rw [hout, List.getElem?_replicate, if_pos hi]
    by_cases hp : 0 + 1 ≤ i ∧ i < p_input.i_nb_samples * p_sys.i_nb_channels + 1 ∧
        (i - 1) % p_sys.i_nb_channels = c
    · exfalso
      have := succ_mod_of_lt hp.2.2 (by omega : c + 1 < p_sys.i_nb_channels)
      have e : i - 1 + 1 = i := by omega
      rw [e] at this
      exact hne1 this
    · rw [if_neg hp, hz]

/-- C8 witness: 3 channels, channel 1 selected, 2 frames. -/
theorem stereo_to_mono_selected_witness :
    ∃ out, stereo_to_mono ⟨false, 3, 1, 16, 0, [], 0, []⟩ ⟨[0, 0, 0, 0, 0, 0], 2, 12⟩
        ⟨[1, 2, 3, 4, 5, 6], 2, 12⟩ = some (out, 6) ∧
      out[4]? = some 5 ∧ out[5]? = some 5 ∧ out[3]? = some 0 := by
  obtain ⟨out, h1, _, h3, h4⟩ :=
    stereo_to_mono_selected ⟨false, 3, 1, 16, 0, [], 0, []⟩ ⟨[0, 0, 0, 0, 0, 0], 2, 12⟩
      ⟨[1, 2, 3, 4, 5, 6], 2, 12⟩ 1 (by decide) (by decide) rfl rfl
  exact ⟨out, h1, (h3 1 (by decide)).1.trans (by decide),
    (h3 1 (by decide)).2.trans (by decide), h4 3 (by decide) (by decide) (by decide)⟩

/-- C10. Selected-channel mode with a valid index `c < N` on a block of `frames >= 1`
frames, run on the memory `p_output.p_buffer` that starts at the output pointer (it may
extend past the `frames * N` samples of the block). The call returns, and the stores it
makes are those of the index trace: a slot the trace writes holds the selected sample of
its frame, a slot the trace does not write is unchanged. When `c = N - 1` the store to
`p_out[n+1]` of frame `f` hits index `(f+1) * N`, which is channel 0 of the next frame,
and for the last frame index `frames * N`, one past the block, and that slot receives the
sample `in[f*N+c]`; every output index written is below `frames * N` if and only if
`c < N - 1`. -/
theorem stereo_to_mono_last_channel (N c frames : Nat) (p_sys : filter_sys_t)
    (p_output p_input : aout_buffer_t) (hN : 2 ≤ N) (hN32 : N < 4294967296)
    (hc : c < N) (hf : 0 < frames) (hsys : p_sys.i_nb_channels = N)
    (hsel : p_sys.i_channel_selected = (c : Int)) (hfr : p_input.i_nb_samples = frames) :
    ∃ tr out, stereo_to_mono_accesses N (c : Int) (frames * N) (frames * N + 1) 0 = some tr ∧
      stereo_to_mono p_sys p_output p_input = some (out, frames * N) ∧
      out.length = p_output.p_buffer.length ∧
      (∀ i, i < p_output.p_buffer.length → (⟨Buf.output, true, i⟩ : Access) ∈ tr →
        out[i]? = some (rd p_input.p_buffer
          (if i % N = c ∧ i < frames * N then i else i - 1))) ∧
      (∀ i, (⟨Buf.output, true, i⟩ : Access) ∉ tr → out[i]? = p_output.p_buffer[i]?) ∧
      (c = N - 1 → (∀ f, f < frames →
          (⟨Buf.output, true, (f + 1) * N⟩ : Access) ∈ tr ∧ ((f + 1) * N) % N = 0 ∧
          ((f + 1) * N < p_output.p_buffer.length →
            out[(f + 1) * N]? = some (rd p_input.p_buffer (f * N + c)))) ∧
        (⟨Buf.output, true, frames * N⟩ : Access) ∈ tr ∧
        (frames * N < p_output.p_buffer.length →
          out[frames * N]? = some (rd p_input.p_buffer ((frames - 1) * N + c)))) ∧
      ((∀ a ∈ tr, a.buf = Buf.output → a.write = true → a.index < frames * N)
        ↔ c < N - 1) := by
  obtain ⟨tr, h1, h2⟩ := stereo_to_mono_accesses_selected N c (frames * N) (by omega)
    (frames * N + 1) 0 (by omega) (by omega)
  obtain ⟨out, g1, g2, g3⟩ := stereo_to_mono_loop_selected N c (frames * N)
    p_input.p_buffer (by omega) (frames * N + 1) 0 p_output.p_buffer (by omega) (by omega)
  have hlast : c = N - 1 → ∀ f, f < frames → (⟨Buf.output, true, (f + 1) * N⟩ : Access) ∈ tr := by
    intro hc1 f hf1
    rw [h2]
    refine ⟨f * N + c, Nat.zero_le _, frame_index_lt hc hf1, frame_index_mod N f c hc,
      Or.inr (Or.inl ?_)⟩
    have : f * N + c + 1 = (f + 1) * N := by
      rw [Nat.add_mul, Nat.one_mul]; omega
    rw [this]
  have hval : ∀ i, i < p_output.p_buffer.length → (⟨Buf.output, true, i⟩ : Access) ∈ tr →
      out[i]? = some (rd p_input.p_buffer
        (if i % N = c ∧ i < frames * N then i else i - 1)) := by
    intro i hi hmem
    rw [h2] at hmem
    obtain ⟨m, _, hm2, hm3, hm4⟩ := hmem
    rw [g3, if_pos hi]
    by_cases hfirst : i % N = c ∧ i < frames * N
    · rw [if_pos ⟨Nat.zero_le _, hfirst.2, hfirst.1⟩, if_pos hfirst]
    · rw [if_neg (fun h => hfirst ⟨h.2.2, h.2.1⟩), if_neg hfirst]
      rcases hm4 with h | h | h
      · cases h
      · have e : i = m + 1 := by
          have := congrArg Access.index h
          simpa using this
        have e' : i - 1 = m := by omega
        rw [if_pos ⟨by omega, by omega, by rw [e']; exact hm3⟩]
      · have e : i = m := by
          have := congrArg Access.index h
          simpa using this
        exact absurd ⟨by rw [e]; exact hm3, by rw [e]; exact hm2⟩ hfirst
  have hlastval : c = N - 1 → ∀ f, f < frames → (f + 1) * N < p_output.p_buffer.length →
      out[(f + 1) * N]? = some (rd p_input.p_buffer (f * N + c)) := by
    intro hc1 f hf1 hlt
    rw [hval _ hlt (hlast hc1 f hf1), if_neg (by rw [Nat.mul_mod_left]; omega)]
    have : (f + 1) * N - 1 = f * N + c := by
      rw [Nat.add_mul, Nat.one_mul]; omega
    rw [this]
  have efr : frames - 1 + 1 = frames := by omega
  refine ⟨tr, out, h1, ?_, g2, hval, ?_, ?_, ?_⟩
  · unfold stereo_to_mono
    rw [hsys, hsel, hfr, g1]
    simp
  · intro i hnot
    rw [g3]
    by_cases hi : i < p_output.p_buffer.length
    · rw [if_pos hi]
      have n1 : ¬ (0 ≤ i ∧ i < frames * N ∧ i % N = c) := by
        intro h
        apply hnot
        rw [h2]
        exact ⟨i, Nat.zero_le _, h.2.1, h.2.2, Or.inr (Or.inr rfl)⟩
      have n2 : ¬ (0 + 1 ≤ i ∧ i < frames * N + 1 ∧ (i - 1) % N = c) := by
        intro h
        apply hnot
        rw [h2]
        refine ⟨i - 1, Nat.zero_le _, by omega, h.2.2, Or.inr (Or.inl ?_)⟩
        have : i - 1 + 1 = i := by omega
        rw [this]
      rw [if_neg n1, if_neg n2]
    · rw [if_neg hi]
      symm
      apply List.getElem?_eq_none
      omega
  · intro hc1
    refine ⟨fun f hf1 => ⟨hlast hc1 f hf1, Nat.mul_mod_left _ _, hlastval hc1 f hf1⟩, ?_, ?_⟩
    · have := hlast hc1 (frames - 1) (by omega)
      rwa [efr] at this
    · intro hlt
      have := hlastval hc1 (frames - 1) (by omega) (by rw [efr]; exact hlt)
      rwa [efr] at this
  · constructor
    · intro hall
      by_contra hcon
      have hc1 : c = N - 1 := by omega
      have hmem := hlast hc1 (frames - 1) (by omega)
      rw [efr] at hmem
      have := hall _ hmem rfl rfl
      simp at this
    · intro hlt a ha hb hw
      rw [h2] at ha
      obtain ⟨m, _, hm2, hm3, hm4⟩ := ha
      rcases hm4 with h | h | h
      · rw [h] at hb; cases hb
      · rw [h]; exact succ_index_lt hm2 hm3 (by omega)
      · rw [h]; exact hm2

/-- C10 witness: 2 channels, 1 frame `[7, 9]`, last channel selected, on a memory of 3
samples from the output pointer: the second store goes to index 2, one past the block of
2 samples, and the memory comes out as `[0, 9, 9]`. -/
theorem stereo_to_mono_last_channel_witness :
    (∃ tr out, stereo_to_mono_accesses 2 ((1 : Nat) : Int) (1 * 2) (1 * 2 + 1) 0 = some tr ∧
      stereo_to_mono ⟨false, 2, 1, 16, 0, [], 0, []⟩ ⟨[0, 0, 0], 1, 4⟩ ⟨[7, 9], 1, 4⟩
        = some (out, 1 * 2) ∧
      out.length = [(0 : Int), 0, 0].length ∧
      (∀ i, i < [(0 : Int), 0, 0].length → (⟨Buf.output, true, i⟩ : Access) ∈ tr →
        out[i]? = some (rd [7, 9] (if i % 2 = 1 ∧ i < 1 * 2 then i else i - 1))) ∧
      (∀ i, (⟨Buf.output, true, i⟩ : Access) ∉ tr → out[i]? = [(0 : Int), 0, 0][i]?) ∧
      (1 = 2 - 1 → (∀ f, f < 1 →
          (⟨Buf.output, true, (f + 1) * 2⟩ : Access) ∈ tr ∧ ((f + 1) * 2) % 2 = 0 ∧
          ((f + 1) * 2 < [(0 : Int), 0, 0].length →
            out[(f + 1) * 2]? = some (rd [7, 9] (f * 2 + 1)))) ∧
        (⟨Buf.output, true, 1 * 2⟩ : Access) ∈ tr ∧
        (1 * 2 < [(0 : Int), 0, 0].length →
          out[1 * 2]? = some (rd [7, 9] ((1 - 1) * 2 + 1)))) ∧
      ((∀ a ∈ tr, a.buf = Buf.output → a.write = true → a.index < 1 * 2) ↔ 1 < 2 - 1)) ∧
    stereo_to_mono ⟨false, 2, 1, 16, 0, [], 0, []⟩ ⟨[0, 0, 0], 1, 4⟩ ⟨[7, 9], 1, 4⟩
      = some ([0, 9, 9], 2) :=
  ⟨stereo_to_mono_last_channel 2 1 1 ⟨false, 2, 1, 16, 0, [], 0, []⟩ ⟨[0, 0, 0], 1, 4⟩
    ⟨[7, 9], 1, 4⟩ (by decide) (by decide) (by decide) (by decide) rfl rfl rfl, by decide⟩

/-! ## `memset`, `memcpy` and the slide loop -/

theorem length_memset {α : Type} (p : List α) (off : Nat) (v : α) (len : Nat) :
    (memset p off v len).length = p.length := by
  induction len with
  | zero => rfl
  | succ len ih => simp [memset, ih]

theorem getElem?_memset {α : Type} (p : List α) (off : Nat) (v : α) (len i : Nat) :
    (memset p off v len)[i]? =
      if off ≤ i ∧ i < off + len ∧ i < p.length then some v else p[i]? := by
  induction len with
  | zero =>
    rw [if_neg (by omega)]
    rfl
  | succ len ih =>
    simp only [memset]
    rw [List.getElem?_set, length_memset, ih]
    by_cases e : off + len = i
    · subst e
      split_ifs <;> first | rfl | omega | (symm; apply List.getElem?_eq_none; omega)
    · split_ifs <;> first | rfl | omega

theorem length_memcpy {α : Type} (dst : List α) (d : Nat) (src : List α) (s len : Nat) :
    (memcpy dst d src s len).length = dst.length := by
  induction len with
  | zero => rfl
  | succ len ih =>
    simp only [memcpy]
    split <;> simp [ih]

theorem getElem?_memcpy {α : Type} (dst : List α) (d : Nat) (src : List α) (s len i : Nat) :
    (memcpy dst d src s len)[i]? =
      if d ≤ i ∧ i < d + len ∧ i < dst.length ∧ s + (i - d) < src.length then
        src[s + (i - d)]?
      else dst[i]? := by
  induction len with
  | zero =>
    rw [if_neg (by omega)]
    rfl
  | succ len ih =>
    simp only [memcpy]
    split
    · rename_i v hv
      have hlt : s + len < src.length := by
        by_contra hcon
        rw [List.getElem?_eq_none (by omega)] at hv
        cases hv
      rw [List.getElem?_set, length_memcpy, ih]
      by_cases e : d + len = i
      · subst e
        have e2 : s + (d + len - d) = s + len := by omega
        rw [e2, hv]
        split_ifs <;> first | rfl | omega | (symm; apply List.getElem?_eq_none; omega)
      · split_ifs <;> first | rfl | omega
    · rename_i hv
      have hge : src.length ≤ s + len := by
        by_contra hcon
        rw [List.getElem?_eq_getElem (by omega)] at hv
        cases hv
      rw [ih]
      split_ifs <;> first | rfl | omega

theorem slide_loop_spec {α : Type} (zero : α) (O S : Nat) (hS : 0 < S) (buf : List α) :
    ∀ (fuel p : Nat) (cur : List α), O + 1 ≤ p + fuel → 0 < fuel → cur.length = O →
      (∀ i, p ≤ i → cur[i]? = buf[i]?) →
      ∃ out, slide_loop zero O S fuel p cur = some out ∧ out.length = O ∧
        ∀ i, out[i]? =
          if p ≤ i ∧ i < O then (if i + S < O then buf[i + S]? else some zero)
          else cur[i]? := by
  intro fuel
  induction fuel with
  | zero => intro p cur _ h; omega
  | succ fuel ih =>
    intro p cur hfuel _ hlen hcur
    unfold slide_loop
    by_cases hp : p < O
    · rw [if_pos hp]
      by_cases h1 : p + S < O
      · rw [if_pos h1]
        have hz : ∀ j, (memset cur p zero S)[j]? =
            if p ≤ j ∧ j < p + S then some zero else cur[j]? := by
          intro j
          rw [getElem?_memset, hlen]
          split_ifs <;> first | rfl | omega
        by_cases h2 : p + 2 * S < O
        · rw [if_pos h2]
          obtain ⟨out, e1, e2, e3⟩ := ih (p + S)
            (memcpy (memset cur p zero S) p (memset cur p zero S) (p + S) S)
            (by omega) (by omega) (by rw [length_memcpy, length_memset, hlen])
            (by
              intro i hi
              rw [getElem?_memcpy, if_neg (by omega), hz, if_neg (by omega), hcur i (by omega)])
          refine ⟨out, e1, e2, ?_⟩
          intro i
          rw [e3 i, getElem?_memcpy, length_memset, hlen]
          have e4 : p + S + (i - p) = i + S ∨ i < p := by omega
          rcases e4 with e4 | e4
          · rw [e4]
            simp only [hz]
            have := hcur (i + S) (by omega)
            split_ifs <;> first | rfl | omega | assumption
          · simp only [hz]
            split_ifs <;> first | rfl | omega
        · rw [if_neg h2]
          obtain ⟨out, e1, e2, e3⟩ := ih (p + S)
            (memcpy (memset cur p zero S) p (memset cur p zero S) (p + S) (O - (p + S)))
            (by omega) (by omega) (by rw [length_memcpy, length_memset, hlen])
            (by
              intro i hi
              rw [getElem?_memcpy, if_neg (by omega), hz, if_neg (by omega), hcur i (by omega)])
          refine ⟨out, e1, e2, ?_⟩
          intro i
          rw [e3 i, getElem?_memcpy, length_memset, hlen]
          have e4 : p + S + (i - p) = i + S ∨ i < p := by omega
          rcases e4 with e4 | e4
          · rw [e4]
            simp only [hz]
            have := hcur (i + S) (by omega)
            split_ifs <;> first | rfl | omega | assumption
          · simp only [hz]
            split_ifs <;> first | rfl | omega
      · rw [if_neg h1]
        obtain ⟨out, e1, e2, e3⟩ := ih (p + S) (memset cur p zero (O - p))
          (by omega) (by omega) (by rw [length_memset, hlen])
          (by
            intro i hi
            rw [getElem?_memset, if_neg (by omega), hcur i (by omega)])
        refine ⟨out, e1, e2, ?_⟩
        intro i
        rw [e3 i, getElem?_memset, hlen]
        split_ifs <;> first | rfl | omega
    · rw [if_neg hp]
      refine ⟨cur, rfl, hlen, ?_⟩
      intro i
      rw [if_neg (by omega)]

/-! ## The loops over the atomic operations -/

theorem rd_eq_of_getElem?_eq {p q : List Int} {i j : Nat} (h : p[i]? = q[j]?) :
    rd p i = rd q j := by
  simp only [rd, List.getD_eq_getElem?_getD, h]

theorem getElem?_eq_some_rd {p : List Int} {i : Nat} (h : i < p.length) :
    p[i]? = some (rd p i) := by
  simp [rd, List.getD_eq_getElem?_getD, List.getElem?_eq_getElem h]

theorem rd_of_length_le {p : List Int} {i : Nat} (h : p.length ≤ i) : rd p i = 0 := by
  simp [rd, List.getD_eq_getElem?_getD, List.getElem?_eq_none h]

theorem mul_add_div_mod {M e : Nat} (q : Nat) (he : e < M) :
    (q * M + e) / M = q ∧ (q * M + e) % M = e := by
  have hM : 0 < M := by omega
  constructor
  · rw [Nat.add_comm, Nat.add_mul_div_right _ _ hM, Nat.div_eq_of_lt he, Nat.zero_add]
  · rw [Nat.add_comm, Nat.add_mul_mod_self_right, Nat.mod_eq_of_lt he]

theorem eq_of_div_mod {M x q e : Nat} (hq : x / M = q) (he : x % M = e) :
    x = q * M + e := by
  have := Nat.div_add_mod x M
  rw [hq, he, Nat.mul_comm] at this
  exact this.symm

theorem length_addTo (p : List Int) (i : Nat) (s : Int) (g : ℚ) :
    (addTo p i s g).length = p.length := by
  simp [addTo]

theorem getElem?_addTo (p : List Int) (i x : Nat) (s : Int) (g : ℚ) :
    (addTo p i s g)[x]? =
      if i = x then (if i < p.length then some (accumulate (rd p i) s g) else none)
      else p[x]? := by
  simp only [addTo, List.getElem?_set]

theorem forLoop_addTo (M c e : Nat) (he : e < M) (val : Nat → Int) (g : ℚ) (p : List Int) :
    ∀ (K : Nat),
      (forLoop (fun j q => addTo q ((c + j) * M + e) (val j) g) K p).length = p.length ∧
      ∀ x, (forLoop (fun j q => addTo q ((c + j) * M + e) (val j) g) K p)[x]? =
        if x < p.length ∧ x % M = e ∧ c ≤ x / M ∧ x / M < c + K then
          some (accumulate (rd p x) (val (x / M - c)) g)
        else p[x]? := by
  intro K
  induction K with
  | zero =>
    refine ⟨rfl, fun x => ?_⟩
    rw [if_neg (by omega)]
    rfl
  | succ K ih =>
    obtain ⟨ih1, ih2⟩ := ih
    simp only [forLoop]
    refine ⟨by rw [length_addTo, ih1], fun x => ?_⟩
    obtain ⟨hd, hm⟩ := mul_add_div_mod (c + K) he
    rw [getElem?_addTo, ih1]
    by_cases hx : (c + K) * M + e = x
    · subst hx
      have hr : rd (forLoop (fun j q => addTo q ((c + j) * M + e) (val j) g) K p)
          ((c + K) * M + e) = rd p ((c + K) * M + e) := by
        apply rd_eq_of_getElem?_eq
        rw [ih2, if_neg (by omega)]
      rw [if_pos rfl, hr, hd, hm]
      have : c + K - c = K := by omega
      rw [this]
      by_cases hl : (c + K) * M + e < p.length
      · rw [if_pos hl, if_pos ⟨hl, rfl, by omega, by omega⟩]
      · rw [if_neg hl, if_neg (by tauto), List.getElem?_eq_none (by omega)]
    · rw [if_neg hx, ih2]
      have hne : ¬ (x % M = e ∧ x / M = c + K) := by
        rintro ⟨h1, h2⟩
        exact hx (eq_of_div_mod h2 h1).symm
      by_cases hc : x < p.length ∧ x % M = e ∧ c ≤ x / M ∧ x / M < c + K
      · rw [if_pos hc, if_pos ⟨hc.1, hc.2.1, hc.2.2.1, by omega⟩]
      · rw [if_neg hc, if_neg]
        rintro ⟨h1, h2, h3, h4⟩
        by_cases h5 : x / M = c + K
        · exact hne ⟨h2, h5⟩
        · exact hc ⟨h1, h2, h3, by omega⟩

theorem add_mul_div_mod {M : Nat} (hM : 0 < M) (y n : Nat) :
    (y + n * M) / M = y / M + n ∧ (y + n * M) % M = y % M := by
  constructor
  · rw [Nat.add_mul_div_right _ _ hM]
  · rw [Nat.add_mul_mod_self_right]

theorem apply_atomic_operation_spec (N M n : Nat) (p_in : List Int) (op : atomic_operation_t)
    (hd : op.i_dest_channel_offset < M) (out ovf : List Int) (hout : out.length ≤ n * M) :
    (apply_atomic_operation N M n p_in op (out, ovf)).1.length = out.length ∧
    (apply_atomic_operation N M n p_in op (out, ovf)).2.length = ovf.length ∧
    (∀ x, x < out.length → rd (apply_atomic_operation N M n p_in op (out, ovf)).1 x
        = op_update N M n p_in op x (rd out x)) ∧
    (∀ y, y < ovf.length → rd (apply_atomic_operation N M n p_in op (out, ovf)).2 y
        = op_update N M n p_in op (y + n * M) (rd ovf y)) := by
  have hM : 0 < M := by omega
  unfold apply_atomic_operation
  by_cases hn : n > op.i_delay
  · rw [if_pos hn]
    obtain ⟨a1, a2⟩ := forLoop_addTo M op.i_delay op.i_dest_channel_offset hd
      (fun j => rd p_in (j * N + op.i_source_channel_offset)) op.d_amplitude_factor out
      (n - op.i_delay)
    obtain ⟨b1, b2⟩ := forLoop_addTo M 0 op.i_dest_channel_offset hd
      (fun j => rd p_in ((n - op.i_delay + j) * N + op.i_source_channel_offset))
      op.d_amplitude_factor ovf op.i_delay
    simp only [Nat.zero_add] at b1 b2
    refine ⟨a1, b1, ?_, ?_⟩
    · intro x hx
      have hxn : x / M < n := (Nat.div_lt_iff_lt_mul hM).mpr (by omega)
      have := a2 x
      rw [getElem?_eq_some_rd (by rw [a1]; exact hx)] at this
      unfold op_update
      by_cases hc : x % M = op.i_dest_channel_offset ∧ op.i_delay ≤ x / M
      · have hcond : x < out.length ∧ x % M = op.i_dest_channel_offset ∧
            op.i_delay ≤ x / M ∧ x / M < op.i_delay + (n - op.i_delay) :=
          ⟨hx, hc.1, hc.2, by omega⟩
        have hcond2 : x % M = op.i_dest_channel_offset ∧ op.i_delay ≤ x / M ∧
            x / M < op.i_delay + n := ⟨hc.1, hc.2, by omega⟩
        rw [if_pos hcond] at this
        rw [if_pos hcond2]
        exact Option.some.inj this
      · rw [if_neg (by tauto), getElem?_eq_some_rd hx] at this
        rw [if_neg (by tauto)]
        exact Option.some.inj this
    · intro y hy
      obtain ⟨q1, q2⟩ := add_mul_div_mod hM y n
      have hnn := Nat.zero_le (y / M)
      have := b2 y
      rw [getElem?_eq_some_rd (by rw [b1]; exact hy)] at this
      unfold op_update
      rw [q1, q2]
      by_cases hc : y % M = op.i_dest_channel_offset ∧ y / M < op.i_delay
      · rw [if_pos ⟨hy, hc.1, Nat.zero_le _, hc.2⟩] at this
        have hcond : y % M = op.i_dest_channel_offset ∧ op.i_delay ≤ y / M + n ∧
            y / M + n < op.i_delay + n := ⟨hc.1, by omega, by omega⟩
        rw [if_pos hcond]
        have e : y / M + n - op.i_delay = n - op.i_delay + (y / M - 0) := by omega
        rw [e]
        exact Option.some.inj this
      · rw [if_neg (by tauto), getElem?_eq_some_rd hy] at this
        rw [if_neg (fun h => hc ⟨h.1, by omega⟩)]
        exact Option.some.inj this
  · rw [if_neg hn]
    obtain ⟨b1, b2⟩ := forLoop_addTo M (op.i_delay - n) op.i_dest_channel_offset hd
      (fun j => rd p_in (j * N + op.i_source_channel_offset))
      op.d_amplitude_factor ovf n
    refine ⟨rfl, b1, ?_, ?_⟩
    · intro x hx
      have hxn : x / M < n := (Nat.div_lt_iff_lt_mul hM).mpr (by omega)
      unfold op_update
      rw [if_neg (by omega)]
    · intro y hy
      obtain ⟨q1, q2⟩ := add_mul_div_mod hM y n
      have hnn := Nat.zero_le (y / M)
      have := b2 y
      rw [getElem?_eq_some_rd (by rw [b1]; exact hy)] at this
      unfold op_update
      rw [q1, q2]
      by_cases hc : y % M = op.i_dest_channel_offset ∧ op.i_delay - n ≤ y / M ∧
          y / M < op.i_delay - n + n
      · rw [if_pos ⟨hy, hc⟩] at this
        have hcond : y % M = op.i_dest_channel_offset ∧ op.i_delay ≤ y / M + n ∧
            y / M + n < op.i_delay + n := ⟨hc.1, by omega, by omega⟩
        rw [if_pos hcond]
        have e : y / M + n - op.i_delay = y / M - (op.i_delay - n) := by omega
        rw [e]
        exact Option.some.inj this
      · rw [if_neg (by tauto), getElem?_eq_some_rd hy] at this
        rw [if_neg (fun h => hc ⟨h.1, by omega, by omega⟩)]
        exact Option.some.inj this

theorem apply_atomic_operations_take (sys : filter_sys_t) (N M n : Nat) (p_in : List Int)
    (st : List Int × List Int) :
    ∀ (k : Nat),
      apply_atomic_operations { sys with i_nb_atomic_operations := k } N M n p_in st
        = (sys.p_atomic_operations.take k).foldl
            (fun st op => apply_atomic_operation N M n p_in op st) st := by
  intro k
  induction k with
  | zero => simp [apply_atomic_operations, forLoop]
  | succ k ih =>
    unfold apply_atomic_operations at ih ⊢
    simp only [forLoop] at ih ⊢
    rw [ih, List.take_succ, List.foldl_append]
    cases h : sys.p_atomic_operations[k]? with
    | none => simp
    | some a => simp

theorem apply_atomic_operations_eq_foldl (sys : filter_sys_t) (N M n : Nat) (p_in : List Int)
    (st : List Int × List Int)
    (hnb : sys.i_nb_atomic_operations = sys.p_atomic_operations.length) :
    apply_atomic_operations sys N M n p_in st
      = sys.p_atomic_operations.foldl
          (fun st op => apply_atomic_operation N M n p_in op st) st := by
  have h := apply_atomic_operations_take sys N M n p_in st sys.p_atomic_operations.length
  rw [List.take_length, ← hnb] at h
  exact h

theorem foldl_apply_atomic_operation_spec (N M n : Nat) (p_in : List Int) :
    ∀ (ops : List atomic_operation_t) (out ovf : List Int),
      (∀ op ∈ ops, op.i_dest_channel_offset < M) → out.length ≤ n * M →
      (ops.foldl (fun st op => apply_atomic_operation N M n p_in op st) (out, ovf)).1.length
        = out.length ∧
      (ops.foldl (fun st op => apply_atomic_operation N M n p_in op st) (out, ovf)).2.length
        = ovf.length ∧
      (∀ x, x < out.length →
        rd (ops.foldl (fun st op => apply_atomic_operation N M n p_in op st) (out, ovf)).1 x
          = slot_value N M n p_in ops x (rd out x)) ∧
      (∀ y, y < ovf.length →
        rd (ops.foldl (fun st op => apply_atomic_operation N M n p_in op st) (out, ovf)).2 y
          = slot_value N M n p_in ops (y + n * M) (rd ovf y)) := by
  intro ops
  induction ops with
  | nil =>
    intro out ovf _ _
    exact ⟨rfl, rfl, fun _ _ => rfl, fun _ _ => rfl⟩
  | cons op ops ih =>
    intro out ovf hops hout
    obtain ⟨s1, s2, s3, s4⟩ := apply_atomic_operation_spec N M n p_in op
      (hops op (List.mem_cons_self _ _)) out ovf hout
    obtain ⟨t1, t2, t3, t4⟩ := ih (apply_atomic_operation N M n p_in op (out, ovf)).1
      (apply_atomic_operation N M n p_in op (out, ovf)).2
      (fun o ho => hops o (List.mem_cons_of_mem _ ho)) (by rw [s1]; exact hout)
    simp only [List.foldl_cons, slot_value]
    refine ⟨by rw [t1, s1], by rw [t2, s2], ?_, ?_⟩
    · intro x hx
      rw [t3 x (by rw [s1]; exact hx), s3 x hx]
      rfl
    · intro y hy
      rw [t4 y (by rw [s2]; exact hy), s4 y hy]
      rfl

theorem block_sizes {n N M : Nat} (hN : 0 < N) :
    n * N / N = n ∧ 2 * (n * N) * M / N = 2 * (n * M) ∧ 2 * (n * M) / 2 = n * M := by
  refine ⟨Nat.mul_div_cancel _ hN, ?_, by omega⟩
  have : 2 * (n * N) * M = 2 * (n * M) * N := by ring
  rw [this, Nat.mul_div_cancel _ hN]

/-- One call on a well-formed block, slot by slot: output slot `x` and overflow slot `y`
hold the slot values computed from what the overflow buffer held at `x` and `y + n * M`
before the call. -/
theorem process_block_spec (sys : filter_sys_t) (N M n : Nat) (block : List Int)
    (hN : 0 < N) (hM : 0 < M) (hn : 0 < n) (hblock : block.length = n * N)
    (hops : ∀ op ∈ sys.p_atomic_operations, op.i_dest_channel_offset < M)
    (hnb : sys.i_nb_atomic_operations = sys.p_atomic_operations.length)
    (hsize : sys.i_overflow_buffer_size = 2 * sys.p_overflow_buffer.length) :
    ∃ ovf1 out, process_block sys N M block
        = some ({ sys with p_overflow_buffer := ovf1 }, out) ∧
      out.length = n * M ∧ ovf1.length = sys.p_overflow_buffer.length ∧
      (∀ x, x < n * M → rd out x
        = slot_value N M n block sys.p_atomic_operations x (rd sys.p_overflow_buffer x)) ∧
      (∀ y, y < sys.p_overflow_buffer.length → rd ovf1 y
        = slot_value N M n block sys.p_atomic_operations (y + n * M)
            (rd sys.p_overflow_buffer (y + n * M))) := by
  obtain ⟨z1, z2, z3⟩ := @block_sizes n N M hN
  have hS : 0 < n * M := Nat.mul_pos hn hM
  have hO : sys.i_overflow_buffer_size / 2 = sys.p_overflow_buffer.length := by omega
  obtain ⟨slid, k1, k2, k3⟩ := slide_loop_spec (0 : Int) sys.p_overflow_buffer.length (n * M)
    hS sys.p_overflow_buffer (sys.p_overflow_buffer.length + 1) 0 sys.p_overflow_buffer
    (by omega) (by omega) rfl (fun _ _ => rfl)
  have hcopy : ∀ x, x < n * M →
      rd (copy_overflow sys.i_overflow_buffer_size (2 * (n * M))
        (List.replicate (n * M) 0) sys.p_overflow_buffer) x = rd sys.p_overflow_buffer x := by
    intro x hx
    unfold copy_overflow
    have hz : (List.replicate (n * M) (0 : Int))[x]? = some 0 := by
      rw [List.getElem?_replicate, if_pos hx]
    by_cases hlt : x < sys.p_overflow_buffer.length
    · apply rd_eq_of_getElem?_eq
      split_ifs
      · rw [getElem?_memcpy, List.length_replicate, if_pos (by omega)]
        simp
      · rw [getElem?_memcpy, List.length_replicate, if_pos (by omega)]
        simp
    · rw [rd_of_length_le (not_lt.mp hlt)]
      have : rd (List.replicate (n * M) (0 : Int)) x = 0 := by
        simp [rd, List.getD_eq_getElem?_getD, hz]
      refine Eq.trans (rd_eq_of_getElem?_eq ?_) this
      split_ifs
      · rw [getElem?_memcpy, if_neg (by omega)]
      · rw [getElem?_memcpy, if_neg (by omega)]
  have hcopylen : (copy_overflow sys.i_overflow_buffer_size (2 * (n * M))
      (List.replicate (n * M) 0) sys.p_overflow_buffer).length = n * M := by
    unfold copy_overflow
    split_ifs <;> rw [length_memcpy, List.length_replicate]
  have hslid : ∀ y, y < sys.p_overflow_buffer.length →
      rd slid y = rd sys.p_overflow_buffer (y + n * M) := by
    intro y hy
    by_cases hlt : y + n * M < sys.p_overflow_buffer.length
    · apply rd_eq_of_getElem?_eq
      rw [k3, if_pos ⟨Nat.zero_le _, hy⟩, if_pos hlt]
    · rw [rd_of_length_le (not_lt.mp hlt)]
      simp [rd, List.getD_eq_getElem?_getD, k3, hy, hlt]
  obtain ⟨t1, t2, t3, t4⟩ := foldl_apply_atomic_operation_spec N M n block
    sys.p_atomic_operations
    (copy_overflow sys.i_overflow_buffer_size (2 * (n * M))
      (List.replicate (n * M) 0) sys.p_overflow_buffer) slid hops (by rw [hcopylen])
  refine ⟨(sys.p_atomic_operations.foldl
      (fun st op => apply_atomic_operation N M n block op st)
      (copy_overflow sys.i_overflow_buffer_size (2 * (n * M))
        (List.replicate (n * M) 0) sys.p_overflow_buffer, slid)).2,
    (sys.p_atomic_operations.foldl
      (fun st op => apply_atomic_operation N M n block op st)
      (copy_overflow sys.i_overflow_buffer_size (2 * (n * M))
        (List.replicate (n * M) 0) sys.p_overflow_buffer, slid)).1, ?_, ?_, ?_, ?_, ?_⟩
  · unfold process_block stereo2mono_downmix
    simp only [hblock, z1, z2, z3, hO, k1, apply_atomic_operations_eq_foldl _ _ _ _ _ _ hnb]
  · rw [t1, hcopylen]
  · rw [t2, k2]
  · intro x hx
    rw [t3 x (by rw [hcopylen]; exact hx), hcopy x hx]
  · intro y hy
    rw [t4 y (by rw [k2]; exact hy), hslid y hy]

/-! ## Two consecutive blocks against their concatenation -/

theorem rd_append_left {A B : List Int} {i : Nat} (h : i < A.length) :
    rd (A ++ B) i = rd A i := by
  apply rd_eq_of_getElem?_eq
  rw [List.getElem?_append_left h]

theorem rd_append_right {A B : List Int} {i : Nat} (h : A.length ≤ i) :
    rd (A ++ B) i = rd B (i - A.length) := by
  apply rd_eq_of_getElem?_eq
  rw [List.getElem?_append_right h]

theorem list_ext_rd {l1 l2 : List Int} (hlen : l1.length = l2.length)
    (h : ∀ i, i < l1.length → rd l1 i = rd l2 i) : l1 = l2 := by
  apply List.ext_getElem? 
  intro i
  by_cases hi : i < l1.length
  · rw [getElem?_eq_some_rd hi, getElem?_eq_some_rd (by omega), h i hi]
  · rw [List.getElem?_eq_none (by omega), List.getElem?_eq_none (by omega)]

/-- For a slot in the first block, the operation sees only the first block. -/
theorem op_update_first_block (N M nA nB : Nat) (A B : List Int) (op : atomic_operation_t)
    (hA : A.length = nA * N) (hs : op.i_source_channel_offset < N)
    (x : Nat) (hx : x / M < nA) (a : Int) :
    op_update N M (nA + nB) (A ++ B) op x a = op_update N M nA A op x a := by
  unfold op_update
  by_cases hc : x % M = op.i_dest_channel_offset ∧ op.i_delay ≤ x / M
  · have c1 : x % M = op.i_dest_channel_offset ∧ op.i_delay ≤ x / M ∧
        x / M < op.i_delay + (nA + nB) := ⟨hc.1, hc.2, by omega⟩
    have c2 : x % M = op.i_dest_channel_offset ∧ op.i_delay ≤ x / M ∧
        x / M < op.i_delay + nA := ⟨hc.1, hc.2, by omega⟩
    rw [if_pos c1, if_pos c2, rd_append_left]
    rw [hA]
    exact frame_index_lt hs (by omega)
  · rw [if_neg (by tauto), if_neg (by tauto)]

/-- For a slot after the first block, the operation on the concatenation acts as the
operation on the first block followed by the operation on the second block. -/
theorem op_update_second_block (N M nA nB : Nat) (A B : List Int) (op : atomic_operation_t)
    (hM : 0 < M) (hA : A.length = nA * N) (hs : op.i_source_channel_offset < N)
    (x : Nat) (a : Int) :
    op_update N M (nA + nB) (A ++ B) op (x + nA * M) a
      = op_update N M nB B op x (op_update N M nA A op (x + nA * M) a) := by
  obtain ⟨q1, q2⟩ := add_mul_div_mod hM x nA
  have hnn := Nat.zero_le (x / M)
  unfold op_update
  rw [q1, q2]
  by_cases hd : x % M = op.i_dest_channel_offset
  · by_cases hA1 : x / M < op.i_delay
    · have nB' : ¬ (x % M = op.i_dest_channel_offset ∧ op.i_delay ≤ x / M ∧
          x / M < op.i_delay + nB) := by omega
      by_cases hA2 : op.i_delay ≤ x / M + nA
      · have c1 : x % M = op.i_dest_channel_offset ∧ op.i_delay ≤ x / M + nA ∧
            x / M + nA < op.i_delay + (nA + nB) := ⟨hd, hA2, by omega⟩
        have c2 : x % M = op.i_dest_channel_offset ∧ op.i_delay ≤ x / M + nA ∧
            x / M + nA < op.i_delay + nA := ⟨hd, hA2, by omega⟩
        rw [if_pos c1, if_pos c2, if_neg nB', rd_append_left]
        rw [hA]
        exact frame_index_lt hs (by omega)
      · have n1 : ¬ (x % M = op.i_dest_channel_offset ∧ op.i_delay ≤ x / M + nA ∧
            x / M + nA < op.i_delay + (nA + nB)) := by omega
        have n2 : ¬ (x % M = op.i_dest_channel_offset ∧ op.i_delay ≤ x / M + nA ∧
            x / M + nA < op.i_delay + nA) := by omega
        rw [if_neg n1, if_neg n2, if_neg nB']
    · have n2 : ¬ (x % M = op.i_dest_channel_offset ∧ op.i_delay ≤ x / M + nA ∧
          x / M + nA < op.i_delay + nA) := by omega
      by_cases hB : x / M < op.i_delay + nB
      · have c1 : x % M = op.i_dest_channel_offset ∧ op.i_delay ≤ x / M + nA ∧
            x / M + nA < op.i_delay + (nA + nB) := ⟨hd, by omega, by omega⟩
        have c2 : x % M = op.i_dest_channel_offset ∧ op.i_delay ≤ x / M ∧
            x / M < op.i_delay + nB := ⟨hd, by omega, hB⟩
        have e1 : x / M + nA - op.i_delay = (x / M - op.i_delay) + nA := by omega
        rw [if_pos c1, if_neg n2, if_pos c2, rd_append_right, hA]
        · have e : (x / M + nA - op.i_delay) * N + op.i_source_channel_offset - nA * N
              = (x / M - op.i_delay) * N + op.i_source_channel_offset := by
            rw [e1, Nat.add_mul]
            omega
          rw [e]
        · rw [hA, e1, Nat.add_mul]
          omega
      · have n1 : ¬ (x % M = op.i_dest_channel_offset ∧ op.i_delay ≤ x / M + nA ∧
            x / M + nA < op.i_delay + (nA + nB)) := by omega
        have nB' : ¬ (x % M = op.i_dest_channel_offset ∧ op.i_delay ≤ x / M ∧
            x / M < op.i_delay + nB) := by omega
        rw [if_neg n1, if_neg n2, if_neg nB']
  · have n1 : ¬ (x % M = op.i_dest_channel_offset ∧ op.i_delay ≤ x / M + nA ∧
        x / M + nA < op.i_delay + (nA + nB)) := by tauto
    have n2 : ¬ (x % M = op.i_dest_channel_offset ∧ op.i_delay ≤ x / M + nA ∧
        x / M + nA < op.i_delay + nA) := by tauto
    have nB' : ¬ (x % M = op.i_dest_channel_offset ∧ op.i_delay ≤ x / M ∧
        x / M < op.i_delay + nB) := by tauto
    rw [if_neg n1, if_neg n2, if_neg nB']

/-- No operation reaches a slot beyond the overflow buffer. -/
theorem op_update_beyond (N M n : Nat) (p_in : List Int) (op : atomic_operation_t)
    (hM : 0 < M) (x O : Nat) (hO : op.i_delay * M ≤ O) (hx : O ≤ x) (a : Int) :
    op_update N M n p_in op (x + n * M) a = a := by
  obtain ⟨q1, q2⟩ := add_mul_div_mod hM x n
  unfold op_update
  rw [q1, q2]
  have : op.i_delay ≤ x / M := (Nat.le_div_iff_mul_le hM).mpr (by omega)
  rw [if_neg (by omega)]

/-- Two passes over the operations can be merged into one when the updates of the second
pass commute with those of the first. -/
theorem foldl_merge (P : Int → Prop) (f g : atomic_operation_t → Int → Int) :
    ∀ (ops : List atomic_operation_t),
      (∀ op ∈ ops, ∀ a, P a → P (f op a)) → (∀ op ∈ ops, ∀ a, P a → P (g op a)) →
      (∀ op1 ∈ ops, ∀ op2 ∈ ops, ∀ a, P a → g op1 (f op2 a) = f op2 (g op1 a)) →
      ∀ a, P a → ops.foldl (fun a op => g op (f op a)) a
        = ops.foldl (fun a op => g op a) (ops.foldl (fun a op => f op a) a) := by
  intro ops
  induction ops with
  | nil => intro _ _ _ a _; rfl
  | cons op rest ih =>
    intro hf hg hcomm a ha
    have hpush : ∀ (l : List atomic_operation_t), (∀ o ∈ l, o ∈ op :: rest) →
        ∀ b, P b → g op (l.foldl (fun a op => f op a) b)
          = l.foldl (fun a op => f op a) (g op b) := by
      intro l
      induction l with
      | nil => intro _ b _; rfl
      | cons r rs ihl =>
        intro hl b hb
        simp only [List.foldl_cons]
        rw [ihl (fun o ho => hl o (List.mem_cons_of_mem _ ho)) (f r b)
          (hf r (hl r (List.mem_cons_self _ _)) b hb),
          hcomm op (List.mem_cons_self _ _) r (hl r (List.mem_cons_self _ _)) b hb]
    simp only [List.foldl_cons]
    rw [ih (fun o ho => hf o (List.mem_cons_of_mem _ ho))
      (fun o ho => hg o (List.mem_cons_of_mem _ ho))
      (fun o1 ho1 o2 ho2 => hcomm o1 (List.mem_cons_of_mem _ ho1) o2
        (List.mem_cons_of_mem _ ho2))
      (g op (f op a)) (hg op (List.mem_cons_self _ _) _ (hf op (List.mem_cons_self _ _) a ha)),
      hpush rest (fun o ho => List.mem_cons_of_mem _ ho) (f op a)
        (hf op (List.mem_cons_self _ _) a ha)]

theorem slot_value_first_block (N M nA nB : Nat) (A B : List Int) (hA : A.length = nA * N)
    (x : Nat) (hx : x / M < nA) :
    ∀ (ops : List atomic_operation_t), (∀ op ∈ ops, op.i_source_channel_offset < N) →
      ∀ a, slot_value N M (nA + nB) (A ++ B) ops x a = slot_value N M nA A ops x a := by
  intro ops
  induction ops with
  | nil => intro _ a; rfl
  | cons op rest ih =>
    intro hs a
    simp only [slot_value, List.foldl_cons] at ih ⊢
    rw [op_update_first_block N M nA nB A B op hA (hs op (List.mem_cons_self _ _)) x hx a]
    exact ih (fun o ho => hs o (List.mem_cons_of_mem _ ho)) _

theorem slot_value_second_block (N M nA nB : Nat) (A B : List Int) (hM : 0 < M)
    (hA : A.length = nA * N) (x : Nat) :
    ∀ (ops : List atomic_operation_t), (∀ op ∈ ops, op.i_source_channel_offset < N) →
      ∀ a, slot_value N M (nA + nB) (A ++ B) ops (x + nA * M) a
        = ops.foldl (fun a op =>
            op_update N M nB B op x (op_update N M nA A op (x + nA * M) a)) a := by
  intro ops
  induction ops with
  | nil => intro _ a; rfl
  | cons op rest ih =>
    intro hs a
    simp only [slot_value, List.foldl_cons] at ih ⊢
    rw [op_update_second_block N M nA nB A B op hM hA (hs op (List.mem_cons_self _ _)) x a]
    exact ih (fun o ho => hs o (List.mem_cons_of_mem _ ho)) _

theorem slot_value_beyond (N M n : Nat) (p_in : List Int) (hM : 0 < M) (x O : Nat)
    (hx : O ≤ x) :
    ∀ (ops : List atomic_operation_t), (∀ op ∈ ops, op.i_delay * M ≤ O) →
      ∀ a, slot_value N M n p_in ops (x + n * M) a = a := by
  intro ops
  induction ops with
  | nil => intro _ a; rfl
  | cons op rest ih =>
    intro hO a
    simp only [slot_value, List.foldl_cons] at ih ⊢
    rw [op_update_beyond N M n p_in op hM x O (hO op (List.mem_cons_self _ _)) hx a]
    exact ih (fun o ho => hO o (List.mem_cons_of_mem _ ho)) _

/-- Two consecutive calls on blocks `A` and `B` produce the output and leave the overflow
buffer of one call on `A ++ B`, provided that for every slot after the first block the
operations on `B` can be applied after all operations on `A` (`hsplit`). -/
theorem process_two_blocks (sys : filter_sys_t) (N M nA nB : Nat) (A B : List Int)
    (hN : 0 < N) (hM : 0 < M) (hnA : 0 < nA) (hnB : 0 < nB)
    (hA : A.length = nA * N) (hB : B.length = nB * N)
    (hops : ∀ op ∈ sys.p_atomic_operations,
      op.i_dest_channel_offset < M ∧ op.i_source_channel_offset < N ∧
      op.i_delay * M ≤ sys.p_overflow_buffer.length)
    (hnb : sys.i_nb_atomic_operations = sys.p_atomic_operations.length)
    (hsize : sys.i_overflow_buffer_size = 2 * sys.p_overflow_buffer.length)
    (hsplit : ∀ x, slot_value N M (nA + nB) (A ++ B) sys.p_atomic_operations (x + nA * M)
        (rd sys.p_overflow_buffer (x + nA * M))
      = slot_value N M nB B sys.p_atomic_operations x
          (slot_value N M nA A sys.p_atomic_operations (x + nA * M)
            (rd sys.p_overflow_buffer (x + nA * M)))) :
    ∃ ovfA outA ovfB outB,
      process_block sys N M A = some ({ sys with p_overflow_buffer := ovfA }, outA) ∧
      process_block { sys with p_overflow_buffer := ovfA } N M B
        = some ({ sys with p_overflow_buffer := ovfB }, outB) ∧
      process_block sys N M (A ++ B)
        = some ({ sys with p_overflow_buffer := ovfB }, outA ++ outB) ∧
      ovfA.length = sys.p_overflow_buffer.length ∧
      ovfB.length = sys.p_overflow_buffer.length := by
  have hd : ∀ op ∈ sys.p_atomic_operations, op.i_dest_channel_offset < M :=
    fun op h => (hops op h).1
  have hs : ∀ op ∈ sys.p_atomic_operations, op.i_source_channel_offset < N :=
    fun op h => (hops op h).2.1
  have hO : ∀ op ∈ sys.p_atomic_operations, op.i_delay * M ≤ sys.p_overflow_buffer.length :=
    fun op h => (hops op h).2.2
  obtain ⟨ovfA, outA, a1, a2, a3, a4, a5⟩ :=
    process_block_spec sys N M nA A hN hM hnA hA hd hnb hsize
  obtain ⟨ovfB, outB, b1, b2, b3, b4, b5⟩ :=
    process_block_spec { sys with p_overflow_buffer := ovfA } N M nB B hN hM hnB hB hd hnb
      (by simpa [a3] using hsize)
  obtain ⟨ovfC, outC, c1, c2, c3, c4, c5⟩ :=
    process_block_spec sys N M (nA + nB) (A ++ B) hN hM (by omega)
      (by rw [List.length_append, hA, hB, Nat.add_mul]) hd hnb hsize
  simp only at b3 b4 b5
  -- the overflow left by the first call, at any index
  have hmid : ∀ x, rd ovfA x = slot_value N M nA A sys.p_atomic_operations (x + nA * M)
      (rd sys.p_overflow_buffer (x + nA * M)) := by
    intro x
    by_cases hx : x < sys.p_overflow_buffer.length
    · exact a5 x hx
    · rw [rd_of_length_le (by omega : ovfA.length ≤ x),
        rd_of_length_le (by omega : sys.p_overflow_buffer.length ≤ x + nA * M),
        slot_value_beyond N M nA A hM x sys.p_overflow_buffer.length (by omega) _ hO]
  have hout : outC = outA ++ outB := by
    apply list_ext_rd
    · rw [List.length_append, c2, a2, b2, Nat.add_mul]
    · intro x hx
      rw [c2] at hx
      by_cases hxa : x < nA * M
      · rw [rd_append_left (by omega), c4 x hx, a4 x hxa]
        exact slot_value_first_block N M nA nB A B hA x
          ((Nat.div_lt_iff_lt_mul hM).mpr hxa) _ hs _
      · have hx' : x - nA * M + nA * M = x := by omega
        have hlt : x - nA * M < nB * M := by
          rw [Nat.add_mul] at hx; omega
        rw [rd_append_right (by omega), a2, c4 x hx, b4 _ hlt, hmid, hx', ← hx', hsplit, hx']
  have hovf : ovfC = ovfB := by
    apply list_ext_rd
    · rw [c3, b3, a3]
    · intro y hy
      rw [c3] at hy
      have e : y + (nA + nB) * M = y + nB * M + nA * M := by
        rw [Nat.add_mul]; omega
      rw [c5 y hy, b5 y (by omega), hmid, e, hsplit]
  refine ⟨ovfA, outA, ovfB, outB, a1, b1, ?_, a3, by rw [b3, a3]⟩
  rw [c1, hout, hovf]

/-- The slot values of the concatenation split into those of the two blocks as soon as
the updates of the second block commute with those of the first on values satisfying a
predicate `P` that both preserve. -/
theorem slot_value_split (P : Int → Prop) (N M nA nB : Nat) (A B : List Int)
    (ops : List atomic_operation_t) (hM : 0 < M) (hA : A.length = nA * N)
    (hs : ∀ op ∈ ops, op.i_source_channel_offset < N)
    (hPA : ∀ op ∈ ops, ∀ x a, P a → P (op_update N M nA A op x a))
    (hPB : ∀ op ∈ ops, ∀ x a, P a → P (op_update N M nB B op x a))
    (hcomm : ∀ op1 ∈ ops, ∀ op2 ∈ ops, ∀ x y a, P a →
      op_update N M nB B op1 x (op_update N M nA A op2 y a)
        = op_update N M nA A op2 y (op_update N M nB B op1 x a))
    (x : Nat) (a : Int) (ha : P a) :
    slot_value N M (nA + nB) (A ++ B) ops (x + nA * M) a
      = slot_value N M nB B ops x (slot_value N M nA A ops (x + nA * M) a) := by
  rw [slot_value_second_block N M nA nB A B hM hA x ops hs a]
  exact foldl_merge P (fun op a => op_update N M nA A op (x + nA * M) a)
    (fun op a => op_update N M nB B op x a) ops
    (fun op h a ha => hPA op h _ a ha) (fun op h a ha => hPB op h _ a ha)
    (fun op1 h1 op2 h2 a ha => hcomm op1 h1 op2 h2 x (x + nA * M) a ha) a ha

/-! ### Integer products -/

theorem truncQ_intCast (z : Int) : truncQ (z : ℚ) = z := by
  unfold truncQ
  split_ifs <;> simp

theorem accumulate_of_int {a s z : Int} {g : ℚ} (h : (s : ℚ) * g = (z : ℚ)) :
    accumulate a s g = toInt16 (a + z) := by
  unfold accumulate
  rw [h, ← Int.cast_add, truncQ_intCast]

theorem toInt16_add_comm (a z w : Int) :
    toInt16 (toInt16 (a + z) + w) = toInt16 (toInt16 (a + w) + z) := by
  unfold toInt16
  omega

/-- When the products formed by an operation are integers, the operation either leaves a
slot alone or adds a fixed integer to it modulo 2^16. -/
theorem op_update_of_int (N M n : Nat) (p_in : List Int) (op : atomic_operation_t)
    (hint : ∀ t, ∃ z : Int,
      (rd p_in (t * N + op.i_source_channel_offset) : ℚ) * op.d_amplitude_factor = (z : ℚ))
    (x : Nat) :
    (∀ a, op_update N M n p_in op x a = a) ∨
    (∃ z : Int, ∀ a, op_update N M n p_in op x a = toInt16 (a + z)) := by
  by_cases hc : x % M = op.i_dest_channel_offset ∧ op.i_delay ≤ x / M ∧
      x / M < op.i_delay + n
  · right
    obtain ⟨z, hz⟩ := hint (x / M - op.i_delay)
    refine ⟨z, fun a => ?_⟩
    unfold op_update
    rw [if_pos hc, accumulate_of_int hz]
  · left
    intro a
    unfold op_update
    rw [if_neg hc]

theorem op_update_comm_of_int (N M nA nB : Nat) (A B : List Int) (op1 op2 : atomic_operation_t)
    (h1 : ∀ t, ∃ z : Int,
      (rd B (t * N + op1.i_source_channel_offset) : ℚ) * op1.d_amplitude_factor = (z : ℚ))
    (h2 : ∀ t, ∃ z : Int,
      (rd A (t * N + op2.i_source_channel_offset) : ℚ) * op2.d_amplitude_factor = (z : ℚ))
    (x y : Nat) (a : Int) :
    op_update N M nB B op1 x (op_update N M nA A op2 y a)
      = op_update N M nA A op2 y (op_update N M nB B op1 x a) := by
  rcases op_update_of_int N M nB B op1 h1 x with hb | ⟨w, hb⟩ <;>
  rcases op_update_of_int N M nA A op2 h2 y with ha | ⟨z, ha⟩
  · rw [hb, ha, ha, hb]
  · rw [hb, ha, ha, hb]
  · rw [hb, ha, ha, hb]
  · rw [hb, ha, ha, hb]
    exact (toInt16_add_comm a w z).symm

/-- Integer products on a concatenation give integer products on both parts. -/
theorem int_products_split (N nA : Nat) (A B : List Int) (op : atomic_operation_t)
    (hA : A.length = nA * N) (hs : op.i_source_channel_offset < N)
    (hint : ∀ t, ∃ z : Int, (rd (A ++ B) (t * N + op.i_source_channel_offset) : ℚ)
      * op.d_amplitude_factor = (z : ℚ)) :
    (∀ t, ∃ z : Int, (rd A (t * N + op.i_source_channel_offset) : ℚ)
      * op.d_amplitude_factor = (z : ℚ)) ∧
    (∀ t, ∃ z : Int, (rd B (t * N + op.i_source_channel_offset) : ℚ)
      * op.d_amplitude_factor = (z : ℚ)) := by
  constructor
  · intro t
    by_cases ht : t < nA
    · obtain ⟨z, hz⟩ := hint t
      rw [rd_append_left (by rw [hA]; exact frame_index_lt hs ht)] at hz
      exact ⟨z, hz⟩
    · refine ⟨0, ?_⟩
      rw [rd_of_length_le]
      · simp
      · rw [hA]
        have : nA * N ≤ t * N := Nat.mul_le_mul_right N (by omega)
        omega
  · intro t
    obtain ⟨z, hz⟩ := hint (t + nA)
    rw [rd_append_right (by rw [hA, Nat.add_mul]; omega), hA] at hz
    have e : (t + nA) * N + op.i_source_channel_offset - nA * N
        = t * N + op.i_source_channel_offset := by
      rw [Nat.add_mul]; omega
    rw [e] at hz
    exact ⟨z, hz⟩

/-! ### Any number of blocks -/

theorem flatten_length_frames (N : Nat) :
    ∀ (blocks : List (List Int)), blocks ≠ [] →
      (∀ b ∈ blocks, ∃ n, 0 < n ∧ b.length = n * N) →
      ∃ n, 0 < n ∧ blocks.flatten.length = n * N := by
  intro blocks
  induction blocks with
  | nil => intro h; exact absurd rfl h
  | cons b rest ih =>
    intro _ hwf
    obtain ⟨n, hn, hb⟩ := hwf b (List.mem_cons_self _ _)
    by_cases hr : rest = []
    · subst hr
      exact ⟨n, hn, by simpa using hb⟩
    · obtain ⟨m, _, hm⟩ := ih hr (fun b' hb' => hwf b' (List.mem_cons_of_mem _ hb'))
      exact ⟨n + m, by omega, by rw [List.flatten_cons, List.length_append, hb, hm, Nat.add_mul]⟩

/-- Block-wise processing of a stream whose products are integers equals one call on the
whole stream: same output, same overflow buffer. -/
theorem process_stream_eq_process_block (N M : Nat) (hN : 0 < N) (hM : 0 < M) :
    ∀ (blocks : List (List Int)) (sys : filter_sys_t), blocks ≠ [] →
      (∀ b ∈ blocks, ∃ n, 0 < n ∧ b.length = n * N) →
      (∀ op ∈ sys.p_atomic_operations,
        op.i_dest_channel_offset < M ∧ op.i_source_channel_offset < N ∧
        op.i_delay * M ≤ sys.p_overflow_buffer.length) →
      sys.i_nb_atomic_operations = sys.p_atomic_operations.length →
      sys.i_overflow_buffer_size = 2 * sys.p_overflow_buffer.length →
      (∀ op ∈ sys.p_atomic_operations, ∀ t, ∃ z : Int,
        (rd blocks.flatten (t * N + op.i_source_channel_offset) : ℚ) * op.d_amplitude_factor
          = (z : ℚ)) →
      ∃ ovf out,
        process_stream sys N M blocks = some ({ sys with p_overflow_buffer := ovf }, out) ∧
        process_block sys N M blocks.flatten
          = some ({ sys with p_overflow_buffer := ovf }, out) ∧
        ovf.length = sys.p_overflow_buffer.length := by
  intro blocks
  induction blocks with
  | nil => intro _ h; exact absurd rfl h
  | cons b rest ih =>
    intro sys _ hwf hops hnb hsize hint
    obtain ⟨n, hn, hb⟩ := hwf b (List.mem_cons_self _ _)
    by_cases hr : rest = []
    · subst hr
      obtain ⟨ovf, out, p1, _, p3, _, _⟩ := process_block_spec sys N M n b hN hM hn hb
        (fun op h => (hops op h).1) hnb hsize
      refine ⟨ovf, out, ?_, ?_, p3⟩
      · simp [process_stream, p1]
      · simpa using p1
    · have hwf' : ∀ b' ∈ rest, ∃ n, 0 < n ∧ b'.length = n * N :=
        fun b' hb' => hwf b' (List.mem_cons_of_mem _ hb')
      obtain ⟨m, hm, hjoin⟩ := flatten_length_frames N rest hr hwf'
      rw [List.flatten_cons] at hint
      have hintA : ∀ op ∈ sys.p_atomic_operations, ∀ t, ∃ z : Int,
          (rd b (t * N + op.i_source_channel_offset) : ℚ) * op.d_amplitude_factor = (z : ℚ) :=
        fun op h => (int_products_split N n b rest.flatten op hb (hops op h).2.1 (hint op h)).1
      have hintB : ∀ op ∈ sys.p_atomic_operations, ∀ t, ∃ z : Int,
          (rd rest.flatten (t * N + op.i_source_channel_offset) : ℚ) * op.d_amplitude_factor
            = (z : ℚ) :=
        fun op h => (int_products_split N n b rest.flatten op hb (hops op h).2.1 (hint op h)).2
      obtain ⟨ovfA, outA, ovfB, outB, q1, q2, q3, q4, q5⟩ :=
        process_two_blocks sys N M n m b rest.flatten hN hM hn hm hb hjoin hops hnb hsize
          (fun x => slot_value_split (fun _ => True) N M n m b rest.flatten
            sys.p_atomic_operations hM hb (fun op h => (hops op h).2.1)
            (fun _ _ _ _ _ => trivial) (fun _ _ _ _ _ => trivial)
            (fun op1 h1 op2 h2 x y a _ => op_update_comm_of_int N M n m b rest.flatten op1 op2
              (hintB op1 h1) (hintA op2 h2) x y a) x _ trivial)
      obtain ⟨ovfR, outR, r1, r2, r3⟩ := ih { sys with p_overflow_buffer := ovfA } hr hwf'
        (fun op h => by
          have := hops op h
          exact ⟨this.1, this.2.1, by simpa [q4] using this.2.2⟩)
        hnb (by simpa [q4] using hsize) hintB
      simp only at r1 r2 r3
      rw [q2] at r2
      have e := Option.some.inj r2
      simp only [Prod.mk.injEq] at e
      obtain ⟨e1, e2⟩ := e
      refine ⟨ovfB, outA ++ outB, ?_, ?_, q5⟩
      · simp only [process_stream, q1, r1, e2]
        rw [← e1]
      · rw [List.flatten_cons, q3]

/-! ### The overflow buffer sized by `Init` -/

theorem Init_overflow_buffer_size_spec (ops : List atomic_operation_t) :
    ∀ (k : Nat), Init_overflow_buffer_size k ops % 4 = 0 ∧
      ∀ i op, i < k → ops[i]? = some op →
        op.i_delay * 2 * 2 ≤ Init_overflow_buffer_size k ops := by
  intro k
  induction k with
  | zero => exact ⟨rfl, fun i op h _ => absurd h (Nat.not_lt_zero i)⟩
  | succ k ih =>
    unfold Init_overflow_buffer_size at ih ⊢
    simp only [forLoop]
    obtain ⟨ih1, ih2⟩ := ih
    cases h : ops[k]? with
    | none =>
      refine ⟨ih1, fun i op hi hop => ?_⟩
      by_cases e : i = k
      · subst e; rw [h] at hop; cases hop
      · exact ih2 i op (by omega) hop
    | some o =>
      simp only
      split_ifs with hlt
      · refine ⟨by omega, fun i op hi hop => ?_⟩
        by_cases e : i = k
        · subst e; rw [h] at hop; cases hop; exact le_refl _
        · have := ih2 i op (by omega) hop
          omega
      · refine ⟨ih1, fun i op hi hop => ?_⟩
        by_cases e : i = k
        · subst e; rw [h] at hop; cases hop; omega
        · exact ih2 i op (by omega) hop

theorem Init_sys_wellformed (b_downmix : Bool) (N : Nat) (sel : Int) (bits : Nat)
    (ops : List atomic_operation_t) :
    (Init_sys b_downmix N sel bits ops).i_overflow_buffer_size
      = 2 * (Init_sys b_downmix N sel bits ops).p_overflow_buffer.length ∧
    (∀ op ∈ ops, op.i_delay * 2
      ≤ (Init_sys b_downmix N sel bits ops).p_overflow_buffer.length) ∧
    (∀ i, rd (Init_sys b_downmix N sel bits ops).p_overflow_buffer i = 0) := by
  obtain ⟨h1, h2⟩ := Init_overflow_buffer_size_spec ops ops.length
  simp only [Init_sys, List.length_replicate]
  refine ⟨by omega, fun op hop => ?_, fun i => ?_⟩
  · obtain ⟨i, hi, hget⟩ := List.getElem_of_mem hop
    have := h2 i op hi (by rw [List.getElem?_eq_getElem hi, hget])
    omega
  · simp only [rd, List.getD_eq_getElem?_getD, List.getElem?_replicate]
    split_ifs <;> rfl

theorem process_stream_singleton {sys sys1 : filter_sys_t} {N M : Nat} {block out : List Int}
    (h : process_block sys N M block = some (sys1, out)) :
    process_stream sys N M [block] = some (sys1, out) := by
  simp [process_stream, h]

/-- C1 (as stated, refuted). Two taps of gain 1/2 on the left input channel, with delays
0 and 1: the stream of frames `(3, 0), (-1, 0)` processed as two one-frame blocks gives
the stereo output `[1, 0, 0, 0]`, processed as one block it gives `[1, 0, 1, 0]`; the two
ways of cutting the stream do not give the same result. -/
theorem chunking_changes_output :
    (process_stream (Init_sys true 2 (-1) 16 [⟨0, 0, 0, 1 / 2⟩, ⟨0, 0, 1, 1 / 2⟩]) 2 2
        [[3, 0], [-1, 0]]).map Prod.snd = some [1, 0, 0, 0] ∧
    (process_stream (Init_sys true 2 (-1) 16 [⟨0, 0, 0, 1 / 2⟩, ⟨0, 0, 1, 1 / 2⟩]) 2 2
        [[[3, 0], [-1, 0]].flatten]).map Prod.snd = some [1, 0, 1, 0] ∧
    process_stream (Init_sys true 2 (-1) 16 [⟨0, 0, 0, 1 / 2⟩, ⟨0, 0, 1, 1 / 2⟩]) 2 2
        [[3, 0], [-1, 0]]
      ≠ process_stream (Init_sys true 2 (-1) 16 [⟨0, 0, 0, 1 / 2⟩, ⟨0, 0, 1, 1 / 2⟩]) 2 2
        [[[3, 0], [-1, 0]].flatten] := by
  refine ⟨by decide!, by decide!, by decide!⟩

/-- C1 (amended). For every tap table with destination ear in {0, 1} and source index
below the channel count, every stream cut into consecutive non-empty blocks of whole
frames such that every product sample * gain formed by a tap is an integer: starting
from the zeroed overflow buffer sized by `Init` and writing into pre-zeroed stereo output
blocks, block-wise processing returns, and its concatenated output and final private
data (overflow buffer included) are those of one call on the whole stream. -/
theorem chunking_independence_of_int_products (b_downmix : Bool) (N : Nat) (sel : Int)
    (bits : Nat) (ops : List atomic_operation_t) (blocks : List (List Int))
    (hN : 0 < N) (hne : blocks ≠ [])
    (hwf : ∀ b ∈ blocks, ∃ n, 0 < n ∧ b.length = n * N)
    (hops : ∀ op ∈ ops, op.i_dest_channel_offset < 2 ∧ op.i_source_channel_offset < N)
    (hint : ∀ op ∈ ops, ∀ t, ∃ z : Int,
      (rd blocks.flatten (t * N + op.i_source_channel_offset) : ℚ) * op.d_amplitude_factor
        = (z : ℚ)) :
    ∃ sys out,
      process_stream (Init_sys b_downmix N sel bits ops) N 2 blocks = some (sys, out) ∧
      process_stream (Init_sys b_downmix N sel bits ops) N 2 [blocks.flatten]
        = some (sys, out) := by
  obtain ⟨w1, w2, _⟩ := Init_sys_wellformed b_downmix N sel bits ops
  obtain ⟨ovf, out, h1, h2, _⟩ := process_stream_eq_process_block N 2 hN (by decide) blocks
    (Init_sys b_downmix N sel bits ops) hne hwf
    (fun op h => ⟨(hops op h).1, (hops op h).2, w2 op h⟩) rfl w1 hint
  exact ⟨_, out, h1, process_stream_singleton h2⟩

/-- C1 witness: integer gains, a 5-frame stereo stream cut as 1 + 3 + 1 frames. -/
theorem chunking_independence_of_int_products_witness :
    ∃ sys out,
      process_stream (Init_sys true 2 (-1) 16 [⟨0, 0, 3, 1⟩, ⟨1, 1, 1, 2⟩, ⟨0, 1, 0, 1⟩]) 2 2
        [[3, 0], [-1, 0, 4, 5, 6, 7], [8, 9]] = some (sys, out) ∧
      process_stream (Init_sys true 2 (-1) 16 [⟨0, 0, 3, 1⟩, ⟨1, 1, 1, 2⟩, ⟨0, 1, 0, 1⟩]) 2 2
        [[[3, 0], [-1, 0, 4, 5, 6, 7], [8, 9]].flatten] = some (sys, out) :=
  chunking_independence_of_int_products true 2 (-1) 16
    [⟨0, 0, 3, 1⟩, ⟨1, 1, 1, 2⟩, ⟨0, 1, 0, 1⟩] [[3, 0], [-1, 0, 4, 5, 6, 7], [8, 9]]
    (by decide) (by decide)
    (by
      intro b hb
      simp only [List.mem_cons, List.mem_singleton, List.not_mem_nil, or_false] at hb
      rcases hb with rfl | rfl | rfl
      · exact ⟨1, by decide, rfl⟩
      · exact ⟨3, by decide, rfl⟩
      · exact ⟨1, by decide, rfl⟩)
    (by
      intro op hop
      simp only [List.mem_cons, List.mem_singleton, List.not_mem_nil, or_false] at hop
      rcases hop with rfl | rfl | rfl <;> decide)
    (by
      intro op hop t
      simp only [List.mem_cons, List.mem_singleton, List.not_mem_nil, or_false] at hop
      rcases hop with rfl | rfl | rfl
      · exact ⟨_, mul_one _⟩
      · exact ⟨rd _ _ * 2, by push_cast; ring⟩
      · exact ⟨_, mul_one _⟩)

/-! ### A single non-zero sample -/

theorem isInt16_op_update (N M n : Nat) (p_in : List Int) (op : atomic_operation_t)
    (x : Nat) (a : Int) (ha : isInt16 a) : isInt16 (op_update N M n p_in op x a) := by
  unfold op_update
  split_ifs
  · exact isInt16_toInt16 _
  · exact ha

theorem op_update_zero_block (N M n : Nat) (p_in : List Int) (op : atomic_operation_t)
    (hz : ∀ i, rd p_in i = 0) (x : Nat) (a : Int) (ha : isInt16 a) :
    op_update N M n p_in op x a = a := by
  unfold op_update
  split_ifs
  · unfold accumulate
    rw [hz]
    simp only [Int.cast_zero, zero_mul, add_zero]
    rw [truncQ_intCast, toInt16_of_isInt16 ha]
  · rfl

theorem op_update_comm_of_zero (N M nA nB : Nat) (A B : List Int)
    (op1 op2 : atomic_operation_t) (hz : (∀ i, rd A i = 0) ∨ (∀ i, rd B i = 0))
    (x y : Nat) (a : Int) (ha : isInt16 a) :
    op_update N M nB B op1 x (op_update N M nA A op2 y a)
      = op_update N M nA A op2 y (op_update N M nB B op1 x a) := by
  rcases hz with hz | hz
  · rw [op_update_zero_block N M nA A op2 hz y a ha,
      op_update_zero_block N M nA A op2 hz y _ (isInt16_op_update N M nB B op1 x a ha)]
  · rw [op_update_zero_block N M nB B op1 hz x a ha,
      op_update_zero_block N M nB B op1 hz x _ (isInt16_op_update N M nA A op2 y a ha)]

theorem impulse_take_drop (total k pos : Nat) (v : Int) (hk : k ≤ total) :
    (((List.replicate total (0 : Int)).set pos v).take k).length = k ∧
    (((List.replicate total (0 : Int)).set pos v).drop k).length = total - k ∧
    ((∀ i, rd (((List.replicate total (0 : Int)).set pos v).take k) i = 0) ∨
     (∀ i, rd (((List.replicate total (0 : Int)).set pos v).drop k) i = 0)) := by
  refine ⟨by simp [hk], by simp, ?_⟩
  by_cases hp : pos < k
  · right
    intro i
    simp only [rd, List.getD_eq_getElem?_getD, List.getElem?_drop, List.getElem?_set,
      List.getElem?_replicate, List.length_replicate]
    split_ifs <;> first | rfl | omega
  · left
    intro i
    simp only [rd, List.getD_eq_getElem?_getD, List.getElem?_take, List.getElem?_set,
      List.getElem?_replicate, List.length_replicate]
    split_ifs <;> first | rfl | omega

/-- C2. Delay-line continuity for an impulse: for every tap table (destination ear in
{0, 1}, source index below the channel count, any delays and gains), every `B1 >= 1`,
`B2 >= 1` and every input of `B1 + B2` frames that is zero except for one sample, the
call on the first `B1` frames and the call on the next `B2` frames (zeroed overflow buffer
sized by `Init` at start, pre-zeroed stereo output blocks) both return, and their
outputs concatenated equal the output of a single call on all `B1 + B2` frames. -/
theorem impulse_continuity (b_downmix : Bool) (N : Nat) (sel : Int) (bits : Nat)
    (ops : List atomic_operation_t) (B1 B2 pos : Nat) (v : Int)
    (hN : 0 < N) (hB1 : 0 < B1) (hB2 : 0 < B2)
    (hops : ∀ op ∈ ops, op.i_dest_channel_offset < 2 ∧ op.i_source_channel_offset < N) :
    ∃ sys1 out1 sys2 out2,
      process_block (Init_sys b_downmix N sel bits ops) N 2
        (((List.replicate ((B1 + B2) * N) 0).set pos v).take (B1 * N)) = some (sys1, out1) ∧
      process_block sys1 N 2
        (((List.replicate ((B1 + B2) * N) 0).set pos v).drop (B1 * N)) = some (sys2, out2) ∧
      process_block (Init_sys b_downmix N sel bits ops) N 2
        ((List.replicate ((B1 + B2) * N) 0).set pos v) = some (sys2, out1 ++ out2) := by
  obtain ⟨w1, w2, w3⟩ := Init_sys_wellformed b_downmix N sel bits ops
  have hk : B1 * N ≤ (B1 + B2) * N := Nat.mul_le_mul_right N (by omega)
  obtain ⟨l1, l2, hz⟩ := impulse_take_drop ((B1 + B2) * N) (B1 * N) pos v hk
  have l2' : (((List.replicate ((B1 + B2) * N) (0 : Int)).set pos v).drop (B1 * N)).length
      = B2 * N := by
    rw [l2, Nat.add_mul]; omega
  have hsrc : ∀ op ∈ (Init_sys b_downmix N sel bits ops).p_atomic_operations,
      op.i_source_channel_offset < N := fun op h => (hops op h).2
  obtain ⟨ovfA, outA, ovfB, outB, q1, q2, q3, _, _⟩ :=
    process_two_blocks (Init_sys b_downmix N sel bits ops) N 2 B1 B2 _ _ hN (by decide)
      hB1 hB2 l1 l2' (fun op h => ⟨(hops op h).1, (hops op h).2, w2 op h⟩) rfl w1
      (fun x => slot_value_split isInt16 N 2 B1 B2 _ _ _ (by decide) l1 hsrc
        (fun op _ x a ha => isInt16_op_update N 2 B1 _ op x a ha)
        (fun op _ x a ha => isInt16_op_update N 2 B2 _ op x a ha)
        (fun op1 _ op2 _ x y a ha => op_update_comm_of_zero N 2 B1 B2 _ _ op1 op2 hz x y a ha)
        x _ (by rw [w3]; decide))
  rw [List.take_append_drop] at q3
  exact ⟨_, outA, _, outB, q1, q2, q3⟩

/-- C2 witness: three taps with fractional gains, delays 0, 2 and 7; blocks of 2 and 3
stereo frames with the value 1 on the right channel of frame 1. -/
theorem impulse_continuity_witness :
    ∃ sys1 out1 sys2 out2,
      process_block
        (Init_sys true 2 (-1) 16 [⟨1, 0, 0, 11 / 20⟩, ⟨1, 1, 2, 9 / 20⟩, ⟨0, 1, 7, 1 / 2⟩]) 2 2
        (((List.replicate ((2 + 3) * 2) 0).set 3 1).take (2 * 2)) = some (sys1, out1) ∧
      process_block sys1 2 2
        (((List.replicate ((2 + 3) * 2) 0).set 3 1).drop (2 * 2)) = some (sys2, out2) ∧
      process_block
        (Init_sys true 2 (-1) 16 [⟨1, 0, 0, 11 / 20⟩, ⟨1, 1, 2, 9 / 20⟩, ⟨0, 1, 7, 1 / 2⟩]) 2 2
        ((List.replicate ((2 + 3) * 2) 0).set 3 1) = some (sys2, out1 ++ out2) :=
  impulse_continuity true 2 (-1) 16 [⟨1, 0, 0, 11 / 20⟩, ⟨1, 1, 2, 9 / 20⟩, ⟨0, 1, 7, 1 / 2⟩]
    2 3 3 1 (by decide) (by decide) (by decide)
    (by
      intro op hop
      simp only [List.mem_cons, List.mem_singleton, List.not_mem_nil, or_false] at hop
      rcases hop with rfl | rfl | rfl <;> decide)

/-! ## Bounds of the accesses of `stereo2mono_downmix` -/

theorem mem_range_accesses (buf : Buf) (write : Bool) (off len : Nat) (a : Access) :
    a ∈ range_accesses buf write off len ↔ ∃ i, i < len ∧ a = ⟨buf, write, off + i⟩ := by
  simp only [range_accesses, List.mem_map, List.mem_range]
  constructor
  · rintro ⟨i, hi, rfl⟩; exact ⟨i, hi, rfl⟩
  · rintro ⟨i, hi, rfl⟩; exact ⟨i, hi, rfl⟩

theorem slide_loop_accesses_spec (O S : Nat) (hS : 0 < S) :
    ∀ (fuel p : Nat), O + 1 ≤ p + fuel → 0 < fuel →
      ∃ tr, slide_loop_accesses O S fuel p = some tr ∧
        ∀ a ∈ tr, a.buf = Buf.overflow ∧ a.index < O := by
  intro fuel
  induction fuel with
  | zero => intro p _ h; omega
  | succ fuel ih =>
    intro p hfuel _
    unfold slide_loop_accesses
    by_cases hp : p < O
    · obtain ⟨tr, h1, h2⟩ := ih (p + S) (by omega) (by omega)
      rw [if_pos hp, h1]
      by_cases c1 : p + S < O
      · rw [if_pos c1]
        by_cases c2 : p + 2 * S < O
        · rw [if_pos c2]
          refine ⟨_, rfl, ?_⟩
          intro a ha
          simp only [List.mem_append, mem_range_accesses] at ha
          rcases ha with ((⟨i, hi, rfl⟩ | ⟨i, hi, rfl⟩) | ⟨i, hi, rfl⟩) | ha
          · exact ⟨rfl, by simp only; omega⟩
          · exact ⟨rfl, by simp only; omega⟩
          · exact ⟨rfl, by simp only; omega⟩
          · exact h2 a ha
        · rw [if_neg c2]
          refine ⟨_, rfl, ?_⟩
          intro a ha
          simp only [List.mem_append, mem_range_accesses] at ha
          rcases ha with ((⟨i, hi, rfl⟩ | ⟨i, hi, rfl⟩) | ⟨i, hi, rfl⟩) | ha
          · exact ⟨rfl, by simp only; omega⟩
          · exact ⟨rfl, by simp only; omega⟩
          · exact ⟨rfl, by simp only; omega⟩
          · exact h2 a ha
      · rw [if_neg c1]
        refine ⟨_, rfl, ?_⟩
        intro a ha
        simp only [List.mem_append, mem_range_accesses] at ha
        rcases ha with ⟨i, hi, rfl⟩ | ha
        · exact ⟨rfl, by simp only; omega⟩
        · exact h2 a ha
    · rw [if_neg hp]
      exact ⟨[], rfl, fun a ha => absurd ha (List.not_mem_nil a)⟩

theorem apply_atomic_operation_accesses_in_bounds (N M n : Nat) (op : atomic_operation_t)
    (p_in p_out p_overflow : List Int)
    (hd : op.i_dest_channel_offset < M) (hs : op.i_source_channel_offset < N)
    (hO : op.i_delay * M ≤ p_overflow.length)
    (hin : p_in.length = n * N) (hout : p_out.length = n * M) :
    ∀ a ∈ apply_atomic_operation_accesses N M n op,
      access_in_bounds p_in p_out p_overflow a := by
  intro a ha
  unfold apply_atomic_operation_accesses at ha
  by_cases hn : n > op.i_delay
  · rw [if_pos hn] at ha
    simp only [List.mem_append, List.mem_flatMap, List.mem_range, addTo_accesses,
      List.mem_cons, List.mem_singleton, List.not_mem_nil, or_false] at ha
    rcases ha with ⟨j, hj, rfl | rfl | rfl⟩ | ⟨j, hj, rfl | rfl | rfl⟩
    · simp only [access_in_bounds, hout]
      exact frame_index_lt hd (by omega)
    · simp only [access_in_bounds, hin]
      exact frame_index_lt hs (by omega)
    · simp only [access_in_bounds, hout]
      exact frame_index_lt hd (by omega)
    · simp only [access_in_bounds]
      exact lt_of_lt_of_le (frame_index_lt hd hj) hO
    · simp only [access_in_bounds, hin]
      exact frame_index_lt hs (by omega)
    · simp only [access_in_bounds]
      exact lt_of_lt_of_le (frame_index_lt hd hj) hO
  · rw [if_neg hn] at ha
    simp only [List.mem_flatMap, List.mem_range, addTo_accesses,
      List.mem_cons, List.mem_singleton, List.not_mem_nil, or_false] at ha
    rcases ha with ⟨j, hj, rfl | rfl | rfl⟩
    · simp only [access_in_bounds]
      exact lt_of_lt_of_le (frame_index_lt hd (by omega)) hO
    · simp only [access_in_bounds, hin]
      exact frame_index_lt hs hj
    · simp only [access_in_bounds]
      exact lt_of_lt_of_le (frame_index_lt hd (by omega)) hO

/-- C4. Bounds safety of `stereo2mono_downmix`: when the overflow buffer holds exactly
`2 * D` samples for a bound `D` on the tap delays (`Init` takes the maximum), every tap
has a source index below the input channel count and a destination ear in {0, 1}, the
input block holds `frames * N` samples and the output block `frames * 2` samples, then
for every `frames >= 1` the index trace is defined (the slide loop terminates) and every
index read or written in the overflow buffer, the input block and the output block is in
bounds, in the copy step, the slide step and the tap application. -/
theorem stereo2mono_downmix_in_bounds (sys : filter_sys_t) (N frames D : Nat)
    (p_in_buf p_out_buf : aout_buffer_t) (hN : 0 < N) (hframes : 0 < frames)
    (hsize : sys.i_overflow_buffer_size = 4 * D)
    (hovf : sys.p_overflow_buffer.length = 2 * D)
    (hops : ∀ op ∈ sys.p_atomic_operations, op.i_delay ≤ D ∧
      op.i_source_channel_offset < N ∧ op.i_dest_channel_offset < 2)
    (hin : p_in_buf.p_buffer.length = frames * N)
    (hsamples : p_in_buf.i_nb_samples = frames)
    (hbytes : p_in_buf.i_nb_bytes = 2 * (frames * N))
    (hout : p_out_buf.p_buffer.length = frames * 2) :
    ∃ tr, stereo2mono_downmix_accesses sys N 2 p_in_buf = some tr ∧
      ∀ a ∈ tr, access_in_bounds p_in_buf.p_buffer p_out_buf.p_buffer
        sys.p_overflow_buffer a := by
  obtain ⟨_, z2, z3⟩ := @block_sizes frames N 2 hN
  obtain ⟨slide, s1, s2⟩ := slide_loop_accesses_spec (2 * D) (frames * 2) (by omega)
    (2 * D + 1) 0 (by omega) (by omega)
  have hO : sys.i_overflow_buffer_size / 2 = 2 * D := by omega
  unfold stereo2mono_downmix_accesses
  rw [hbytes, z2, z3, hO, s1]
  refine ⟨_, rfl, ?_⟩
  intro a ha
  simp only [List.mem_append] at ha
  rcases ha with (ha | ha) | ha
  · split_ifs at ha with hc
    · simp only [List.mem_append, mem_range_accesses] at ha
      rcases ha with ⟨i, hi, rfl⟩ | ⟨i, hi, rfl⟩
      · simp only [access_in_bounds, hovf]; omega
      · simp only [access_in_bounds, hout]; omega
    · simp only [List.mem_append, mem_range_accesses] at ha
      rcases ha with ⟨i, hi, rfl⟩ | ⟨i, hi, rfl⟩
      · simp only [access_in_bounds, hovf]; omega
      · simp only [access_in_bounds, hout]; omega
  · obtain ⟨hb, hi⟩ := s2 a ha
    unfold access_in_bounds
    rw [hb, hovf]
    exact hi
  · simp only [List.mem_flatMap, List.mem_range] at ha
    obtain ⟨i, _, hai⟩ := ha
    cases hop : sys.p_atomic_operations[i]? with
    | none => rw [hop] at hai; exact absurd hai (List.not_mem_nil a)
    | some op =>
      rw [hop] at hai
      have hmem : op ∈ sys.p_atomic_operations := List.getElem?_mem hop
      obtain ⟨h1, h2, h3⟩ := hops op hmem
      rw [hsamples] at hai
      exact apply_atomic_operation_accesses_in_bounds N 2 frames op _ _ _ h3 h2
        (by rw [hovf]; omega) hin hout a hai

/-- C4 witness: taps of delays 3 and 0 (overflow of 6 samples), a block of 4 stereo
frames: the block size does not divide the overflow size. -/
theorem stereo2mono_downmix_in_bounds_witness :
    ∃ tr, stereo2mono_downmix_accesses
        (Init_sys true 2 (-1) 16 [⟨0, 0, 3, 1 / 2⟩, ⟨1, 1, 0, 1 / 2⟩]) 2 2
        ⟨[1, 2, 3, 4, 5, 6, 7, 8], 4, 16⟩ = some tr ∧
      ∀ a ∈ tr, access_in_bounds [1, 2, 3, 4, 5, 6, 7, 8] (List.replicate 8 0)
        (Init_sys true 2 (-1) 16 [⟨0, 0, 3, 1 / 2⟩, ⟨1, 1, 0, 1 / 2⟩]).p_overflow_buffer a :=
  stereo2mono_downmix_in_bounds (Init_sys true 2 (-1) 16 [⟨0, 0, 3, 1 / 2⟩, ⟨1, 1, 0, 1 / 2⟩])
    2 4 3 ⟨[1, 2, 3, 4, 5, 6, 7, 8], 4, 16⟩ ⟨List.replicate 8 0, 4, 16⟩
    (by decide) (by decide) (by decide) (by decide)
    (by
      intro op hop
      simp only [Init_sys, List.mem_cons, List.mem_singleton, List.not_mem_nil,
        or_false] at hop
      rcases hop with rfl | rfl <;> decide)
    (by decide) (by decide) (by decide) (by decide)

/-- C3 (the code at the failing input). A downmix filter on 2 input channels, output
format of 1 channel as `OpenFilter` sets it, four taps of delay 1 and gain 1/2, zeroed
overflow buffer; the block is the single frame `(10, 20)`. `Convert` returns the sample
`15 = (10 + 20) >> 1`, the average of the raw input pair, while `stereo2mono_downmix`
computed `0` for this block (the frame is delayed into the overflow buffer, which holds
`[15, 15]` afterwards): `mono` reads the input block, not the downmix output. -/
theorem Convert_downmix_returns_input_average :
    (Convert ⟨2, 1, Init_sys true 2 (-1) 16
          [⟨0, 0, 1, 1 / 2⟩, ⟨0, 1, 1, 1 / 2⟩, ⟨1, 0, 1, 1 / 2⟩, ⟨1, 1, 1, 1 / 2⟩]⟩
        (some ⟨[10, 20], 4, 1, 0, 0, 0⟩) true).map
      (fun r => (r.1.p_sys.p_overflow_buffer, r.2.map (fun b => b.p_buffer)))
      = some ([15, 15], some [15]) ∧
    (stereo2mono_downmix (some (Init_sys true 2 (-1) 16
          [⟨0, 0, 1, 1 / 2⟩, ⟨0, 1, 1, 1 / 2⟩, ⟨1, 0, 1, 1 / 2⟩, ⟨1, 1, 1, 1 / 2⟩]))
        2 1 ⟨[10, 20], 1, 4⟩ ⟨[0], 0, 2⟩).map
      (fun r => (r.1.map (fun s => s.p_overflow_buffer), r.2.p_buffer))
      = some (some [15, 15], [0]) := by
  constructor <;> decide!

/-! ## The table built by `Init` -/

theorem ComputeChannelOperations_append {K : Type} [LinearOrderedField K] [FloorRing K]
    (sqrt : K → K) (i_rate src : Nat) (x z c : K) (amp : ℚ)
    (rest : List (Option atomic_operation_t)) :
    ∀ (w : List (Option atomic_operation_t)),
      ComputeChannelOperations sqrt (w ++ (none :: none :: rest)) i_rate w.length src x z c amp
        = (w ++ [some (left_ear_operation sqrt i_rate src x z c amp),
            some (right_ear_operation sqrt i_rate src x z c amp)]) ++ rest := by
  intro w
  induction w with
  | nil => simp [ComputeChannelOperations]
  | cons a w ih =>
    simp only [ComputeChannelOperations, List.cons_append, List.length_cons, List.set_cons_succ,
      List.cons.injEq, true_and] at ih ⊢
    exact ih

theorem Init_speaker_spec {K : Type} [LinearOrderedField K] [FloorRing K]
    (sqrt : K → K) (present : Bool) (i_rate src : Nat) (x z c : K) (amp : ℚ)
    (w rest : List (Option atomic_operation_t)) :
    Init_speaker sqrt present i_rate x z c amp
        { p_atomic_operations := w ++ (List.replicate (2 * present.toNat) none ++ rest),
          i_next_atomic_operation := w.length,
          i_source_channel_offset := src }
      = { p_atomic_operations :=
            (w ++ ((if present then speaker_operations sqrt i_rate c ⟨src, x, z, amp⟩
              else []).map some)) ++ rest,
          i_next_atomic_operation :=
            (w ++ ((if present then speaker_operations sqrt i_rate c ⟨src, x, z, amp⟩
              else []).map some)).length,
          i_source_channel_offset := src + present.toNat } := by
  cases present with
  | false => simp [Init_speaker]
  | true =>
    simp only [Init_speaker, if_true, Bool.toNat_true, Nat.mul_one]
    have e : (List.replicate 2 (none : Option atomic_operation_t)) ++ rest
        = none :: none :: rest := rfl
    rw [e, ComputeChannelOperations_append]
    simp [speaker_operations]

theorem Init_center_spec {K : Type} [LinearOrderedField K] [FloorRing K]
    (sqrt : K → K) (present : Bool) (i_rate src : Nat) (x z c : K) (amp : ℚ)
    (w rest : List (Option atomic_operation_t)) :
    Init_center sqrt present i_rate x z c amp
        { p_atomic_operations := w ++ (List.replicate (4 * present.toNat) none ++ rest),
          i_next_atomic_operation := w.length,
          i_source_channel_offset := src }
      = { p_atomic_operations :=
            (w ++ ((if present then
                speaker_operations sqrt i_rate c ⟨src, x / 5, z, amp⟩
                  ++ speaker_operations sqrt i_rate c ⟨src, -x / 5, z, amp⟩
              else []).map some)) ++ rest,
          i_next_atomic_operation :=
            (w ++ ((if present then
                speaker_operations sqrt i_rate c ⟨src, x / 5, z, amp⟩
                  ++ speaker_operations sqrt i_rate c ⟨src, -x / 5, z, amp⟩
              else []).map some)).length,
          i_source_channel_offset := src + present.toNat } := by
  cases present with
  | false => simp [Init_center]
  | true =>
    simp only [Init_center, if_true, Bool.toNat_true, Nat.mul_one]
    have e : (List.replicate 4 (none : Option atomic_operation_t)) ++ rest
        = none :: none :: (none :: none :: rest) := rfl
    rw [e, ComputeChannelOperations_append]
    have e2 : w.length + 2 = (w ++ [some (left_ear_operation sqrt i_rate src (x / 5) z c amp),
        some (right_ear_operation sqrt i_rate src (x / 5) z c amp)]).length := by simp
    rw [e2, ComputeChannelOperations_append]
    simp [speaker_operations]

theorem flatMap_ite_nil {α β : Type} (b : Bool) (l : List α) (f : α → List β) :
    (if b = true then l else []).flatMap f = if b = true then l.flatMap f else [] := by
  cases b <;> simp

/-- The table that `Init` fills, slot by slot: when the table offers two free slots per
active channel (four for Center) followed by `rest`, the speaker blocks write the
operations of the spec's virtual speakers, in order, into the free slots, leave `rest`
untouched, and end with the next index just after the last written slot. -/
theorem Init_operations_spec {K : Type} [LinearOrderedField K] [FloorRing K] (sqrt : K → K)
    (dim comp : Int) (N : Nat) (c : physical_channels) (i_rate : Nat)
    (rest : List (Option atomic_operation_t)) :
    Init_operations sqrt dim comp N c i_rate
        (List.replicate (2 * c.left.toNat) none ++ (List.replicate (2 * c.right.toNat) none
          ++ (List.replicate (2 * c.middleleft.toNat) none
          ++ (List.replicate (2 * c.middleright.toNat) none
          ++ (List.replicate (2 * c.rearleft.toNat) none
          ++ (List.replicate (2 * c.rearright.toNat) none
          ++ (List.replicate (2 * c.rearcenter.toNat) none
          ++ (List.replicate (4 * c.center.toNat) none
          ++ (List.replicate (2 * c.lfe.toNat) none ++ rest)))))))))
      = { p_atomic_operations :=
            (((spec_virtual_speakers c (dim : K) N).flatMap
              (speaker_operations sqrt i_rate (Init_d_min comp c (dim : K)))).map some)
              ++ rest,
          i_next_atomic_operation :=
            ((spec_virtual_speakers c (dim : K) N).flatMap
              (speaker_operations sqrt i_rate (Init_d_min comp c (dim : K)))).length,
          i_source_channel_offset := aout_FormatNbChannels c } := by
  unfold Init_operations
  have e0 : ∀ (T : List (Option atomic_operation_t)),
      ({ p_atomic_operations := T, i_next_atomic_operation := 0,
         i_source_channel_offset := 0 } : Init_locals)
      = { p_atomic_operations := [] ++ T,
          i_next_atomic_operation := ([] : List (Option atomic_operation_t)).length,
          i_source_channel_offset := 0 } := fun _ => rfl
  rw [e0, Init_speaker_spec, Init_speaker_spec, Init_speaker_spec, Init_speaker_spec,
    Init_speaker_spec, Init_speaker_spec, Init_speaker_spec, Init_center_spec,
    Init_speaker_spec]
  simp only [spec_virtual_speakers, aout_FormatNbChannels, List.flatMap_append,
    List.map_append, List.nil_append, List.append_assoc, List.length_append, Nat.zero_add]
  simp only [flatMap_ite_nil, List.flatMap_cons, List.flatMap_nil, List.append_nil,
    List.length_map]

theorem Init_free_slots (c : physical_channels) (N : Nat) (hN : N = aout_FormatNbChannels c)
    (extra : Nat) :
    List.replicate (Init_nb_atomic_operations N c + extra) (none : Option atomic_operation_t)
      = List.replicate (2 * c.left.toNat) none ++ (List.replicate (2 * c.right.toNat) none
          ++ (List.replicate (2 * c.middleleft.toNat) none
          ++ (List.replicate (2 * c.middleright.toNat) none
          ++ (List.replicate (2 * c.rearleft.toNat) none
          ++ (List.replicate (2 * c.rearright.toNat) none
          ++ (List.replicate (2 * c.rearcenter.toNat) none
          ++ (List.replicate (4 * c.center.toNat) none
          ++ (List.replicate (2 * c.lfe.toNat) none ++ List.replicate extra none)))))))) := by
  simp only [List.append_replicate_replicate]
  congr 1
  rw [hN]
  unfold Init_nb_atomic_operations aout_FormatNbChannels
  cases c.center <;> simp <;> omega

theorem length_speaker_operations {K : Type} [LinearOrderedField K] [FloorRing K]
    (sqrt : K → K) (i_rate : Nat) (comp : K) :
    ∀ (l : List (virtual_speaker K)),
      (l.flatMap (speaker_operations sqrt i_rate comp)).length = 2 * l.length := by
  intro l
  induction l with
  | nil => rfl
  | cons s l ih =>
    simp only [List.flatMap_cons, List.length_append, ih, List.length_cons, speaker_operations,
      List.length_nil]
    omega

theorem length_spec_virtual_speakers {K : Type} [LinearOrderedField K] (c : physical_channels)
    (d : K) (N : Nat) :
    (spec_virtual_speakers c d N).length = aout_FormatNbChannels c + c.center.toNat := by
  have h1 : ∀ (b : Bool) (s : virtual_speaker K),
      (if b = true then [s] else []).length = b.toNat := by
    intro b s; cases b <;> rfl
  have h2 : ∀ (b : Bool) (s t : virtual_speaker K),
      (if b = true then [s, t] else []).length = 2 * b.toNat := by
    intro b s t; cases b <;> rfl
  unfold spec_virtual_speakers aout_FormatNbChannels
  simp only [List.length_append, h1, h2]
  omega

/-- The table left by `Init` for a layout whose channel count is consistent: the
operations of the spec's virtual speakers, in canonical order. -/
theorem Init_atomic_operations_eq {K : Type} [LinearOrderedField K] [FloorRing K]
    (sqrt : K → K) (dim comp : Int) (N : Nat) (c : physical_channels) (i_rate : Nat)
    (hN : N = aout_FormatNbChannels c) :
    Init_atomic_operations sqrt dim comp N c i_rate
      = (spec_virtual_speakers c (dim : K) N).flatMap
          (speaker_operations sqrt i_rate (Init_d_min comp c (dim : K))) := by
  unfold Init_atomic_operations
  have h := Init_free_slots c N hN 0
  simp only [Nat.add_zero, List.replicate_zero] at h
  rw [h, Init_operations_spec]
  simp only [List.append_nil, List.map_map]
  have e : ((fun o : Option atomic_operation_t => o.getD ⟨0, 0, 0, 0⟩) ∘ some) = id := rfl
  rw [e, List.map_id]

theorem Init_nb_atomic_operations_eq (c : physical_channels) (N : Nat)
    (hN : N = aout_FormatNbChannels c) {K : Type} [LinearOrderedField K] (d : K) :
    Init_nb_atomic_operations N c = 2 * (spec_virtual_speakers c d N).length := by
  rw [length_spec_virtual_speakers, ← hN]
  unfold Init_nb_atomic_operations
  cases c.center <;> simp <;> omega

theorem Init_atomic_operations_length {K : Type} [LinearOrderedField K] [FloorRing K]
    (sqrt : K → K) (dim comp : Int) (N : Nat) (c : physical_channels) (i_rate : Nat)
    (hN : N = aout_FormatNbChannels c) :
    (Init_atomic_operations sqrt dim comp N c i_rate).length
      = Init_nb_atomic_operations N c := by
  rw [Init_atomic_operations_eq sqrt dim comp N c i_rate hN, length_speaker_operations,
    Init_nb_atomic_operations_eq c N hN (dim : K)]

/-- C15. Tap table length: for every channel layout with `N` equal to the number of its
channels, `Init` declares `2 * N` taps, plus 2 if Center is present, that is 2 per
virtual speaker; run on a table of that many slots (followed by any number `extra` of
further slots), the speaker blocks end with the next index equal to the declared count,
every declared slot has been written and no slot past the declared count is written;
the table left in the private data has exactly the declared length. -/
theorem Init_tap_table_length {K : Type} [LinearOrderedField K] [FloorRing K]
    (sqrt : K → K) (dim comp : Int) (N : Nat) (c : physical_channels) (i_rate : Nat)
    (hN : N = aout_FormatNbChannels c) (extra : Nat) :
    Init_nb_atomic_operations N c = 2 * N + (if c.center then 2 else 0) ∧
    Init_nb_atomic_operations N c = 2 * (spec_virtual_speakers c (dim : K) N).length ∧
    (Init_operations sqrt dim comp N c i_rate
      (List.replicate (Init_nb_atomic_operations N c + extra) none)).i_next_atomic_operation
        = Init_nb_atomic_operations N c ∧
    (∀ i, i < Init_nb_atomic_operations N c →
      ∃ op, (Init_operations sqrt dim comp N c i_rate
        (List.replicate (Init_nb_atomic_operations N c + extra) none)).p_atomic_operations[i]?
          = some (some op)) ∧
    (∀ i, Init_nb_atomic_operations N c ≤ i → i < Init_nb_atomic_operations N c + extra →
      (Init_operations sqrt dim comp N c i_rate
        (List.replicate (Init_nb_atomic_operations N c + extra) none)).p_atomic_operations[i]?
          = some none) ∧
    (Init_atomic_operations sqrt dim comp N c i_rate).length
      = Init_nb_atomic_operations N c := by
  have hlen := length_speaker_operations sqrt i_rate (Init_d_min comp c (dim : K))
    (spec_virtual_speakers c (dim : K) N)
  have hnb := Init_nb_atomic_operations_eq c N hN (dim : K)
  rw [Init_free_slots c N hN extra, Init_operations_spec]
  refine ⟨?_, hnb, ?_, ?_, ?_, Init_atomic_operations_length sqrt dim comp N c i_rate hN⟩
  · unfold Init_nb_atomic_operations
    cases c.center <;> simp <;> omega
  · simp only
    rw [hlen, hnb]
  · intro i hi
    simp only
    rw [List.getElem?_append_left (by rw [List.length_map, hlen, ← hnb]; exact hi),
      List.getElem?_map]
    have hi2 : i < ((spec_virtual_speakers c (dim : K) N).flatMap
        (speaker_operations sqrt i_rate (Init_d_min comp c (dim : K)))).length := by
      rw [hlen, ← hnb]; exact hi
    rw [List.getElem?_eq_getElem hi2]
    exact ⟨_, rfl⟩
  · intro i h1 h2
    simp only
    rw [List.getElem?_append_right (by rw [List.length_map, hlen, ← hnb]; exact h1),
      List.getElem?_replicate, if_pos (by rw [List.length_map, hlen, ← hnb]; omega)]

/-- C15 witness: the layout {Left, Right} gives 4 taps. -/
theorem Init_tap_table_length_witness :
    Init_nb_atomic_operations 2 ⟨true, true, false, false, false, false, false, false, false⟩
      = 4 ∧
    (Init_atomic_operations Real.sqrt 10 1 2
      ⟨true, true, false, false, false, false, false, false, false⟩ 44100).length = 4 :=
  ⟨by decide,
   (Init_tap_table_length Real.sqrt 10 1 2
      ⟨true, true, false, false, false, false, false, false, false⟩ 44100 (by decide)
      0).2.2.2.2.2.trans (by decide)⟩

/-- C16 (as stated, refuted). For the layout that contains only Center the table built
by `Init` does not have length 8. -/
theorem Init_center_only_length_not_8 :
    (Init_atomic_operations Real.sqrt 10 1 1
      ⟨false, false, false, false, false, false, false, true, false⟩ 44100).length ≠ 8 := by
  rw [Init_atomic_operations_length Real.sqrt 10 1 1 _ 44100 (by decide)]
  decide

/-- C16 (amended). For the layout that contains only Center, `Init` declares 4 taps and
the table it builds has length 4 (two virtual center speakers x 2 ears), whatever the
head radius, the compensation flag and the sample rate. -/
theorem Init_center_only_length {K : Type} [LinearOrderedField K] [FloorRing K]
    (sqrt : K → K) (dim comp : Int) (i_rate : Nat) :
    Init_nb_atomic_operations 1 ⟨false, false, false, false, false, false, false, true, false⟩
      = 4 ∧
    (Init_atomic_operations sqrt dim comp 1
      ⟨false, false, false, false, false, false, false, true, false⟩ i_rate).length = 4 ∧
    (spec_virtual_speakers ⟨false, false, false, false, false, false, false, true, false⟩
      (dim : K) 1).length = 2 := by
  refine ⟨by decide, ?_, ?_⟩
  · rw [Init_atomic_operations_length sqrt dim comp 1 _ i_rate (by decide)]
    decide
  · rw [length_spec_virtual_speakers]
    decide

theorem map_speaker_operations_gains {K : Type} [LinearOrderedField K] [FloorRing K]
    (sqrt : K → K) (i_rate : Nat) (comp : K) (s : virtual_speaker K) :
    (speaker_operations sqrt i_rate comp s).map
        (fun o => (o.i_dest_channel_offset, o.d_amplitude_factor))
      = [0, 1].zip (spec_panning_gains s.x s.base) := by
  unfold speaker_operations left_ear_operation right_ear_operation spec_panning_gains
  by_cases h1 : s.x < 0
  · simp [h1]
  · by_cases h2 : s.x > 0
    · simp [h1, h2]
    · simp [h1, h2]

/-- C17. Panning gains: for every layout with `N` active channels and every head radius,
the taps of the table built by `Init` are, speaker after speaker in canonical order, a
left-ear tap and a right-ear tap whose gains are those of the spec's panning rule for the
speaker's position `x` and weight `base` (`spec_virtual_speakers`, `spec_panning_gains`).
With head radius 0 the four taps of the layout {Left, Right} all have gain 1/2. -/
theorem Init_panning_gains {K : Type} [LinearOrderedField K] [FloorRing K]
    (sqrt : K → K) (dim comp : Int) (N : Nat) (c : physical_channels) (i_rate : Nat)
    (hN : N = aout_FormatNbChannels c) :
    (Init_atomic_operations sqrt dim comp N c i_rate).map
        (fun o => (o.i_dest_channel_offset, o.d_amplitude_factor))
      = (spec_virtual_speakers c (dim : K) N).flatMap
          (fun s => [0, 1].zip (spec_panning_gains s.x s.base)) ∧
    (Init_atomic_operations sqrt 0 comp 2
        ⟨true, true, false, false, false, false, false, false, false⟩ i_rate).map
        (fun o => o.d_amplitude_factor) = [1 / 2, 1 / 2, 1 / 2, 1 / 2] := by
  constructor
  · rw [Init_atomic_operations_eq sqrt dim comp N c i_rate hN, List.map_flatMap]
    congr 1
    funext s
    exact map_speaker_operations_gains sqrt i_rate _ s
  · rw [Init_atomic_operations_eq sqrt 0 comp 2 _ i_rate (by decide)]
    simp [spec_virtual_speakers, speaker_operations, left_ear_operation,
      right_ear_operation]

/-- C17 witness: the 5.1 layout {Left, Right, RearLeft, RearRight, Center, LFE} with head
radius 10, in exact real arithmetic. -/
theorem Init_panning_gains_witness :
    (Init_atomic_operations Real.sqrt 10 1 6
        ⟨true, true, false, false, true, true, false, true, true⟩ 44100).map
        (fun o => (o.i_dest_channel_offset, o.d_amplitude_factor))
      = (spec_virtual_speakers ⟨true, true, false, false, true, true, false, true, true⟩
          (((10 : Int) : ℝ)) 6).flatMap
          (fun s => [0, 1].zip (spec_panning_gains s.x s.base)) ∧
    (Init_atomic_operations Real.sqrt 0 1 2
        ⟨true, true, false, false, false, false, false, false, false⟩ 44100).map
        (fun o => o.d_amplitude_factor) = [1 / 2, 1 / 2, 1 / 2, 1 / 2] :=
  Init_panning_gains Real.sqrt 10 1 6 ⟨true, true, false, false, true, true, false, true, true⟩
    44100 (by decide)

/-! ### The delays computed by `Init` -/

theorem sqrt_101_bounds :
    (10035 / 10000 : ℝ) < Real.sqrt (101 / 100) ∧ Real.sqrt (101 / 100) < (1011 / 1000 : ℝ) := by
  constructor
  · rw [Real.lt_sqrt (by norm_num)]; norm_num
  · rw [Real.sqrt_lt' (by norm_num)]; norm_num

theorem LFE_delay_value_eq (d_ear_x : ℝ) (h : d_ear_x * d_ear_x = 1 / 100) :
    tap_delay_value Real.sqrt 44100 d_ear_x 0 (-(((3 : Int) : ℝ)) / 3)
        (Init_d_min 1 ⟨true, true, false, false, false, false, false, false, true⟩
          (((3 : Int) : ℝ)))
      = (Real.sqrt (101 / 100) - 29 / 10) * (2205 / 17) := by
  have e : (d_ear_x - 0) * (d_ear_x - 0) + (0 - -(((3 : Int) : ℝ)) / 3) * (0 - -(((3 : Int) : ℝ)) / 3)
      = 101 / 100 := by
    rw [sub_zero, h]; norm_num
  unfold tap_delay_value Init_d_min
  rw [e]
  norm_num
  ring

theorem LFE_delay_stored (d_ear_x : ℝ) (h : d_ear_x * d_ear_x = 1 / 100) :
    tap_delay_value Real.sqrt 44100 d_ear_x 0 (-(((3 : Int) : ℝ)) / 3)
        (Init_d_min 1 ⟨true, true, false, false, false, false, false, false, true⟩
          (((3 : Int) : ℝ))) < 0 ∧
    toUInt32 (truncK (tap_delay_value Real.sqrt 44100 d_ear_x 0 (-(((3 : Int) : ℝ)) / 3)
        (Init_d_min 1 ⟨true, true, false, false, false, false, false, false, true⟩
          (((3 : Int) : ℝ))))) = 4294967051 := by
  obtain ⟨b1, b2⟩ := sqrt_101_bounds
  rw [LFE_delay_value_eq d_ear_x h]
  have hneg : (Real.sqrt (101 / 100) - 29 / 10) * (2205 / 17) < 0 := by nlinarith
  refine ⟨hneg, ?_⟩
  have hc : ⌈(Real.sqrt (101 / 100) - 29 / 10) * (2205 / 17)⌉ = -245 := by
    rw [Int.ceil_eq_iff]
    constructor
    · push_cast; nlinarith
    · push_cast; nlinarith
  unfold truncK
  rw [if_neg (not_le.mpr hneg), hc]
  decide

theorem Init_LFE_table :
    Init_atomic_operations Real.sqrt 3 1 3
        ⟨true, true, false, false, false, false, false, false, true⟩ 44100
      = speaker_operations Real.sqrt 44100
          (Init_d_min 1 ⟨true, true, false, false, false, false, false, false, true⟩
            (((3 : Int) : ℝ)))
          ⟨0, -(((3 : Int) : ℝ)), (((3 : Int) : ℝ)), 2 / ((3 : Nat) : ℚ)⟩
        ++ (speaker_operations Real.sqrt 44100
          (Init_d_min 1 ⟨true, true, false, false, false, false, false, false, true⟩
            (((3 : Int) : ℝ)))
          ⟨1, (((3 : Int) : ℝ)), (((3 : Int) : ℝ)), 2 / ((3 : Nat) : ℚ)⟩
        ++ speaker_operations Real.sqrt 44100
          (Init_d_min 1 ⟨true, true, false, false, false, false, false, false, true⟩
            (((3 : Int) : ℝ)))
          ⟨2, 0, -(((3 : Int) : ℝ)) / 3, 5 / ((3 : Nat) : ℚ)⟩) := by
  rw [Init_atomic_operations_eq Real.sqrt 3 1 3 _ 44100 (by decide)]
  rfl

/-- C18 (refuted by the code). Layout {Left, Right, LFE}, head radius 3, sample rate 44100,
compensation enabled: the taps of the LFE speaker are the entries 4 and 5 of the table
built by `Init`; the value that `ComputeChannelOperations` computes for them (geometric
delay minus compensation delay, in exact real arithmetic) is negative, and the delay it
stores in the `unsigned int` field is 4294967051. -/
theorem Init_LFE_delay_negative :
    (Init_atomic_operations Real.sqrt 3 1 3
        ⟨true, true, false, false, false, false, false, false, true⟩ 44100)[4]?
      = some (left_ear_operation Real.sqrt 44100 2 0 (-(((3 : Int) : ℝ)) / 3)
          (Init_d_min 1 ⟨true, true, false, false, false, false, false, false, true⟩
            (((3 : Int) : ℝ))) (5 / ((3 : Nat) : ℚ))) ∧
    tap_delay_value Real.sqrt 44100 (-(1 / 10)) 0 (-(((3 : Int) : ℝ)) / 3)
        (Init_d_min 1 ⟨true, true, false, false, false, false, false, false, true⟩
          (((3 : Int) : ℝ))) < 0 ∧
    (left_ear_operation Real.sqrt 44100 2 0 (-(((3 : Int) : ℝ)) / 3)
          (Init_d_min 1 ⟨true, true, false, false, false, false, false, false, true⟩
            (((3 : Int) : ℝ))) (5 / ((3 : Nat) : ℚ))).i_delay = 4294967051 := by
  refine ⟨?_, (LFE_delay_stored (-(1 / 10)) (by norm_num)).1,
    (LFE_delay_stored (-(1 / 10)) (by norm_num)).2⟩
  rw [Init_LFE_table]
  rfl

theorem tap_delay_value_without_compensation (i_rate : Nat) (d_ear_x d_x d_z : ℝ) :
    tap_delay_value Real.sqrt i_rate d_ear_x d_x d_z 0
      = (Real.sqrt ((d_ear_x - d_x) ^ 2 + (0 - d_z) ^ 2) + 1 / 10) / 340 * (i_rate : ℝ) ∧
    truncK (tap_delay_value Real.sqrt i_rate d_ear_x d_x d_z 0)
      = ⌊(Real.sqrt ((d_ear_x - d_x) ^ 2 + (0 - d_z) ^ 2) + 1 / 10) / 340 * (i_rate : ℝ)⌋ := by
  have e : tap_delay_value Real.sqrt i_rate d_ear_x d_x d_z 0
      = (Real.sqrt ((d_ear_x - d_x) ^ 2 + (0 - d_z) ^ 2) + 1 / 10) / 340 * (i_rate : ℝ) := by
    unfold tap_delay_value
    rw [sq, sq]
    ring
  refine ⟨e, ?_⟩
  have h0 : (0 : ℝ) ≤ (Real.sqrt ((d_ear_x - d_x) ^ 2 + (0 - d_z) ^ 2) + 1 / 10) / 340
      * (i_rate : ℝ) := by
    have := Real.sqrt_nonneg ((d_ear_x - d_x) ^ 2 + (0 - d_z) ^ 2)
    positivity
  unfold truncK
  rw [e, if_pos h0]

/-! ### The delay computed in `double` -/

theorem tap_delay_value_double_id {K : Type} [LinearOrderedField K] (sqrt : K → K)
    (i_rate : Nat) (d_x d_z d_compensation_length : K) :
    tap_delay_value_double (fun y => y) sqrt i_rate (-1) d_x d_z d_compensation_length
      = tap_delay_value sqrt i_rate (-(1 / 10)) d_x d_z d_compensation_length ∧
    tap_delay_value_double (fun y => y) sqrt i_rate 1 d_x d_z d_compensation_length
      = tap_delay_value sqrt i_rate (1 / 10) d_x d_z d_compensation_length := by
  unfold tap_delay_value_double tap_delay_value
  constructor
  · rw [neg_one_mul]
  · rw [one_mul]

theorem tap_delay_value_dim3 (d_ear_x d_x d_z A : ℝ)
    (h : (d_ear_x - d_x) * (d_ear_x - d_x) + (0 - d_z) * (0 - d_z) = A) :
    tap_delay_value Real.sqrt 44100 d_ear_x d_x d_z
        (Init_d_min 1 ⟨true, true, false, false, false, false, false, false, true⟩
          (((3 : Int) : ℝ)))
      = (Real.sqrt A - 29 / 10) * (2205 / 17) := by
  unfold tap_delay_value Init_d_min
  rw [h]
  norm_num
  ring

theorem truncK_of_bounds (v : ℝ) (n : Int) (h0 : 0 ≤ n) (h1 : (n : ℝ) ≤ v)
    (h2 : v < (n : ℝ) + 1) : truncK v = n := by
  have hv : (0 : ℝ) ≤ v := le_trans (by exact_mod_cast h0) h1
  unfold truncK
  rw [if_pos hv, Int.floor_eq_iff]
  exact ⟨h1, h2⟩

theorem near_delay_dim3 (d_ear_x d_x d_z : ℝ)
    (h : (d_ear_x - d_x) * (d_ear_x - d_x) + (0 - d_z) * (0 - d_z) = 1741 / 100) :
    toUInt32 (truncK (tap_delay_value Real.sqrt 44100 d_ear_x d_x d_z
        (Init_d_min 1 ⟨true, true, false, false, false, false, false, false, true⟩
          (((3 : Int) : ℝ))))) = 165 := by
  have b1 : (41722 / 10000 : ℝ) < Real.sqrt (1741 / 100) := by
    rw [Real.lt_sqrt (by norm_num)]; norm_num
  have b2 : Real.sqrt (1741 / 100) < (41795 / 10000 : ℝ) := by
    rw [Real.sqrt_lt' (by norm_num)]; norm_num
  rw [tap_delay_value_dim3 _ _ _ _ h,
    truncK_of_bounds _ 165 (by decide) (by push_cast; nlinarith) (by push_cast; nlinarith)]
  decide

theorem far_delay_dim3 (d_ear_x d_x d_z : ℝ)
    (h : (d_ear_x - d_x) * (d_ear_x - d_x) + (0 - d_z) * (0 - d_z) = 1861 / 100) :
    toUInt32 (truncK (tap_delay_value Real.sqrt 44100 d_ear_x d_x d_z
        (Init_d_min 1 ⟨true, true, false, false, false, false, false, false, true⟩
          (((3 : Int) : ℝ))))) = 183 := by
  have b1 : (4311 / 1000 : ℝ) < Real.sqrt (1861 / 100) := by
    rw [Real.lt_sqrt (by norm_num)]; norm_num
  have b2 : Real.sqrt (1861 / 100) < (4318 / 1000 : ℝ) := by
    rw [Real.sqrt_lt' (by norm_num)]; norm_num
  rw [tap_delay_value_dim3 _ _ _ _ h,
    truncK_of_bounds _ 183 (by decide) (by push_cast; nlinarith) (by push_cast; nlinarith)]
  decide

theorem Init_LFE_table_values :
    Init_atomic_operations Real.sqrt 3 1 3
        ⟨true, true, false, false, false, false, false, false, true⟩ 44100
      = [⟨0, 0, 165, 11 / 30⟩, ⟨0, 1, 183, 3 / 10⟩, ⟨1, 0, 183, 3 / 10⟩, ⟨1, 1, 165, 11 / 30⟩,
         ⟨2, 0, 4294967051, 5 / 6⟩, ⟨2, 1, 4294967051, 5 / 6⟩] := by
  rw [Init_LFE_table]
  simp only [speaker_operations, left_ear_operation, right_ear_operation, List.cons_append,
    List.nil_append]
  rw [near_delay_dim3 (-(1 / 10)) (-(((3 : Int) : ℝ))) (((3 : Int) : ℝ)) (by norm_num),
    far_delay_dim3 (1 / 10) (-(((3 : Int) : ℝ))) (((3 : Int) : ℝ)) (by norm_num),
    far_delay_dim3 (-(1 / 10)) (((3 : Int) : ℝ)) (((3 : Int) : ℝ)) (by norm_num),
    near_delay_dim3 (1 / 10) (((3 : Int) : ℝ)) (((3 : Int) : ℝ)) (by norm_num),
    (LFE_delay_stored (-(1 / 10)) (by norm_num)).2,
    (LFE_delay_stored (1 / 10) (by norm_num)).2]
  norm_num

/-! ### The overflow buffer size after `Init` -/

theorem foldl_max_delay_ge (ops : List atomic_operation_t) :
    ∀ m : Nat, m ≤ ops.foldl (fun m op => max m op.i_delay) m ∧
      ∀ op ∈ ops, op.i_delay ≤ ops.foldl (fun m op => max m op.i_delay) m := by
  induction ops with
  | nil => exact fun m => ⟨le_refl m, fun op h => absurd h (List.not_mem_nil op)⟩
  | cons a l ih =>
    intro m
    simp only [List.foldl_cons, List.mem_cons]
    obtain ⟨h1, h2⟩ := ih (max m a.i_delay)
    refine ⟨le_trans (le_max_left _ _) h1, fun op hop => ?_⟩
    rcases hop with rfl | hop
    · exact le_trans (le_max_right _ _) h1
    · exact h2 op hop

theorem Init_overflow_buffer_size_eq_u32 (ops : List atomic_operation_t)
    (h : ∀ op ∈ ops, op.i_delay < 2147483648) (k : Nat) :
    Init_overflow_buffer_size_u32 k ops = Init_overflow_buffer_size k ops := by
  induction k with
  | zero => rfl
  | succ k ih =>
    unfold Init_overflow_buffer_size_u32 Init_overflow_buffer_size at ih ⊢
    simp only [forLoop]
    rw [ih]
    cases hk : ops[k]? with
    | none => rfl
    | some o =>
      have := h o (List.getElem?_mem hk)
      have e : o.i_delay * 2 % 4294967296 = o.i_delay * 2 := Nat.mod_eq_of_lt (by omega)
      simp only [e]

theorem Init_overflow_buffer_size_eq_max_delay (ops : List atomic_operation_t) (k : Nat) :
    Init_overflow_buffer_size k ops = 2 * max_delay (ops.take k) * 2 := by
  induction k with
  | zero => rfl
  | succ k ih =>
    unfold Init_overflow_buffer_size at ih ⊢
    simp only [forLoop]
    rw [ih, List.take_succ]
    unfold max_delay
    rw [List.foldl_append]
    cases hk : ops[k]? with
    | none => simp
    | some o =>
      simp only [Option.toList_some, List.foldl_cons, List.foldl_nil]
      split_ifs with hlt
      · rw [max_eq_right (by omega)]; omega
      · rw [max_eq_left (by omega)]

/-- After a successful `Init` whose delays are all below `2^31`, the overflow buffer size
is `2 * (maximum delay) * 2` bytes and the buffer holds that many zero bytes. -/
theorem Init_overflow_buffer_size_of_small_delays {K : Type} [LinearOrderedField K]
    [FloorRing K] (sqrt : K → K) (dim comp : Int) (data : filter_sys_t) (N : Nat)
    (c : physical_channels) (i_rate : Nat) (hN : N = aout_FormatNbChannels c)
    (h : ∀ op ∈ Init_atomic_operations sqrt dim comp N c i_rate, op.i_delay < 2147483648) :
    ∃ sys, Init sqrt dim comp true true (some data) N c i_rate
        = Init_outcome.ret 0 (some sys) ∧
      sys.p_atomic_operations = Init_atomic_operations sqrt dim comp N c i_rate ∧
      sys.i_overflow_buffer_size = 2 * max_delay sys.p_atomic_operations * 2 ∧
      sys.p_overflow_buffer = List.replicate (sys.i_overflow_buffer_size / 2) 0 := by
  refine ⟨_, rfl, rfl, ?_, rfl⟩
  simp only
  rw [Init_overflow_buffer_size_eq_u32 _ h, Init_overflow_buffer_size_eq_max_delay,
    ← Init_atomic_operations_length sqrt dim comp N c i_rate hN, List.take_length]

/-- A call of `stereo2mono_downmix` leaves the overflow buffer size, the number of
operations and the table of operations of the private data as they were. -/
theorem stereo2mono_downmix_keeps_table (sys sys1 : filter_sys_t) (N M : Nat)
    (p_in_buf p_out_buf out : aout_buffer_t)
    (h : stereo2mono_downmix (some sys) N M p_in_buf p_out_buf = some (some sys1, out)) :
    sys1.i_overflow_buffer_size = sys.i_overflow_buffer_size ∧
    sys1.i_nb_atomic_operations = sys.i_nb_atomic_operations ∧
    sys1.p_atomic_operations = sys.p_atomic_operations := by
  unfold stereo2mono_downmix at h
  simp only at h
  split at h
  · cases h
  · simp only [Option.some.injEq, Prod.mk.injEq] at h
    obtain ⟨h1, _⟩ := h
    subst h1
    exact ⟨rfl, rfl, rfl⟩

/-- C20 (refuted by the code). Layout {Left, Right, LFE}, head radius 3, sample rate
44100, compensation enabled, both allocations succeeding: `Init` returns 0 with the table
of delays 165, 183, 183, 165, 4294967051, 4294967051; the overflow buffer size it sets is
8589933612 bytes, because `i_delay * 2` is an `unsigned int` product, whereas
`2 * (maximum delay) * 2` is 17179868204. -/
theorem Init_overflow_buffer_size_wraps (data : filter_sys_t) :
    ∃ sys, Init Real.sqrt 3 1 true true (some data) 3
        ⟨true, true, false, false, false, false, false, false, true⟩ 44100
        = Init_outcome.ret 0 (some sys) ∧
      sys.p_atomic_operations.map (fun o => o.i_delay)
        = [165, 183, 183, 165, 4294967051, 4294967051] ∧
      max_delay sys.p_atomic_operations = 4294967051 ∧
      sys.i_overflow_buffer_size = 8589933612 ∧
      sys.i_overflow_buffer_size ≠ 2 * max_delay sys.p_atomic_operations * 2 := by
  refine ⟨_, rfl, ?_⟩
  simp only [Init_LFE_table_values]
  refine ⟨by decide, by decide, by decide, by decide⟩

/-- C11 (refuted by the code). Pseudo-mono mode, stereo input, a block of 3 frames: the
block that `Convert` returns has `i_samples = (3 / 2) * 2 = 2`, not the 3 frames of the
input (its buffer holds the 3 averaged frames and `i_buffer` is 12 bytes). -/
theorem Convert_pseudo_mono_frame_count :
    (Convert ⟨2, 2, Init_sys false 2 (-1) 16 []⟩
        (some ⟨[1, 2, 3, 4, 5, 6], 12, 3, 0, 0, 0⟩) true).map (fun r => r.2)
      = some (some ⟨[1, 1, 3, 3, 5, 5], 12, 2, 0, 0, 0⟩) := by
  decide

/-- C13 (refuted by the code). Pseudo-mono mode, 4 input channels, a block of 1 frame:
the output buffer sized by `Convert` holds `1 * 16 / 8 * 2` bytes, that is 2 samples and
not `1 * 4`, while `stereo_to_mono` walks the 4 flat samples and stores into the output
slots 1, 0, 3 and 2: the slots 2 and 3 lie outside the output block. -/
theorem stereo_to_mono_writes_outside_output :
    (Convert ⟨4, 2, Init_sys false 4 (-1) 16 []⟩ (some ⟨[1, 2, 3, 4], 8, 1, 0, 0, 0⟩)
        true).map (fun r => r.2) = some (some ⟨[1, 1], 4, 0, 0, 0, 0⟩) ∧
    stereo_to_mono_accesses 4 (-1) (1 * 4) (1 * 4 + 1) 0
      = some [⟨Buf.input, false, 0⟩, ⟨Buf.input, false, 1⟩, ⟨Buf.output, true, 1⟩,
          ⟨Buf.output, true, 0⟩, ⟨Buf.input, false, 2⟩, ⟨Buf.input, false, 3⟩,
          ⟨Buf.output, true, 3⟩, ⟨Buf.output, true, 2⟩] ∧
    ¬ access_in_bounds [1, 2, 3, 4] [1, 1] [] ⟨Buf.output, true, 3⟩ := by
  refine ⟨by decide, by decide, by simp [access_in_bounds]⟩

/-- C14 (refuted by the code). A block of 1 frame of 3 channels holds 3 samples (indices
0, 1, 2): `stereo_to_mono` in average mode and `mono` both read the input index 3 in
their second iteration (`p_in[n+1]` with `n = 2`). -/
theorem averaging_loops_read_past_input :
    stereo_to_mono_accesses 3 (-1) (1 * 3) (1 * 3 + 1) 0
      = some [⟨Buf.input, false, 0⟩, ⟨Buf.input, false, 1⟩, ⟨Buf.output, true, 1⟩,
          ⟨Buf.output, true, 0⟩, ⟨Buf.input, false, 2⟩, ⟨Buf.input, false, 3⟩,
          ⟨Buf.output, true, 3⟩, ⟨Buf.output, true, 2⟩] ∧
    mono_accesses (1 * 3) (1 * 3 + 1) 0 0
      = some [⟨Buf.input, false, 0⟩, ⟨Buf.input, false, 1⟩, ⟨Buf.output, true, 0⟩,
          ⟨Buf.input, false, 2⟩, ⟨Buf.input, false, 3⟩, ⟨Buf.output, true, 1⟩] ∧
    ¬ access_in_bounds [1, 2, 3] [0, 0] [] ⟨Buf.input, false, 3⟩ := by
  refine ⟨by decide, by decide, by simp [access_in_bounds]⟩

/-! ### The output format of the downmix path -/

theorem Init_keeps_mode {K : Type} [LinearOrderedField K] [FloorRing K] (sqrt : K → K)
    (dim comp : Int) (a b : Bool) (data sys : filter_sys_t) (N : Nat) (c : physical_channels)
    (i_rate : Nat) (code : Int)
    (h : Init sqrt dim comp a b (some data) N c i_rate = Init_outcome.ret code (some sys)) :
    sys.b_downmix = data.b_downmix ∧ sys.i_nb_channels = data.i_nb_channels ∧
    sys.i_channel_selected = data.i_channel_selected ∧
    sys.i_bitspersample = data.i_bitspersample := by
  unfold Init at h
  simp only at h
  split_ifs at h
  all_goals
    simp only [Init_outcome.ret.injEq, Option.some.injEq] at h
    obtain ⟨_, h2⟩ := h
    subst h2
    exact ⟨rfl, rfl, rfl, rfl⟩

theorem OpenFilter_success {K : Type} [LinearOrderedField K] [FloorRing K] (sqrt : K → K)
    (S16 : Nat) (dim comp : Int) (downmix : Bool) (channel : Int) (a b c : Bool)
    (fmt_in fmt_out fmt : es_format_t) (p : filter_t)
    (h : OpenFilter sqrt S16 dim comp downmix channel a b c fmt_in fmt_out
      = OpenFilter_outcome.success fmt p) :
    p.fmt_out_nb_channels = aout_FormatNbChannels (OpenFilter_out_channels downmix) ∧
    p.fmt_in_nb_channels = aout_FormatNbChannels fmt_in.audio.i_physical_channels ∧
    p.p_sys.b_downmix = downmix ∧
    p.p_sys.i_nb_channels = aout_FormatNbChannels fmt_in.audio.i_physical_channels ∧
    fmt.audio.i_physical_channels = OpenFilter_out_channels downmix := by
  unfold OpenFilter at h
  split_ifs at h
  all_goals
    split at h
    · cases h
    · cases h
    · rename_i code sys hinit
      split_ifs at h
      simp only [OpenFilter_outcome.success.injEq] at h
      obtain ⟨h1, h2⟩ := h
      subst h1 h2
      obtain ⟨k1, k2, _, _⟩ := Init_keeps_mode sqrt dim comp b c _ sys _ _ _ code hinit
      exact ⟨rfl, rfl, k1, k2, rfl⟩

theorem mem_apply_atomic_operation_accesses_output (N M frames : Nat) (op : atomic_operation_t)
    (a : Access) :
    (a ∈ apply_atomic_operation_accesses N M frames op ∧ a.buf = Buf.output) ↔
      ∃ j, j < frames - op.i_delay ∧ a.buf = Buf.output ∧
        a.index = (op.i_delay + j) * M + op.i_dest_channel_offset := by
  unfold apply_atomic_operation_accesses addTo_accesses
  constructor
  · rintro ⟨ha, hb⟩
    split_ifs at ha with hd
    · simp only [List.mem_append, List.mem_flatMap, List.mem_range, List.mem_cons,
        List.mem_singleton, List.not_mem_nil, or_false] at ha
      rcases ha with ⟨j, hj, rfl | rfl | rfl⟩ | ⟨j, hj, rfl | rfl | rfl⟩
      · exact ⟨j, hj, rfl, rfl⟩
      · cases hb
      · exact ⟨j, hj, rfl, rfl⟩
      · cases hb
      · cases hb
      · cases hb
    · simp only [List.mem_flatMap, List.mem_range, List.mem_cons,
        List.mem_singleton, List.not_mem_nil, or_false] at ha
      rcases ha with ⟨j, hj, rfl | rfl | rfl⟩ <;> cases hb
  · rintro ⟨j, hj, hb, hi⟩
    have hd : frames > op.i_delay := by omega
    rw [if_pos hd]
    refine ⟨?_, hb⟩
    simp only [List.mem_append, List.mem_flatMap, List.mem_range, List.mem_cons,
      List.mem_singleton, List.not_mem_nil, or_false]
    left
    refine ⟨j, hj, ?_⟩
    obtain ⟨buf, w, idx⟩ := a
    simp only at hb hi
    subst hb hi
    cases w
    · left; rfl
    · right; right; rfl

/-- C12 (refuted by the code). In downmix mode `OpenFilter` sets the output layout to the
single channel Center, so `stereo2mono_downmix` runs with one output channel while the
tap table still addresses the ears 0 and 1. On a block of 2 stereo frames, for which
`Convert` allocates `2 * 16 / 8 * 1` bytes, that is 2 samples: the output byte size is set
to 4 (not `2 * 2 * 2 = 8`); the tap for ear 0 with delay 0 accumulates into the output
indices 0 and 1 (not 0 and 2); the tap for ear 1 accumulates into the indices 1 and 2, so
frame 0 of ear 1 is added to frame 1 of ear 0 and frame 1 of ear 1 goes to index 2, one
past the block. Run on a memory of 3 samples from the output pointer, the call adds the
ear-1 contribution `40 / 2` to the sample that follows the block. -/
theorem stereo2mono_downmix_mono_output_overrun :
    aout_FormatNbChannels (OpenFilter_out_channels true) = 1 ∧
    List.replicate (2 * 16 / 8 * aout_FormatNbChannels (OpenFilter_out_channels true) / 2)
      (0 : Int) = [0, 0] ∧
    (stereo2mono_downmix
        (some (Init_sys true 2 (-1) 16 [⟨0, 0, 0, 1 / 2⟩, ⟨1, 1, 0, 1 / 2⟩])) 2
        (aout_FormatNbChannels (OpenFilter_out_channels true))
        ⟨[10, 20, 30, 40], 2, 8⟩ ⟨[0, 0], 1, 4⟩).map (fun r => r.2)
      = some ⟨[5, 25], 2, 4⟩ ∧
    apply_atomic_operation_accesses 2 (aout_FormatNbChannels (OpenFilter_out_channels true)) 2
        ⟨0, 0, 0, 1 / 2⟩
      = [⟨Buf.output, false, 0⟩, ⟨Buf.input, false, 0⟩, ⟨Buf.output, true, 0⟩,
         ⟨Buf.output, false, 1⟩, ⟨Buf.input, false, 2⟩, ⟨Buf.output, true, 1⟩] ∧
    apply_atomic_operation_accesses 2 (aout_FormatNbChannels (OpenFilter_out_channels true)) 2
        ⟨1, 1, 0, 1 / 2⟩
      = [⟨Buf.output, false, 1⟩, ⟨Buf.input, false, 1⟩, ⟨Buf.output, true, 1⟩,
         ⟨Buf.output, false, 2⟩, ⟨Buf.input, false, 3⟩, ⟨Buf.output, true, 2⟩] ∧
    ¬ access_in_bounds [10, 20, 30, 40] [0, 0] [] ⟨Buf.output, true, 2⟩ ∧
    (stereo2mono_downmix
        (some (Init_sys true 2 (-1) 16 [⟨0, 0, 0, 1 / 2⟩, ⟨1, 1, 0, 1 / 2⟩])) 2
        (aout_FormatNbChannels (OpenFilter_out_channels true))
        ⟨[10, 20, 30, 40], 2, 8⟩ ⟨[0, 0, 1000], 1, 4⟩).map (fun r => r.2)
      = some ⟨[5, 25, 1020], 2, 4⟩ := by
  refine ⟨by decide, by decide, by decide!, by decide!, by decide!,
    by simp [access_in_bounds], by decide!⟩

/-! ### The gain directed at one ear -/

theorem ear_gain_append (l1 l2 : List atomic_operation_t) (ear : Nat) :
    ear_gain (l1 ++ l2) ear = ear_gain l1 ear + ear_gain l2 ear := by
  unfold ear_gain
  rw [List.filter_append, List.map_append, List.sum_append]

theorem ear_gain_speaker_operations_le {K : Type} [LinearOrderedField K] [FloorRing K]
    (sqrt : K → K) (i_rate : Nat) (comp : K) (s : virtual_speaker K) (hb : 0 ≤ s.base)
    (ear : Nat) :
    ear_gain (speaker_operations sqrt i_rate comp s) ear ≤ s.base * (11 / 20) := by
  unfold ear_gain speaker_operations left_ear_operation right_ear_operation
  by_cases h0 : ear = 0
  · subst h0
    simp only [List.filter, decide_True, decide_False, Nat.one_ne_zero, List.map_cons,
      List.map_nil, List.sum_cons, List.sum_nil, add_zero]
    split_ifs <;> linarith
  · by_cases h1 : ear = 1
    · subst h1
      simp only [List.filter, decide_True, decide_False, Nat.zero_ne_one, List.map_cons,
        List.map_nil, List.sum_cons, List.sum_nil, add_zero]
      split_ifs <;> linarith
    · have e0 : ¬ (0 = ear) := fun h => h0 h.symm
      have e1 : ¬ (1 = ear) := fun h => h1 h.symm
      simp only [List.filter, e0, e1, decide_False, List.map_nil, List.sum_nil]
      linarith

theorem ear_gain_flatMap_le {K : Type} [LinearOrderedField K] [FloorRing K]
    (sqrt : K → K) (i_rate : Nat) (comp : K) (ear : Nat) :
    ∀ (l : List (virtual_speaker K)), (∀ s ∈ l, 0 ≤ s.base) →
      ear_gain (l.flatMap (speaker_operations sqrt i_rate comp)) ear
        ≤ (l.map (fun s => s.base)).sum * (11 / 20) := by
  intro l
  induction l with
  | nil => intro _; simp [ear_gain]
  | cons s l ih =>
    intro h
    rw [List.flatMap_cons, ear_gain_append, List.map_cons, List.sum_cons, add_mul]
    exact add_le_add
      (ear_gain_speaker_operations_le sqrt i_rate comp s (h s (List.mem_cons_self _ _)) ear)
      (ih (fun t ht => h t (List.mem_cons_of_mem _ ht)))

theorem spec_virtual_speakers_base_sum {K : Type} [LinearOrderedField K]
    (c : physical_channels) (d : K) (N : Nat) :
    ((spec_virtual_speakers c d N).map (fun s => s.base)).sum
      = (2 * (c.left.toNat : ℚ) + 2 * (c.right.toNat : ℚ)
          + 3 / 2 * ((c.middleleft.toNat : ℚ) + (c.middleright.toNat : ℚ)
              + (c.rearleft.toNat : ℚ) + (c.rearright.toNat : ℚ) + (c.rearcenter.toNat : ℚ)
              + (c.center.toNat : ℚ))
          + 5 * (c.lfe.toNat : ℚ)) / (N : ℚ) := by
  have h1 : ∀ (b : Bool) (s : virtual_speaker K),
      ((if b = true then [s] else []).map (fun s => s.base)).sum
        = (b.toNat : ℚ) * s.base := by
    intro b s; cases b <;> simp
  have h2 : ∀ (b : Bool) (s t : virtual_speaker K),
      ((if b = true then [s, t] else []).map (fun s => s.base)).sum
        = (b.toNat : ℚ) * (s.base + t.base) := by
    intro b s t; cases b <;> simp
  unfold spec_virtual_speakers
  simp only [List.map_append, List.sum_append, h1, h2]
  ring

theorem spec_virtual_speakers_base_nonneg {K : Type} [LinearOrderedField K]
    (c : physical_channels) (d : K) (N : Nat) :
    ∀ s ∈ spec_virtual_speakers c d N, 0 ≤ s.base := by
  intro s hs
  have hN : (0 : ℚ) ≤ (N : ℚ) := Nat.cast_nonneg N
  unfold spec_virtual_speakers at hs
  simp only [List.mem_append] at hs
  rcases hs with (((((((hs | hs) | hs) | hs) | hs) | hs) | hs) | hs) | hs
  all_goals
    split_ifs at hs
    · simp only [List.mem_cons, List.mem_singleton, List.not_mem_nil, or_false] at hs
      rcases hs with rfl | rfl <;> positivity
    · cases hs

/-- C21. Bounded ear gain: for every layout with `N >= 2` active channels (`N` the number
of channels of the layout), every head radius and every setting of the compensation, the
sum of the gains of all taps of the table built by `Init` that are directed at the left
ear is strictly less than 2, and so is the sum for the right ear. -/
theorem Init_ear_gain_lt_two {K : Type} [LinearOrderedField K] [FloorRing K]
    (sqrt : K → K) (dim comp : Int) (N : Nat) (c : physical_channels) (i_rate : Nat)
    (hN : N = aout_FormatNbChannels c) (h2 : 2 ≤ N) :
    ear_gain (Init_atomic_operations sqrt dim comp N c i_rate) 0 < 2 ∧
    ear_gain (Init_atomic_operations sqrt dim comp N c i_rate) 1 < 2 := by
  have hb : ∀ b : Bool, (0 : ℚ) ≤ (b.toNat : ℚ) ∧ (b.toNat : ℚ) ≤ 1 := by
    intro b; cases b <;> simp
  have hNq : (N : ℚ) = (c.left.toNat : ℚ) + (c.right.toNat : ℚ) + (c.middleleft.toNat : ℚ)
      + (c.middleright.toNat : ℚ) + (c.rearleft.toNat : ℚ) + (c.rearright.toNat : ℚ)
      + (c.rearcenter.toNat : ℚ) + (c.center.toNat : ℚ) + (c.lfe.toNat : ℚ) := by
    rw [hN]
    unfold aout_FormatNbChannels
    push_cast
    ring
  have h2q : (2 : ℚ) ≤ (N : ℚ) := by exact_mod_cast h2
  have hpos : (0 : ℚ) < (N : ℚ) := by linarith
  have key : (2 * (c.left.toNat : ℚ) + 2 * (c.right.toNat : ℚ)
          + 3 / 2 * ((c.middleleft.toNat : ℚ) + (c.middleright.toNat : ℚ)
              + (c.rearleft.toNat : ℚ) + (c.rearright.toNat : ℚ) + (c.rearcenter.toNat : ℚ)
              + (c.center.toNat : ℚ))
          + 5 * (c.lfe.toNat : ℚ)) / (N : ℚ) * (11 / 20) < 2 := by
    rw [div_mul_eq_mul_div, div_lt_iff₀ hpos]
    have := hb c.left; have := hb c.right; have := hb c.middleleft
    have := hb c.middleright; have := hb c.rearleft; have := hb c.rearright
    have := hb c.rearcenter; have := hb c.center; have := hb c.lfe
    linarith
  have bound : ∀ ear, ear_gain (Init_atomic_operations sqrt dim comp N c i_rate) ear < 2 := by
    intro ear
    rw [Init_atomic_operations_eq sqrt dim comp N c i_rate hN]
    refine lt_of_le_of_lt (ear_gain_flatMap_le sqrt i_rate _ ear _
      (spec_virtual_speakers_base_nonneg c _ N)) ?_
    rw [spec_virtual_speakers_base_sum]
    exact key
  exact ⟨bound 0, bound 1⟩

/-- C21 witness: the layout {Left, LFE} with head radius 10. -/
theorem Init_ear_gain_lt_two_witness :
    ear_gain (Init_atomic_operations Real.sqrt 10 0 2
      ⟨true, false, false, false, false, false, false, false, true⟩ 44100) 0 < 2 ∧
    ear_gain (Init_atomic_operations Real.sqrt 10 0 2
      ⟨true, false, false, false, false, false, false, false, true⟩ 44100) 1 < 2 :=
  Init_ear_gain_lt_two Real.sqrt 10 0 2
    ⟨true, false, false, false, false, false, false, false, true⟩ 44100 (by decide)
    (by decide)

/-! ### Allocation failure in `Init` -/

theorem stereo_delay_dim10 (d_ear_x d_x d_z A lo hi : ℝ) (n : Int)
    (h : (d_ear_x - d_x) ^ 2 + (0 - d_z) ^ 2 = A) (hlo0 : 0 ≤ lo) (hhi0 : 0 < hi)
    (hlo : lo ^ 2 < A) (hhi : A < hi ^ 2)
    (h1 : (n : ℝ) ≤ (lo + 1 / 10) / 340 * 44100)
    (h2 : (hi + 1 / 10) / 340 * 44100 ≤ (n : ℝ) + 1) :
    truncK (tap_delay_value Real.sqrt 44100 d_ear_x d_x d_z 0) = n := by
  have b1 : lo < Real.sqrt A := by rw [Real.lt_sqrt hlo0]; exact hlo
  have b2 : Real.sqrt A < hi := by rw [Real.sqrt_lt' hhi0]; exact hhi
  rw [(tap_delay_value_without_compensation 44100 _ _ _).2, h, Int.floor_eq_iff]
  push_cast
  constructor
  · linarith
  · linarith

theorem Init_stereo_table_values :
    Init_atomic_operations Real.sqrt 10 0 2
        ⟨true, true, false, false, false, false, false, false, false⟩ 44100
      = [⟨0, 0, 1838, 11 / 20⟩, ⟨0, 1, 1856, 9 / 20⟩, ⟨1, 0, 1856, 9 / 20⟩,
         ⟨1, 1, 1838, 11 / 20⟩] := by
  rw [Init_atomic_operations_eq Real.sqrt 10 0 2 _ 44100 (by decide)]
  have e : (spec_virtual_speakers
      ⟨true, true, false, false, false, false, false, false, false⟩ (((10 : Int) : ℝ))
        2).flatMap (speaker_operations Real.sqrt 44100
          (Init_d_min 0 ⟨true, true, false, false, false, false, false, false, false⟩
            (((10 : Int) : ℝ))))
      = speaker_operations Real.sqrt 44100 0
          ⟨0, -(((10 : Int) : ℝ)), (((10 : Int) : ℝ)), 2 / ((2 : Nat) : ℚ)⟩
        ++ speaker_operations Real.sqrt 44100 0
          ⟨1, (((10 : Int) : ℝ)), (((10 : Int) : ℝ)), 2 / ((2 : Nat) : ℚ)⟩ := rfl
  rw [e]
  simp only [speaker_operations, left_ear_operation, right_ear_operation, List.cons_append,
    List.nil_append]
  rw [stereo_delay_dim10 (-(1 / 10)) (-(((10 : Int) : ℝ))) (((10 : Int) : ℝ)) (19801 / 100)
      (14071 / 1000) (14078 / 1000) 1838 (by norm_num) (by norm_num) (by norm_num)
      (by norm_num) (by norm_num) (by norm_num) (by norm_num),
    stereo_delay_dim10 (1 / 10) (-(((10 : Int) : ℝ))) (((10 : Int) : ℝ)) (20201 / 100)
      (1421 / 100) (14217 / 1000) 1856 (by norm_num) (by norm_num) (by norm_num)
      (by norm_num) (by norm_num) (by norm_num) (by norm_num),
    stereo_delay_dim10 (-(1 / 10)) (((10 : Int) : ℝ)) (((10 : Int) : ℝ)) (20201 / 100)
      (1421 / 100) (14217 / 1000) 1856 (by norm_num) (by norm_num) (by norm_num)
      (by norm_num) (by norm_num) (by norm_num) (by norm_num),
    stereo_delay_dim10 (1 / 10) (((10 : Int) : ℝ)) (((10 : Int) : ℝ)) (19801 / 100)
      (14071 / 1000) (14078 / 1000) 1838 (by norm_num) (by norm_num) (by norm_num)
      (by norm_num) (by norm_num) (by norm_num) (by norm_num)]
  have t1 : toUInt32 1838 = 1838 := by decide
  have t2 : toUInt32 1856 = 1856 := by decide
  rw [t1, t2]
  norm_num

/-- C22 (refuted by the code). Stereo layout, head radius 10, 44100 Hz, the table
allocated and the allocation of the overflow buffer failing: `Init` does not return; it
reaches `memset( p_data->p_overflow_buffer, 0, 7424 )` with a NULL overflow buffer,
because the check after the second `malloc` tests `p_atomic_operations` again. When the
table cannot be allocated `Init` returns -1. -/
theorem Init_overflow_allocation_failure (data : filter_sys_t) :
    Init Real.sqrt 10 0 true false (some data) 2
        ⟨true, true, false, false, false, false, false, false, false⟩ 44100
      = Init_outcome.memset_null
          { data with
            i_nb_atomic_operations := 4,
            p_atomic_operations :=
              [⟨0, 0, 1838, 11 / 20⟩, ⟨0, 1, 1856, 9 / 20⟩, ⟨1, 0, 1856, 9 / 20⟩,
               ⟨1, 1, 1838, 11 / 20⟩],
            i_overflow_buffer_size := 7424,
            p_overflow_buffer := [] } ∧
    (∀ code p, Init Real.sqrt 10 0 true false (some data) 2
        ⟨true, true, false, false, false, false, false, false, false⟩ 44100
      ≠ Init_outcome.ret code p) ∧
    (∃ p, Init Real.sqrt 10 0 false true (some data) 2
        ⟨true, true, false, false, false, false, false, false, false⟩ 44100
      = Init_outcome.ret (-1) p) := by
  have e : Init Real.sqrt 10 0 true false (some data) 2
        ⟨true, true, false, false, false, false, false, false, false⟩ 44100
      = Init_outcome.memset_null
          { data with
            i_nb_atomic_operations := 4,
            p_atomic_operations :=
              [⟨0, 0, 1838, 11 / 20⟩, ⟨0, 1, 1856, 9 / 20⟩, ⟨1, 0, 1856, 9 / 20⟩,
               ⟨1, 1, 1838, 11 / 20⟩],
            i_overflow_buffer_size := 7424,
            p_overflow_buffer := [] } := by
    unfold Init
    simp only [Init_stereo_table_values]
    rfl
  refine ⟨e, ?_, ⟨_, rfl⟩⟩
  intro code p
  rw [e]
  exact fun h => Init_outcome.noConfusion h

/-! ### The slide loop with an empty output -/

theorem slide_loop_zero_step {α : Type} (zero : α) (O : Nat) :
    ∀ (fuel p : Nat) (buf : List α), p < O → slide_loop zero O 0 fuel p buf = none := by
  intro fuel
  induction fuel with
  | zero => intro p buf _; rfl
  | succ fuel ih =>
    intro p buf hp
    unfold slide_loop
    rw [if_pos hp, if_pos (by omega), if_pos (by omega)]
    exact ih (p + 0) _ hp

/-- C23 (refuted by the code). Downmix mode, stereo input, an overflow buffer of 4 bytes
(maximum delay 1) and an accepted block of 1 frame whose declared byte length is 0: the
output size `i_nb_bytes * i_output_nb / i_input_nb` is 0, so `p_slide += i_out_size`
never advances and the overflow slide loop runs forever (whatever the number of
iterations allowed, no result is reached); `Convert` does not return. -/
theorem Convert_slide_loop_does_not_terminate :
    (Init_sys true 2 (-1) 16 [⟨0, 0, 1, 1 / 2⟩, ⟨1, 1, 1, 1 / 2⟩]).i_overflow_buffer_size = 4 ∧
    (∀ fuel, slide_loop (0 : Int)
      ((Init_sys true 2 (-1) 16 [⟨0, 0, 1, 1 / 2⟩, ⟨1, 1, 1, 1 / 2⟩]).i_overflow_buffer_size / 2)
      (0 * 1 / 2 / 2) fuel 0
      (Init_sys true 2 (-1) 16 [⟨0, 0, 1, 1 / 2⟩, ⟨1, 1, 1, 1 / 2⟩]).p_overflow_buffer
        = none) ∧
    stereo2mono_downmix (some (Init_sys true 2 (-1) 16 [⟨0, 0, 1, 1 / 2⟩, ⟨1, 1, 1, 1 / 2⟩]))
      2 1 ⟨[10, 20], 1, 0⟩ ⟨[0], 0, 2⟩ = none ∧
    Convert ⟨2, 1, Init_sys true 2 (-1) 16 [⟨0, 0, 1, 1 / 2⟩, ⟨1, 1, 1, 1 / 2⟩]⟩
      (some ⟨[10, 20], 0, 1, 0, 0, 0⟩) true = none := by
  refine ⟨by decide, fun fuel => ?_, by decide, by decide⟩
  exact slide_loop_zero_step (0 : Int) _ fuel 0 _ (by decide)

/-! ### The copy and slide steps -/

/-- C28. Emit-and-slide step of `stereo2mono_downmix` on bytes: for every overflow size
`O` and output size `S > 0`, with the output pre-zeroed, the step returns; the output
bytes `[0, min(O, S))` equal the old overflow bytes at the same indices and the other
output bytes are still zero; the new overflow has `overflow1[k] = overflow[k + S]` for
every `k` with `k + S < O` and `overflow1[k] = 0` for every other `k < O`. -/
theorem slide_overflow_spec {α : Type} (zero : α) (O S : Nat) (hS : 0 < S)
    (p_overflow : List α) (hovf : p_overflow.length = O) :
    ∃ out ovf, slide_overflow zero O S (List.replicate S zero) p_overflow = some (out, ovf) ∧
      out.length = S ∧ ovf.length = O ∧
      (∀ k, k < min O S → out[k]? = p_overflow[k]?) ∧
      (∀ k, min O S ≤ k → k < S → out[k]? = some zero) ∧
      (∀ k, k < O → ovf[k]? = if k + S < O then p_overflow[k + S]? else some zero) := by
  obtain ⟨slid, k1, k2, k3⟩ := slide_loop_spec zero O S hS p_overflow (O + 1) 0 p_overflow
    (by omega) (by omega) hovf (fun _ _ => rfl)
  unfold slide_overflow
  rw [k1]
  refine ⟨_, slid, rfl, ?_, k2, ?_, ?_, ?_⟩
  · split_ifs <;> rw [length_memcpy, List.length_replicate]
  · intro k hk
    have hk1 : k < O := lt_of_lt_of_le hk (min_le_left _ _)
    have hk2 : k < S := lt_of_lt_of_le hk (min_le_right _ _)
    split_ifs with hc
    · rw [getElem?_memcpy, List.length_replicate, if_pos ⟨by omega, by omega, hk2, by omega⟩]
      simp
    · rw [getElem?_memcpy, List.length_replicate, if_pos ⟨by omega, by omega, hk2, by omega⟩]
      simp
  · intro k hk hkS
    have hz : (List.replicate S zero)[k]? = some zero := by
      rw [List.getElem?_replicate, if_pos hkS]
    split_ifs with hc
    · have : O ≤ k := by rw [min_eq_left (by omega)] at hk; exact hk
      rw [getElem?_memcpy, if_neg (by omega), hz]
    · have : S ≤ k := by rw [min_eq_right (by omega)] at hk; exact hk
      omega
  · intro k hk
    rw [k3 k, if_pos ⟨by omega, hk⟩]

/-- C28 witness: an overflow buffer of 5 bytes and an output of 2 bytes (2 does not divide
5). -/
theorem slide_overflow_spec_witness :
    ∃ out ovf, slide_overflow (0 : Nat) 5 2 (List.replicate 2 0) [1, 2, 3, 4, 5]
        = some (out, ovf) ∧
      out.length = 2 ∧ ovf.length = 5 ∧
      (∀ k, k < min 5 2 → out[k]? = [1, 2, 3, 4, 5][k]?) ∧
      (∀ k, min 5 2 ≤ k → k < 2 → out[k]? = some 0) ∧
      (∀ k, k < 5 → ovf[k]? = if k + 2 < 5 then [1, 2, 3, 4, 5][k + 2]? else some 0) :=
  slide_overflow_spec (0 : Nat) 5 2 (by decide) [1, 2, 3, 4, 5] rfl

/-! ### The delayed weighted sum -/

theorem toInt16_toInt16_add (a z : Int) : toInt16 (toInt16 a + z) = toInt16 (a + z) := by
  unfold toInt16
  omega

/-- With integer products, the value of a slot after all operations is the sum of the
products that land on it, added modulo 2^16 to what the slot held. -/
theorem slot_value_of_int (N M n : Nat) (p_in : List Int) (x : Nat) :
    ∀ (ops : List atomic_operation_t),
      (∀ op ∈ ops, ∀ t, ∃ z : Int,
        (rd p_in (t * N + op.i_source_channel_offset) : ℚ) * op.d_amplitude_factor = (z : ℚ)) →
      ∃ z : Int,
        (z : ℚ) = ((ops.filter (fun op => x % M = op.i_dest_channel_offset ∧
              op.i_delay ≤ x / M ∧ x / M < op.i_delay + n)).map
            (fun op => (rd p_in ((x / M - op.i_delay) * N + op.i_source_channel_offset) : ℚ)
              * op.d_amplitude_factor)).sum ∧
        ∀ a, slot_value N M n p_in ops x (toInt16 a) = toInt16 (a + z) := by
  intro ops
  induction ops with
  | nil =>
    intro _
    exact ⟨0, by simp, fun a => by simp [slot_value]⟩
  | cons op rest ih =>
    intro hint
    obtain ⟨zr, hzr, hr⟩ := ih (fun o ho => hint o (List.mem_cons_of_mem _ ho))
    by_cases hc : x % M = op.i_dest_channel_offset ∧ op.i_delay ≤ x / M ∧
        x / M < op.i_delay + n
    · obtain ⟨z0, hz0⟩ := hint op (List.mem_cons_self _ _) (x / M - op.i_delay)
      refine ⟨z0 + zr, ?_, fun a => ?_⟩
      · rw [List.filter_cons_of_pos (by simpa using hc), List.map_cons, List.sum_cons,
          ← hzr, hz0]
        push_cast
        rfl
      · simp only [slot_value, List.foldl_cons] at hr ⊢
        have e : op_update N M n p_in op x (toInt16 a) = toInt16 (a + z0) := by
          unfold op_update
          rw [if_pos hc, accumulate_of_int hz0, toInt16_toInt16_add]
        rw [e, hr, add_assoc]
    · refine ⟨zr, ?_, fun a => ?_⟩
      · rw [List.filter_cons_of_neg (by simpa using hc)]
        exact hzr
      · simp only [slot_value, List.foldl_cons] at hr ⊢
        have e : op_update N M n p_in op x (toInt16 a) = toInt16 a := by
          unfold op_update
          rw [if_neg hc]
        rw [e, hr]

theorem slot_sum_eq_delayed_sum (N M n : Nat) (p_in : List Int)
    (ops : List atomic_operation_t) (lo t e : Nat) (he : e < M)
    (h : ∀ d, (d ≤ t ∧ t < d + n) ↔ (lo ≤ d ∧ d ≤ t)) :
    ((ops.filter (fun op => (t * M + e) % M = op.i_dest_channel_offset ∧
          op.i_delay ≤ (t * M + e) / M ∧ (t * M + e) / M < op.i_delay + n)).map
        (fun op => (rd p_in (((t * M + e) / M - op.i_delay) * N
            + op.i_source_channel_offset) : ℚ) * op.d_amplitude_factor)).sum
      = delayed_sum N p_in ops lo t e := by
  have hM : 0 < M := by omega
  have h1 : (t * M + e) % M = e := by
    rw [Nat.mul_comm, Nat.mul_add_mod, Nat.mod_eq_of_lt he]
  have h2 : (t * M + e) / M = t := by
    rw [Nat.mul_comm, Nat.mul_add_div hM, Nat.div_eq_of_lt he, Nat.add_zero]
  unfold delayed_sum
  rw [h1, h2]
  congr 2
  apply List.filter_congr
  intro op _
  have := h op.i_delay
  by_cases c1 : e = op.i_dest_channel_offset
  · have c1' : op.i_dest_channel_offset = e := c1.symm
    by_cases c2 : op.i_delay ≤ t ∧ t < op.i_delay + n
    · have c3 := this.mp c2
      simp [c1', c2.1, c2.2, c3.1]
    · have c3 : ¬ (lo ≤ op.i_delay ∧ op.i_delay ≤ t) := fun hh => c2 (this.mpr hh)
      have l : decide (e = op.i_dest_channel_offset ∧ op.i_delay ≤ t ∧ t < op.i_delay + n)
          = false := by
        simp only [decide_eq_false_iff_not]; exact fun hh => c2 hh.2
      have r : decide (op.i_dest_channel_offset = e ∧ lo ≤ op.i_delay ∧ op.i_delay ≤ t)
          = false := by
        simp only [decide_eq_false_iff_not]; exact fun hh => c3 hh.2
      rw [l, r]
  · have c1' : ¬ op.i_dest_channel_offset = e := fun hh => c1 hh.symm
    simp [c1, c1']

/-- One call on a whole stream of `T` frames with integer products, from a zeroed
overflow buffer: every output slot and every overflow slot holds, modulo 2^16, the
delayed weighted sum of its frame and ear. -/
theorem process_block_delayed_sum (sys : filter_sys_t) (N T : Nat) (input : List Int)
    (hN : 0 < N) (hT : 0 < T) (hin : input.length = T * N)
    (hops : ∀ op ∈ sys.p_atomic_operations, op.i_dest_channel_offset < 2)
    (hnb : sys.i_nb_atomic_operations = sys.p_atomic_operations.length)
    (hsize : sys.i_overflow_buffer_size = 2 * sys.p_overflow_buffer.length)
    (hzero : ∀ i, rd sys.p_overflow_buffer i = 0)
    (hint : ∀ op ∈ sys.p_atomic_operations, ∀ t, ∃ z : Int,
      (rd input (t * N + op.i_source_channel_offset) : ℚ) * op.d_amplitude_factor = (z : ℚ)) :
    ∃ ovf out, process_block sys N 2 input
        = some ({ sys with p_overflow_buffer := ovf }, out) ∧
      out.length = T * 2 ∧ ovf.length = sys.p_overflow_buffer.length ∧
      (∀ t e, t < T → e < 2 → ∃ z : Int,
        (z : ℚ) = delayed_sum N input sys.p_atomic_operations 0 t e ∧
        rd out (t * 2 + e) = toInt16 z) ∧
      (∀ k e, e < 2 → k * 2 + e < sys.p_overflow_buffer.length → ∃ z : Int,
        (z : ℚ) = delayed_sum N input sys.p_atomic_operations (k + 1) (T + k) e ∧
        rd ovf (k * 2 + e) = toInt16 z) := by
  obtain ⟨ovf, out, p1, p2, p3, p4, p5⟩ :=
    process_block_spec sys N 2 T input hN (by decide) hT hin hops hnb hsize
  refine ⟨ovf, out, p1, p2, p3, ?_, ?_⟩
  · intro t e ht he
    obtain ⟨z, hz, hv⟩ := slot_value_of_int N 2 T input (t * 2 + e) sys.p_atomic_operations hint
    refine ⟨z, ?_, ?_⟩
    · rw [hz]
      exact slot_sum_eq_delayed_sum N 2 T input sys.p_atomic_operations 0 t e he
        (fun d => by omega)
    · rw [p4 (t * 2 + e) (by omega), hzero]
      have := hv 0
      rw [show toInt16 0 = 0 from rfl, zero_add] at this
      exact this
  · intro k e he hk
    obtain ⟨z, hz, hv⟩ :=
      slot_value_of_int N 2 T input ((T + k) * 2 + e) sys.p_atomic_operations hint
    refine ⟨z, ?_, ?_⟩
    · rw [hz]
      exact slot_sum_eq_delayed_sum N 2 T input sys.p_atomic_operations (k + 1) (T + k) e he
        (fun d => by omega)
    · have e1 : k * 2 + e + T * 2 = (T + k) * 2 + e := by omega
      rw [p5 (k * 2 + e) hk, hzero, e1]
      have := hv 0
      rw [show toInt16 0 = 0 from rfl, zero_add] at this
      exact this

/-- C29. The StreamMixer computes the delayed weighted sum: for every tap table
(destination ear in {0, 1}, source index below the channel count) and every stream cut
into consecutive non-empty blocks of whole frames, `T` frames in all, starting from the
zeroed overflow buffer sized by `Init` and writing into pre-zeroed stereo output blocks:
if every product input * gain is an integer and the sums below lie in the signed 16-bit
range (for the frames of the output and the slots of the overflow buffer), block-wise processing returns, the sample at absolute frame `t` and ear `e` of the
concatenated output is the sum, over the taps with destination `e` and delay `<= t`, of
`gain * input[t - delay][source]`, and the overflow slot for frame `k` and ear `e` holds
the same sum for the absolute frame `T + k` restricted to the `T` frames seen so far
(the taps with `k < delay <= T + k`). -/
theorem process_stream_delayed_sum (b_downmix : Bool) (N : Nat) (sel : Int) (bits : Nat)
    (ops : List atomic_operation_t) (blocks : List (List Int)) (T : Nat)
    (hN : 0 < N) (hne : blocks ≠ [])
    (hwf : ∀ b ∈ blocks, ∃ n, 0 < n ∧ b.length = n * N)
    (hT : blocks.flatten.length = T * N)
    (hops : ∀ op ∈ ops, op.i_dest_channel_offset < 2 ∧ op.i_source_channel_offset < N)
    (hint : ∀ op ∈ ops, ∀ t, ∃ z : Int,
      (rd blocks.flatten (t * N + op.i_source_channel_offset) : ℚ) * op.d_amplitude_factor
        = (z : ℚ))
    (hout : ∀ t e, t < T → e < 2 →
      -32768 ≤ delayed_sum N blocks.flatten ops 0 t e ∧
      delayed_sum N blocks.flatten ops 0 t e ≤ 32767)
    (hovf : ∀ k e, e < 2 →
      k * 2 + e < (Init_sys b_downmix N sel bits ops).p_overflow_buffer.length →
      -32768 ≤ delayed_sum N blocks.flatten ops (k + 1) (T + k) e ∧
      delayed_sum N blocks.flatten ops (k + 1) (T + k) e ≤ 32767) :
    ∃ sys out,
      process_stream (Init_sys b_downmix N sel bits ops) N 2 blocks = some (sys, out) ∧
      out.length = T * 2 ∧
      (∀ t e, t < T → e < 2 →
        (rd out (t * 2 + e) : ℚ) = delayed_sum N blocks.flatten ops 0 t e) ∧
      (∀ k e, e < 2 → k * 2 + e < sys.p_overflow_buffer.length →
        (rd sys.p_overflow_buffer (k * 2 + e) : ℚ)
          = delayed_sum N blocks.flatten ops (k + 1) (T + k) e) := by
  obtain ⟨w1, w2, w3⟩ := Init_sys_wellformed b_downmix N sel bits ops
  obtain ⟨ovf, out, h1, h2, h3⟩ := process_stream_eq_process_block N 2 hN (by decide) blocks
    (Init_sys b_downmix N sel bits ops) hne hwf
    (fun op h => ⟨(hops op h).1, (hops op h).2, w2 op h⟩) rfl w1 hint
  have hTpos : 0 < T := by
    obtain ⟨n, hn, hl⟩ := flatten_length_frames N blocks hne hwf
    rw [hT] at hl
    have : T = n := Nat.eq_of_mul_eq_mul_right hN hl
    omega
  obtain ⟨ovf', out', q1, q2, q3, q4, q5⟩ :=
    process_block_delayed_sum (Init_sys b_downmix N sel bits ops) N T blocks.flatten hN hTpos
      hT (fun op h => (hops op h).1) rfl w1 w3 hint
  rw [h2] at q1
  simp only [Option.some.injEq, Prod.mk.injEq] at q1
  obtain ⟨e1, e2⟩ := q1
  subst e2
  have e3 : ovf = ovf' := congrArg filter_sys_t.p_overflow_buffer e1
  subst e3
  have cast_range : ∀ (z : Int) (q : ℚ), (z : ℚ) = q → -32768 ≤ q → q ≤ 32767 →
      toInt16 z = z := by
    intro z q hz ha hb
    apply toInt16_of_isInt16
    rw [← hz] at ha hb
    exact ⟨by exact_mod_cast ha, by exact_mod_cast hb⟩
  refine ⟨_, out, h1, q2, ?_, ?_⟩
  · intro t e ht he
    obtain ⟨z, hz, hv⟩ := q4 t e ht he
    have hz' : (z : ℚ) = delayed_sum N blocks.flatten ops 0 t e := hz
    rw [hv, cast_range z _ hz' (hout t e ht he).1 (hout t e ht he).2, hz']
  · intro k e he hk
    have hk' : k * 2 + e < (Init_sys b_downmix N sel bits ops).p_overflow_buffer.length := by
      rw [← h3]; exact hk
    obtain ⟨z, hz, hv⟩ := q5 k e he hk'
    have hz' : (z : ℚ) = delayed_sum N blocks.flatten ops (k + 1) (T + k) e := hz
    show (rd ovf (k * 2 + e) : ℚ) = _
    rw [hv, cast_range z _ hz' (hovf k e he hk').1 (hovf k e he hk').2, hz']

/-- C29 witness: three taps with integer gains and delays 2, 1 and 0, a stream of 3 stereo
frames cut as 1 + 2 frames. -/
theorem process_stream_delayed_sum_witness :
    ∃ sys out,
      process_stream (Init_sys true 2 (-1) 16 [⟨0, 0, 2, 1⟩, ⟨1, 1, 1, 2⟩, ⟨0, 1, 0, 1⟩]) 2 2
        [[3, 0], [-1, 0, 4, 5]] = some (sys, out) ∧
      out.length = 3 * 2 ∧
      (∀ t e, t < 3 → e < 2 →
        (rd out (t * 2 + e) : ℚ) = delayed_sum 2 [[3, 0], [-1, 0, 4, 5]].flatten
          [⟨0, 0, 2, 1⟩, ⟨1, 1, 1, 2⟩, ⟨0, 1, 0, 1⟩] 0 t e) ∧
      (∀ k e, e < 2 → k * 2 + e < sys.p_overflow_buffer.length →
        (rd sys.p_overflow_buffer (k * 2 + e) : ℚ)
          = delayed_sum 2 [[3, 0], [-1, 0, 4, 5]].flatten
              [⟨0, 0, 2, 1⟩, ⟨1, 1, 1, 2⟩, ⟨0, 1, 0, 1⟩] (k + 1) (3 + k) e) :=
  process_stream_delayed_sum true 2 (-1) 16 [⟨0, 0, 2, 1⟩, ⟨1, 1, 1, 2⟩, ⟨0, 1, 0, 1⟩]
    [[3, 0], [-1, 0, 4, 5]] 3 (by decide) (by decide)
    (by
      intro b hb
      simp only [List.mem_cons, List.mem_singleton, List.not_mem_nil, or_false] at hb
      rcases hb with rfl | rfl
      · exact ⟨1, by decide, rfl⟩
      · exact ⟨2, by decide, rfl⟩)
    rfl
    (by
      intro op hop
      simp only [List.mem_cons, List.mem_singleton, List.not_mem_nil, or_false] at hop
      rcases hop with rfl | rfl | rfl <;> decide)
    (by
      intro op hop t
      simp only [List.mem_cons, List.mem_singleton, List.not_mem_nil, or_false] at hop
      rcases hop with rfl | rfl | rfl
      · exact ⟨_, mul_one _⟩
      · exact ⟨rd _ _ * 2, by push_cast; ring⟩
      · exact ⟨_, mul_one _⟩)
    (by
      intro t e ht he
      interval_cases t <;> interval_cases e <;> decide!)
    (by
      intro k e he hk
      have hk4 : k * 2 + e < 4 := hk
      have hk2 : k < 2 := by omega
      interval_cases k <;> interval_cases e <;> decide!)

end Mono

namespace Duplicate

/-! ## `ESSelected` -/

/-- C24. `ESSelected` with no selection: for every elementary-stream format, if the select
string is NULL or empty, `ESSelected` returns true. -/
theorem ESSelected_no_selection (beginRange0 endRange0 : Int) (strdup_ok : Bool)
    (fmt : es_format_t) :
    ESSelected beginRange0 endRange0 strdup_ok fmt none = some true ∧
    ESSelected beginRange0 endRange0 strdup_ok fmt (some []) = some true :=
  ⟨rfl, rfl⟩

/-- C25 (refuted by the code). For the audio ES of id 5, the chain `no-es=5,audio`
contains the negated selector `no-es=5`, which matches the ES and sets `i_es` to 0; the
loop goes on, `audio` sets `i_cat` to 1, and `ESSelected` returns true. -/
theorem ESSelected_negative_match_not_rejected (beginRange0 endRange0 : Int) :
    NumInRange beginRange0 endRange0 "5".toList 5 = true ∧
    ESSelected_loop beginRange0 endRange0 ⟨es_format_category_e.AUDIO_ES, 5, 0⟩
        ("no-es=5,audio".toList.length + 1) "no-es=5,audio".toList ⟨-1, -1, -1⟩
      = some ⟨1, 0, -1⟩ ∧
    ESSelected beginRange0 endRange0 true ⟨es_format_category_e.AUDIO_ES, 5, 0⟩
        (some "no-es=5,audio".toList) = some true := by
  refine ⟨rfl, rfl, rfl⟩

/-! ## `NumInRange` -/

/-- C26 (refuted by the code). The empty string does not start with a number, but for it
`sscanf` returns `EOF = -1`, which is neither 0 nor 1, so `NumInRange` evaluates the
range test on the uninitialised `beginRange` and `endRange`: the result is true when they
happen to enclose `i_num` (for instance both 0 with `i_num = 0`) and false otherwise.
`ESSelected` reaches this call with the selection `es=`. -/
theorem NumInRange_empty_string :
    (sscanf_range [] 0 0).1 = -1 ∧
    NumInRange 0 0 [] 0 = true ∧
    NumInRange 1 1 [] 0 = false ∧
    (∀ beginRange0 endRange0 i_num : Int, NumInRange beginRange0 endRange0 [] i_num
      = ((decide (i_num ≥ beginRange0) && decide (i_num ≤ endRange0))
        || (decide (beginRange0 > endRange0) &&
            (decide (i_num ≤ beginRange0) && decide (i_num ≥ endRange0))))) ∧
    ESSelected 0 0 true ⟨es_format_category_e.AUDIO_ES, 0, 0⟩ (some "es=".toList)
      = some true ∧
    ESSelected 1 1 true ⟨es_format_category_e.AUDIO_ES, 0, 0⟩ (some "es=".toList)
      = some false := by
  refine ⟨by decide, by decide, by decide, fun _ _ _ => rfl, by decide, by decide⟩

/-! ## `Add` -/

theorem Add_loop_spec (beginRange0 endRange0 : Int) (sout_StreamIdAdd : Nat → Option Nat)
    (strdup_ok push_ok : Nat → Bool) (p_fmt : es_format_t) :
    ∀ (streams : List duplicated_stream_t) (idx : Nat) (dup_ids ids : List duplicated_id_t)
      (n m : Nat),
      (∀ i, idx ≤ i → i < idx + streams.length → push_ok i = true) →
      Add_loop beginRange0 endRange0 sout_StreamIdAdd strdup_ok push_ok p_fmt streams idx
        dup_ids n = some (ids, m) →
      ids = dup_ids ++ (streams.enumFrom idx).map (fun p =>
          Add_entry beginRange0 endRange0 sout_StreamIdAdd strdup_ok p_fmt p.1 p.2) ∧
      m = n + (((streams.enumFrom idx).map (fun p =>
          Add_entry beginRange0 endRange0 sout_StreamIdAdd strdup_ok p_fmt p.1 p.2)).filter
            (fun d => d.id ≠ none)).length := by
  intro streams
  induction streams with
  | nil =>
    intro idx dup_ids ids n m _ h
    simp only [Add_loop, Option.some.injEq, Prod.mk.injEq] at h
    obtain ⟨h1, h2⟩ := h
    subst h1 h2
    simp
  | cons s rest ih =>
    intro idx dup_ids ids n m hpush h
    have hp : push_ok idx = true := hpush idx (le_refl _) (by simp)
    have hrest : ∀ i, idx + 1 ≤ i → i < idx + 1 + rest.length → push_ok i = true :=
      fun i h1 h2 => hpush i (by omega) (by simp only [List.length_cons]; omega)
    unfold Add_loop at h
    cases hsel : ESSelected beginRange0 endRange0 (strdup_ok idx) p_fmt s.select_chain with
    | none => rw [hsel] at h; cases h
    | some b =>
      rw [hsel] at h
      cases b with
      | true =>
        simp only [hp, if_true] at h
        obtain ⟨e1, e2⟩ := ih (idx + 1) _ ids _ m hrest h
        have ee : Add_entry beginRange0 endRange0 sout_StreamIdAdd strdup_ok p_fmt idx s
            = ⟨sout_StreamIdAdd s.stream, s.stream⟩ := by
          simp [Add_entry, hsel]
        simp only [List.enumFrom_cons, List.map_cons, ee]
        refine ⟨by rw [e1, List.append_assoc]; rfl, ?_⟩
        rw [e2]
        by_cases hid : sout_StreamIdAdd s.stream = none
        · simp [hid]
        · simp [hid]; omega
      | false =>
        simp only [hp, if_true] at h
        obtain ⟨e1, e2⟩ := ih (idx + 1) _ ids _ m hrest h
        have ee : Add_entry beginRange0 endRange0 sout_StreamIdAdd strdup_ok p_fmt idx s
            = ⟨none, s.stream⟩ := by
          simp [Add_entry, hsel]
        simp only [List.enumFrom_cons, List.map_cons, ee]
        refine ⟨by rw [e1, List.append_assoc]; rfl, ?_⟩
        rw [e2]
        simp

theorem Send_returns (block_Duplicate_ok : Nat → Nat → Bool) (dup_ids : List duplicated_id_t)
    (h : 0 < dup_ids.length) :
    ∀ (buffers : List Nat), ∃ events, Send block_Duplicate_ok dup_ids buffers = some events := by
  intro buffers
  induction buffers with
  | nil => exact ⟨[], rfl⟩
  | cons b rest ih =>
    obtain ⟨ev, hev⟩ := ih
    unfold Send Send_buffer
    rw [if_pos h, hev]
    exact ⟨_, rfl⟩

/-- C27. Every id returned by `Add` satisfies what `Send` assumes: whenever `Add` returns
a non-NULL id and the vector pushes succeed, its `dup_ids` vector has exactly one entry
per configured duplicated stream, in the same order, the entry of a stream being the id
returned by that output when the ES is selected for it and NULL when the ES was ignored
or the output failed; at least one entry has a non-NULL id; so the vector is not empty
and the assertion `id->dup_ids.size > 0` of `Send` holds: `Send` runs to its end for
every list of buffers. -/
theorem Add_dup_ids (beginRange0 endRange0 : Int) (sout_StreamIdAdd : Nat → Option Nat)
    (id_alloc_ok : Bool) (strdup_ok push_ok : Nat → Bool)
    (streams : List duplicated_stream_t) (p_fmt : es_format_t)
    (dup_ids : List duplicated_id_t)
    (hpush : ∀ i, i < streams.length → push_ok i = true)
    (h : Add beginRange0 endRange0 sout_StreamIdAdd id_alloc_ok strdup_ok push_ok streams
      p_fmt = some (some dup_ids)) :
    dup_ids = streams.enum.map (fun p =>
      Add_entry beginRange0 endRange0 sout_StreamIdAdd strdup_ok p_fmt p.1 p.2) ∧
    dup_ids.length = streams.length ∧
    dup_ids.map (fun d => d.stream_owner) = streams.map (fun s => s.stream) ∧
    (∃ d ∈ dup_ids, d.id ≠ none) ∧
    0 < dup_ids.length ∧
    (∀ block_Duplicate_ok buffers, ∃ events,
      Send block_Duplicate_ok dup_ids buffers = some events) := by
  unfold Add at h
  split_ifs at h
  · cases h
  split at h
  · cases h
  · rename_i ids m hloop
    split_ifs at h with hm
    · cases h
    simp only [Option.some.injEq] at h
    subst h
    obtain ⟨e1, e2⟩ := Add_loop_spec beginRange0 endRange0 sout_StreamIdAdd strdup_ok push_ok
      p_fmt streams 0 [] ids 0 m (fun i _ hi => hpush i (by omega)) hloop
    rw [List.nil_append] at e1
    have hex : ∃ d ∈ ids, d.id ≠ none := by
      have hpos : 0 < (ids.filter (fun d => d.id ≠ none)).length := by
        rw [e1]; omega
      obtain ⟨d, hd⟩ := List.exists_mem_of_length_pos hpos
      rw [List.mem_filter] at hd
      exact ⟨d, hd.1, by simpa using hd.2⟩
    have hlen : 0 < ids.length := by
      obtain ⟨d, hd, _⟩ := hex
      exact List.length_pos_of_mem hd
    refine ⟨e1, ?_, ?_, hex, hlen, fun ok buffers => Send_returns ok ids hlen buffers⟩
    · rw [e1, List.length_map, List.enumFrom_length]
    · rw [e1, List.map_map]
      have : ((fun d : duplicated_id_t => d.stream_owner) ∘ fun p : Nat × duplicated_stream_t =>
          Add_entry beginRange0 endRange0 sout_StreamIdAdd strdup_ok p_fmt p.1 p.2)
          = (fun s : duplicated_stream_t => s.stream) ∘ Prod.snd := rfl
      rw [this, ← List.map_map]
      congr 1
      exact List.enumFrom_map_snd 0 streams

/-- C27 witness: three outputs; the ES is ignored by the third and the first fails to
add it. -/
theorem Add_dup_ids_witness :
    [⟨none, 7⟩, ⟨some 108, 8⟩, ⟨none, 9⟩]
      = [(⟨7, none⟩ : duplicated_stream_t), ⟨8, some "audio".toList⟩,
          ⟨9, some "video".toList⟩].enum.map (fun p =>
        Add_entry 0 0 (fun s => if s = 7 then none else some (s + 100)) (fun _ => true)
          ⟨es_format_category_e.AUDIO_ES, 5, 0⟩ p.1 p.2) ∧
    [(⟨none, 7⟩ : duplicated_id_t), ⟨some 108, 8⟩, ⟨none, 9⟩].length
      = [(⟨7, none⟩ : duplicated_stream_t), ⟨8, some "audio".toList⟩,
          ⟨9, some "video".toList⟩].length ∧
    [(⟨none, 7⟩ : duplicated_id_t), ⟨some 108, 8⟩, ⟨none, 9⟩].map (fun d => d.stream_owner)
      = [(⟨7, none⟩ : duplicated_stream_t), ⟨8, some "audio".toList⟩,
          ⟨9, some "video".toList⟩].map (fun s => s.stream) ∧
    (∃ d ∈ [(⟨none, 7⟩ : duplicated_id_t), ⟨some 108, 8⟩, ⟨none, 9⟩], d.id ≠ none) ∧
    0 < [(⟨none, 7⟩ : duplicated_id_t), ⟨some 108, 8⟩, ⟨none, 9⟩].length ∧
    (∀ block_Duplicate_ok buffers, ∃ events,
      Send block_Duplicate_ok [⟨none, 7⟩, ⟨some 108, 8⟩, ⟨none, 9⟩] buffers = some events) :=
  Add_dup_ids 0 0 (fun s => if s = 7 then none else some (s + 100)) true (fun _ => true)
    (fun _ => true) [⟨7, none⟩, ⟨8, some "audio".toList⟩, ⟨9, some "video".toList⟩]
    ⟨es_format_category_e.AUDIO_ES, 5, 0⟩ [⟨none, 7⟩, ⟨some 108, 8⟩, ⟨none, 9⟩]
    (fun _ _ => rfl) (by decide)

/-! ## The loop of `ESSelected` on a chain of selections -/

theorem ESSelected_token_nil (beginRange0 endRange0 : Int) (fmt : es_format_t)
    (st : selection_t) : ESSelected_token beginRange0 endRange0 fmt [] st = st := rfl

theorem strchr_append (c : Char) (b : List Char) :
    ∀ (a : List Char), c ∉ a → strchr c (a ++ c :: b) = some (a, b) := by
  intro a
  induction a with
  | nil => intro _; simp [strchr]
  | cons x a ih =>
    intro h
    have hx : x ≠ c := fun e => h (by rw [e]; exact List.mem_cons_self _ _)
    have ha : c ∉ a := fun e => h (List.mem_cons_of_mem _ e)
    simp [strchr, hx, ih ha]

theorem strchr_none (c : Char) : ∀ (a : List Char), c ∉ a → strchr c a = none := by
  intro a
  induction a with
  | nil => intro _; rfl
  | cons x a ih =>
    intro h
    have hx : x ≠ c := fun e => h (by rw [e]; exact List.mem_cons_self _ _)
    have ha : c ∉ a := fun e => h (List.mem_cons_of_mem _ e)
    simp [strchr, hx, ih ha]

theorem skip_blank_append_comma (rest : List Char) :
    ∀ (tok : List Char), skip_blank (tok ++ ',' :: rest) = skip_blank tok ++ ',' :: rest := by
  intro tok
  induction tok with
  | nil => simp [skip_blank, List.dropWhile]
  | cons x tok ih =>
    unfold skip_blank at ih ⊢
    by_cases hx : x = ' ' ∨ x = '\t'
    · simp only [List.cons_append, List.dropWhile_cons, hx, decide_True, if_true]
      exact ih
    · simp only [List.cons_append, List.dropWhile_cons, hx, decide_False]
      rfl

theorem not_mem_skip_blank (c : Char) (tok : List Char) (h : c ∉ tok) :
    c ∉ skip_blank tok := by
  intro hc
  exact h ((List.dropWhile_sublist _).subset hc)

theorem chain_of_cons_cons (t t1 : List Char) (ts : List (List Char)) :
    chain_of (t :: t1 :: ts) = t ++ ',' :: chain_of (t1 :: ts) := by
  simp [chain_of, List.intercalate, List.intersperse]

theorem ESSelected_loop_chain (beginRange0 endRange0 : Int) (fmt : es_format_t) :
    ∀ (toks : List (List Char)), (∀ tok ∈ toks, ',' ∉ tok) →
      ∀ (fuel : Nat) (st : selection_t), toks.length ≤ fuel → 0 < fuel →
        ESSelected_loop beginRange0 endRange0 fmt fuel (chain_of toks) st
          = some (toks.foldl (fun st tok =>
              ESSelected_token beginRange0 endRange0 fmt (skip_blank tok) st) st) := by
  intro toks
  induction toks with
  | nil =>
    intro _ fuel st _ hf
    obtain ⟨f, rfl⟩ : ∃ f, fuel = f + 1 := ⟨fuel - 1, by omega⟩
    have e : chain_of [] = [] := rfl
    rw [e]
    rfl
  | cons t ts ih =>
    intro hc fuel st hlen hf
    obtain ⟨f, rfl⟩ : ∃ f, fuel = f + 1 := ⟨fuel - 1, by omega⟩
    have ht : ',' ∉ t := hc t (List.mem_cons_self _ _)
    cases ts with
    | nil =>
      have e : chain_of [t] = t := by simp [chain_of, List.intercalate, List.intersperse]
      rw [e]
      unfold ESSelected_loop
      by_cases hnil : t = []
      · subst hnil
        simp [skip_blank, ESSelected_token_nil]
      · rw [if_neg hnil, strchr_none ',' _ (not_mem_skip_blank ',' t ht)]
        rfl
    | cons t1 ts =>
      rw [chain_of_cons_cons]
      unfold ESSelected_loop
      rw [if_neg (by simp), skip_blank_append_comma,
        strchr_append ',' _ _ (not_mem_skip_blank ',' t ht)]
      have hrec := ih (fun tok h => hc tok (List.mem_cons_of_mem _ h)) f
        (ESSelected_token beginRange0 endRange0 fmt (skip_blank t) st)
        (by simp only [List.length_cons] at hlen ⊢; omega)
        (by simp only [List.length_cons] at hlen; omega)
      cases hs : skip_blank t with
      | nil =>
        rw [hs, ESSelected_token_nil] at hrec
        simp only [List.foldl_cons, hs, ESSelected_token_nil]
        exact hrec
      | cons x xs =>
        rw [hs] at hrec
        simp only [List.foldl_cons, hs]
        exact hrec

theorem ESSelected_token_category_set (beginRange0 endRange0 : Int) (fmt : es_format_t)
    (psz : List Char) (st : selection_t) (h : is_category_token psz = true)
    (hcat : st.i_cat ≠ -1) : ESSelected_token beginRange0 endRange0 fmt psz st = st := by
  unfold is_category_token at h
  unfold ESSelected_token
  generalize strncmp_eq psz "no-audio".toList = b1 at h ⊢
  generalize strncmp_eq psz "noaudio".toList = b2 at h ⊢
  generalize strncmp_eq psz "no-video".toList = b3 at h ⊢
  generalize strncmp_eq psz "novideo".toList = b4 at h ⊢
  generalize strncmp_eq psz "no-spu".toList = b5 at h ⊢
  generalize strncmp_eq psz "nospu".toList = b6 at h ⊢
  generalize strncmp_eq psz "audio".toList = b7 at h ⊢
  generalize strncmp_eq psz "video".toList = b8 at h ⊢
  generalize strncmp_eq psz "spu".toList = b9 at h ⊢
  generalize strchr '=' psz = m
  rw [if_neg hcat, if_neg hcat, if_neg hcat, if_neg hcat, if_neg hcat, if_neg hcat]
  cases b1
  · cases b2
    · cases b3
      · cases b4
        · cases b5
          · cases b6
            · cases b7
              · cases b8
                · cases b9
                  · exact absurd h (by decide)
                  · rfl
                · rfl
              · rfl
            · rfl
          · rfl
        · rfl
      · rfl
    · rfl
  · rfl

theorem ESSelected_token_not_category (beginRange0 endRange0 : Int) (fmt : es_format_t)
    (psz : List Char) (st : selection_t) (h : is_category_token psz = false) :
    (ESSelected_token beginRange0 endRange0 fmt psz st).i_cat = st.i_cat := by
  unfold is_category_token at h
  unfold ESSelected_token
  generalize strncmp_eq psz "no-audio".toList = b1 at h ⊢
  generalize strncmp_eq psz "noaudio".toList = b2 at h ⊢
  generalize strncmp_eq psz "no-video".toList = b3 at h ⊢
  generalize strncmp_eq psz "novideo".toList = b4 at h ⊢
  generalize strncmp_eq psz "no-spu".toList = b5 at h ⊢
  generalize strncmp_eq psz "nospu".toList = b6 at h ⊢
  generalize strncmp_eq psz "audio".toList = b7 at h ⊢
  generalize strncmp_eq psz "video".toList = b8 at h ⊢
  generalize strncmp_eq psz "spu".toList = b9 at h ⊢
  simp only [Bool.or_eq_false_iff] at h
  obtain ⟨⟨⟨⟨⟨⟨⟨⟨h1, h2⟩, h3⟩, h4⟩, h5⟩, h6⟩, h7⟩, h8⟩, h9⟩ := h
  subst h1 h2 h3 h4 h5 h6 h7 h8 h9
  simp only [Bool.false_eq_true, or_self, if_false]
  split
  · split_ifs <;> rfl
  · rfl

theorem ESSelected_token_category_unset (beginRange0 endRange0 : Int) (fmt : es_format_t)
    (psz : List Char) (st : selection_t) (h : is_category_token psz = true)
    (hcat : st.i_cat = -1) :
    ESSelected_token beginRange0 endRange0 fmt psz st
      = { st with i_cat := (ESSelected_token beginRange0 endRange0 fmt psz ⟨-1, -1, -1⟩).i_cat } ∧
    (ESSelected_token beginRange0 endRange0 fmt psz ⟨-1, -1, -1⟩).i_cat ≠ -1 := by
  have hinit : (⟨-1, -1, -1⟩ : selection_t).i_cat = -1 := rfl
  unfold is_category_token at h
  unfold ESSelected_token
  generalize strncmp_eq psz "no-audio".toList = b1 at h ⊢
  generalize strncmp_eq psz "noaudio".toList = b2 at h ⊢
  generalize strncmp_eq psz "no-video".toList = b3 at h ⊢
  generalize strncmp_eq psz "novideo".toList = b4 at h ⊢
  generalize strncmp_eq psz "no-spu".toList = b5 at h ⊢
  generalize strncmp_eq psz "nospu".toList = b6 at h ⊢
  generalize strncmp_eq psz "audio".toList = b7 at h ⊢
  generalize strncmp_eq psz "video".toList = b8 at h ⊢
  generalize strncmp_eq psz "spu".toList = b9 at h ⊢
  generalize strchr '=' psz = m
  rw [if_pos hcat, if_pos hcat, if_pos hcat, if_pos hcat, if_pos hcat, if_pos hcat,
    if_pos hinit, if_pos hinit, if_pos hinit, if_pos hinit, if_pos hinit, if_pos hinit]
  have v : ∀ (p : Prop) [Decidable p], (if p then (1 : Int) else 0) ≠ -1 := by
    intro p _; split_ifs <;> decide
  cases b1
  · cases b2
    · cases b3
      · cases b4
        · cases b5
          · cases b6
            · cases b7
              · cases b8
                · cases b9
                  · exact absurd h (by decide)
                  · exact ⟨rfl, v _⟩
                · exact ⟨rfl, v _⟩
              · exact ⟨rfl, v _⟩
            · exact ⟨rfl, v _⟩
          · exact ⟨rfl, v _⟩
        · exact ⟨rfl, v _⟩
      · exact ⟨rfl, v _⟩
    · exact ⟨rfl, v _⟩
  · exact ⟨rfl, v _⟩

theorem foldl_token_cat_set (beginRange0 endRange0 : Int) (fmt : es_format_t) :
    ∀ (toks : List (List Char)) (st : selection_t), st.i_cat ≠ -1 →
      (toks.foldl (fun st tok =>
        ESSelected_token beginRange0 endRange0 fmt (skip_blank tok) st) st).i_cat
        = st.i_cat := by
  intro toks
  induction toks with
  | nil => intro st _; rfl
  | cons t ts ih =>
    intro st hst
    rw [List.foldl_cons]
    cases hcat : is_category_token (skip_blank t) with
    | true =>
      rw [ESSelected_token_category_set beginRange0 endRange0 fmt _ st hcat hst]
      exact ih st hst
    | false =>
      have e := ESSelected_token_not_category beginRange0 endRange0 fmt (skip_blank t) st hcat
      rw [ih _ (by rw [e]; exact hst), e]

theorem foldl_token_cat_unset (beginRange0 endRange0 : Int) (fmt : es_format_t) :
    ∀ (toks : List (List Char)) (st : selection_t), st.i_cat = -1 →
      (toks.foldl (fun st tok =>
        ESSelected_token beginRange0 endRange0 fmt (skip_blank tok) st) st).i_cat
        = (((toks.map skip_blank).find? is_category_token).map (fun tok =>
            (ESSelected_token beginRange0 endRange0 fmt tok ⟨-1, -1, -1⟩).i_cat)).getD (-1) := by
  intro toks
  induction toks with
  | nil => intro st hst; exact hst
  | cons t ts ih =>
    intro st hst
    rw [List.foldl_cons, List.map_cons, List.find?_cons]
    cases hcat : is_category_token (skip_blank t) with
    | true =>
      obtain ⟨e1, e2⟩ :=
        ESSelected_token_category_unset beginRange0 endRange0 fmt (skip_blank t) st hcat hst
      rw [foldl_token_cat_set beginRange0 endRange0 fmt ts _ (by rw [e1]; exact e2), e1]
      rfl
    | false =>
      have e := ESSelected_token_not_category beginRange0 endRange0 fmt (skip_blank t) st hcat
      exact ih _ (by rw [e]; exact hst)

theorem foldl_token_remove_category (beginRange0 endRange0 : Int) (fmt : es_format_t)
    (pre post : List (List Char)) (tok : List Char) (st : selection_t)
    (hcat : is_category_token (skip_blank tok) = true)
    (hpre : ∃ t ∈ pre, is_category_token (skip_blank t) = true) (hst : st.i_cat = -1) :
    (pre ++ tok :: post).foldl (fun st tok =>
        ESSelected_token beginRange0 endRange0 fmt (skip_blank tok) st) st
      = (pre ++ post).foldl (fun st tok =>
        ESSelected_token beginRange0 endRange0 fmt (skip_blank tok) st) st := by
  have hset : (pre.foldl (fun st tok =>
      ESSelected_token beginRange0 endRange0 fmt (skip_blank tok) st) st).i_cat ≠ -1 := by
    rw [foldl_token_cat_unset beginRange0 endRange0 fmt pre st hst]
    obtain ⟨t, ht, hc⟩ := hpre
    have hex : ∃ x ∈ pre.map skip_blank, is_category_token x = true :=
      ⟨skip_blank t, List.mem_map_of_mem _ ht, hc⟩
    cases hf : (pre.map skip_blank).find? is_category_token with
    | none =>
      rw [List.find?_eq_none] at hf
      obtain ⟨x, hx, hxc⟩ := hex
      exact absurd hxc (hf x hx)
    | some x =>
      have hxc : is_category_token x = true := List.find?_some hf
      simp only [Option.map_some', Option.getD_some]
      exact (ESSelected_token_category_unset beginRange0 endRange0 fmt x ⟨-1, -1, -1⟩ hxc rfl).2
  rw [List.foldl_append, List.foldl_append, List.foldl_cons,
    ESSelected_token_category_set beginRange0 endRange0 fmt _ _ hcat hset]

theorem length_le_chain_of : ∀ (toks : List (List Char)),
    toks.length ≤ (chain_of toks).length + 1 := by
  intro toks
  induction toks with
  | nil => simp
  | cons t ts ih =>
    cases ts with
    | nil => simp
    | cons t1 ts =>
      rw [chain_of_cons_cons]
      simp only [List.length_cons, List.length_append] at ih ⊢
      omega

theorem chain_of_ne_nil : ∀ (toks : List (List Char)) (t : List Char), t ∈ toks → t ≠ [] →
    chain_of toks ≠ [] := by
  intro toks
  induction toks with
  | nil => intro t h; cases h
  | cons a ts ih =>
    intro t ht hne
    cases ts with
    | nil =>
      have e : chain_of [a] = a := by simp [chain_of, List.intercalate, List.intersperse]
      rw [e]
      simp only [List.mem_singleton] at ht
      rw [← ht]; exact hne
    | cons t1 ts =>
      rw [chain_of_cons_cons]
      simp

/-- `ESSelected` on a chain of comma-free selections: the loop ends, and the verdict is
that of the three variables after the selections have been processed in order. -/
theorem ESSelected_chain (beginRange0 endRange0 : Int) (fmt : es_format_t)
    (toks : List (List Char)) (hc : ∀ tok ∈ toks, ',' ∉ tok) (hne : chain_of toks ≠ []) :
    ESSelected_loop beginRange0 endRange0 fmt ((chain_of toks).length + 1) (chain_of toks)
        ⟨-1, -1, -1⟩
      = some (toks.foldl (fun st tok =>
          ESSelected_token beginRange0 endRange0 fmt (skip_blank tok) st) ⟨-1, -1, -1⟩) ∧
    ESSelected beginRange0 endRange0 true fmt (some (chain_of toks))
      = some (decide (
          (toks.foldl (fun st tok =>
            ESSelected_token beginRange0 endRange0 fmt (skip_blank tok) st) ⟨-1, -1, -1⟩).i_cat
            = 1 ∨
          (toks.foldl (fun st tok =>
            ESSelected_token beginRange0 endRange0 fmt (skip_blank tok) st) ⟨-1, -1, -1⟩).i_es
            = 1 ∨
          (toks.foldl (fun st tok =>
            ESSelected_token beginRange0 endRange0 fmt (skip_blank tok) st) ⟨-1, -1, -1⟩).i_prgm
            = 1)) := by
  have h := ESSelected_loop_chain beginRange0 endRange0 fmt toks hc
    ((chain_of toks).length + 1) ⟨-1, -1, -1⟩ (length_le_chain_of toks) (by omega)
  refine ⟨h, ?_⟩
  unfold ESSelected
  simp only [if_neg hne, h]
  rfl

/-- C30. In `ESSelected` the category verdict is fixed by the first category token of the
chain: for every chain of comma-free selections, the loop ends and the value of `i_cat`
at the end is the one that the first selection beginning with a category word (`audio`,
`video`, `spu` or their `no-`/`no` forms) gives, -1 when there is none; a category
selection that comes after another one can be removed from the chain without changing
the result. For the chain `audio,video` a video ES is not selected, for `video,audio` it
is. -/
theorem ESSelected_first_category_token (beginRange0 endRange0 : Int) (fmt : es_format_t)
    (toks : List (List Char)) (hc : ∀ tok ∈ toks, ',' ∉ tok) (hne : chain_of toks ≠ []) :
    (∃ st, ESSelected_loop beginRange0 endRange0 fmt ((chain_of toks).length + 1)
        (chain_of toks) ⟨-1, -1, -1⟩ = some st ∧
      ESSelected beginRange0 endRange0 true fmt (some (chain_of toks))
        = some (decide (st.i_cat = 1 ∨ st.i_es = 1 ∨ st.i_prgm = 1)) ∧
      st.i_cat = (((toks.map skip_blank).find? is_category_token).map (fun tok =>
          (ESSelected_token beginRange0 endRange0 fmt tok ⟨-1, -1, -1⟩).i_cat)).getD (-1)) ∧
    (∀ pre tok post, toks = pre ++ tok :: post →
      is_category_token (skip_blank tok) = true →
      (∃ t ∈ pre, is_category_token (skip_blank t) = true) →
      ESSelected beginRange0 endRange0 true fmt (some (chain_of (pre ++ post)))
        = ESSelected beginRange0 endRange0 true fmt (some (chain_of toks))) ∧
    ESSelected beginRange0 endRange0 true ⟨es_format_category_e.VIDEO_ES, 0, 0⟩
      (some "audio,video".toList) = some false ∧
    ESSelected beginRange0 endRange0 true ⟨es_format_category_e.VIDEO_ES, 0, 0⟩
      (some "video,audio".toList) = some true := by
  obtain ⟨h1, h2⟩ := ESSelected_chain beginRange0 endRange0 fmt toks hc hne
  refine ⟨⟨_, h1, h2, foldl_token_cat_unset beginRange0 endRange0 fmt toks _ rfl⟩, ?_, rfl,
    rfl⟩
  intro pre tok post htoks hcat hpre
  have hc' : ∀ t ∈ pre ++ post, ',' ∉ t := by
    intro t ht
    apply hc t
    rw [htoks]
    rcases List.mem_append.mp ht with h | h
    · exact List.mem_append_left _ h
    · exact List.mem_append_right _ (List.mem_cons_of_mem _ h)
  have hne' : chain_of (pre ++ post) ≠ [] := by
    obtain ⟨t, ht, htc⟩ := hpre
    apply chain_of_ne_nil (pre ++ post) t (List.mem_append_left _ ht)
    intro e
    have hsk : skip_blank t = [] := by rw [e]; rfl
    rw [hsk] at htc
    exact absurd htc (by decide)
  rw [(ESSelected_chain beginRange0 endRange0 fmt (pre ++ post) hc' hne').2, h2, htoks,
    foldl_token_remove_category beginRange0 endRange0 fmt pre post tok _ hcat hpre rfl]

/-- C30 witness: the chain `audio, es=3 ,video` for a video ES of id 3. -/
theorem ESSelected_first_category_token_witness :
    (∃ st, ESSelected_loop 0 0 ⟨es_format_category_e.VIDEO_ES, 3, 0⟩
        ((chain_of ["audio".toList, " es=3 ".toList, "video".toList]).length + 1)
        (chain_of ["audio".toList, " es=3 ".toList, "video".toList]) ⟨-1, -1, -1⟩ = some st ∧
      ESSelected 0 0 true ⟨es_format_category_e.VIDEO_ES, 3, 0⟩
          (some (chain_of ["audio".toList, " es=3 ".toList, "video".toList]))
        = some (decide (st.i_cat = 1 ∨ st.i_es = 1 ∨ st.i_prgm = 1)) ∧
      st.i_cat = (((["audio".toList, " es=3 ".toList, "video".toList].map skip_blank).find?
          is_category_token).map (fun tok =>
            (ESSelected_token 0 0 ⟨es_format_category_e.VIDEO_ES, 3, 0⟩ tok
              ⟨-1, -1, -1⟩).i_cat)).getD (-1)) ∧
    (∀ pre tok post, ["audio".toList, " es=3 ".toList, "video".toList] = pre ++ tok :: post →
      is_category_token (skip_blank tok) = true →
      (∃ t ∈ pre, is_category_token (skip_blank t) = true) →
      ESSelected 0 0 true ⟨es_format_category_e.VIDEO_ES, 3, 0⟩ (some (chain_of (pre ++ post)))
        = ESSelected 0 0 true ⟨es_format_category_e.VIDEO_ES, 3, 0⟩
            (some (chain_of ["audio".toList, " es=3 ".toList, "video".toList]))) ∧
    ESSelected 0 0 true ⟨es_format_category_e.VIDEO_ES, 0, 0⟩
      (some "audio,video".toList) = some false ∧
    ESSelected 0 0 true ⟨es_format_category_e.VIDEO_ES, 0, 0⟩
      (some "video,audio".toList) = some true :=
  ESSelected_first_category_token 0 0 ⟨es_format_category_e.VIDEO_ES, 3, 0⟩
    ["audio".toList, " es=3 ".toList, "video".toList]
    (by
      intro tok htok
      simp only [List.mem_cons, List.mem_singleton, List.not_mem_nil, or_false] at htok
      rcases htok with rfl | rfl | rfl <;> decide)
    (by decide)

/-! ## `ESSelected` returns -/

theorem exists_chain_of : ∀ (s : List Char),
    ∃ toks : List (List Char), toks ≠ [] ∧ (∀ tok ∈ toks, ',' ∉ tok) ∧ chain_of toks = s := by
  intro s
  induction s with
  | nil => exact ⟨[[]], by simp, by simp, rfl⟩
  | cons c s ih =>
    obtain ⟨toks, hne, hc, he⟩ := ih
    obtain ⟨t, ts, rfl⟩ : ∃ t ts, toks = t :: ts := by
      cases toks with
      | nil => exact absurd rfl hne
      | cons t ts => exact ⟨t, ts, rfl⟩
    by_cases hcomma : c = ','
    · subst hcomma
      refine ⟨[] :: t :: ts, by simp, ?_, ?_⟩
      · intro tok htok
        rcases List.mem_cons.mp htok with rfl | h
        · simp
        · exact hc tok h
      · rw [chain_of_cons_cons, he]
        rfl
    · refine ⟨(c :: t) :: ts, by simp, ?_, ?_⟩
      · intro tok htok
        rcases List.mem_cons.mp htok with rfl | h
        · intro hm
          rcases List.mem_cons.mp hm with h1 | h1
          · exact hcomma h1.symm
          · exact hc t (List.mem_cons_self _ _) h1
        · exact hc tok (List.mem_cons_of_mem _ h)
      · cases ts with
        | nil =>
          have e1 : chain_of [t] = t := by simp [chain_of, List.intercalate, List.intersperse]
          have e2 : chain_of [c :: t] = c :: t := by
            simp [chain_of, List.intercalate, List.intersperse]
          rw [e2, ← he, e1]
        | cons t1 ts =>
          rw [chain_of_cons_cons] at he ⊢
          rw [← he]
          rfl

/-- The loop of `ESSelected` ends on every selection string: the call returns. -/
theorem ESSelected_returns (beginRange0 endRange0 : Int) (strdup_ok : Bool)
    (fmt : es_format_t) (psz_select : Option (List Char)) :
    ∃ r, ESSelected beginRange0 endRange0 strdup_ok fmt psz_select = some r := by
  cases psz_select with
  | none => exact ⟨true, rfl⟩
  | some s =>
    by_cases hs : s = []
    · subst hs; exact ⟨true, rfl⟩
    · cases strdup_ok with
      | false =>
        refine ⟨false, ?_⟩
        unfold ESSelected
        simp only [if_neg hs, if_true]
      | true =>
        obtain ⟨toks, _, hc, he⟩ := exists_chain_of s
        have h := (ESSelected_chain beginRange0 endRange0 fmt toks hc (by rw [he]; exact hs)).2
        rw [he] at h
        exact ⟨_, h⟩

theorem Add_loop_returns (beginRange0 endRange0 : Int) (sout_StreamIdAdd : Nat → Option Nat)
    (strdup_ok push_ok : Nat → Bool) (p_fmt : es_format_t) :
    ∀ (streams : List duplicated_stream_t) (idx : Nat) (dup_ids : List duplicated_id_t)
      (n : Nat),
      ∃ r, Add_loop beginRange0 endRange0 sout_StreamIdAdd strdup_ok push_ok p_fmt streams idx
        dup_ids n = some r := by
  intro streams
  induction streams with
  | nil => intro idx dup_ids n; exact ⟨_, rfl⟩
  | cons s rest ih =>
    intro idx dup_ids n
    obtain ⟨b, hb⟩ :=
      ESSelected_returns beginRange0 endRange0 (strdup_ok idx) p_fmt s.select_chain
    unfold Add_loop
    rw [hb]
    cases b with
    | true => exact ih _ _ _
    | false => exact ih _ _ _

/-- Every call of `Add` returns. -/
theorem Add_returns (beginRange0 endRange0 : Int) (sout_StreamIdAdd : Nat → Option Nat)
    (id_alloc_ok : Bool) (strdup_ok push_ok : Nat → Bool)
    (streams : List duplicated_stream_t) (p_fmt : es_format_t) :
    ∃ r, Add beginRange0 endRange0 sout_StreamIdAdd id_alloc_ok strdup_ok push_ok streams
      p_fmt = some r := by
  obtain ⟨⟨ids, m⟩, h⟩ := Add_loop_returns beginRange0 endRange0 sout_StreamIdAdd strdup_ok
    push_ok p_fmt streams 0 [] 0
  unfold Add
  rw [h]
  by_cases ha : id_alloc_ok = false
  · rw [if_pos ha]; exact ⟨_, rfl⟩
  · rw [if_neg ha]
    simp only
    split_ifs <;> exact ⟨_, rfl⟩

/-! ## `NumInRange` on decimal numerals -/

theorem digit_char_facts (d : Nat) (h : d < 10) :
    isdigit (digit_char d) = true ∧ (digit_char d).toNat - 48 = d ∧
    digit_char d ≠ '-' ∧ digit_char d ≠ '+' ∧ isspace (digit_char d) = false := by
  interval_cases d <;> decide

theorem scan_digits_digits (rest : List Char)
    (hrest : ∀ c cs, rest = c :: cs → isdigit c = false) :
    ∀ (L : List Nat), (∀ d ∈ L, d < 10) → ∀ acc : Nat,
      scan_digits acc (L.map digit_char ++ rest)
        = (L.foldl (fun a d => a * 10 + d) acc, rest) := by
  intro L
  induction L with
  | nil =>
    intro _ acc
    cases rest with
    | nil => rfl
    | cons c cs =>
      simp only [List.map_nil, List.nil_append, List.foldl_nil, scan_digits,
        hrest c cs rfl, Bool.false_eq_true, if_false]
  | cons d L ih =>
    intro h acc
    obtain ⟨h1, h2, _⟩ := digit_char_facts d (h d (List.mem_cons_self _ _))
    simp only [List.map_cons, List.cons_append, scan_digits, h1, if_true, h2, List.foldl_cons]
    exact ih (fun x hx => h x (List.mem_cons_of_mem _ hx)) _

theorem foldl_digits (n : Nat) :
    (Nat.digits 10 n).reverse.foldl (fun a d => a * 10 + d) 0 = n := by
  rw [List.foldl_reverse]
  have : ∀ L : List Nat, L.foldr (fun d a => a * 10 + d) 0 = Nat.ofDigits 10 L := by
    intro L
    induction L with
    | nil => rfl
    | cons x L ih =>
      rw [List.foldr_cons, ih, Nat.ofDigits_cons]
      ring
  rw [this, Nat.ofDigits_digits]

theorem decimal_nat_eq (n : Nat) :
    ∃ (d : Nat) (L : List Nat), d < 10 ∧ (∀ x ∈ L, x < 10) ∧
      decimal_nat n = (d :: L).map digit_char ∧
      (d :: L).foldl (fun a x => a * 10 + x) 0 = n := by
  by_cases h0 : n = 0
  · subst h0
    exact ⟨0, [], by decide, by simp, rfl, rfl⟩
  · have hne : (Nat.digits 10 n).reverse ≠ [] := by
      simp [Nat.digits_ne_nil_iff_ne_zero, h0]
    obtain ⟨d, L, hL⟩ : ∃ d L, (Nat.digits 10 n).reverse = d :: L := by
      cases h : (Nat.digits 10 n).reverse with
      | nil => exact absurd h hne
      | cons d L => exact ⟨d, L, rfl⟩
    have hlt : ∀ x ∈ d :: L, x < 10 := by
      intro x hx
      rw [← hL, List.mem_reverse] at hx
      exact Nat.digits_lt_base (by decide) hx
    refine ⟨d, L, hlt d (List.mem_cons_self _ _),
      fun x hx => hlt x (List.mem_cons_of_mem _ hx), ?_, ?_⟩
    · unfold decimal_nat
      rw [if_neg h0, hL]
    · rw [← hL]
      exact foldl_digits n

theorem scan_int_decimal (rest : List Char)
    (hrest : ∀ c cs, rest = c :: cs → isdigit c = false) (z : Int) :
    scan_int (decimal z ++ rest) = some (z, rest) ∧
    (decimal z ++ rest).dropWhile isspace = decimal z ++ rest ∧
    decimal z ++ rest ≠ [] := by
  obtain ⟨d, L, hd, hL, he, hv⟩ := decimal_nat_eq z.natAbs
  obtain ⟨f1, f2, f3, f4, f5⟩ := digit_char_facts d hd
  have hscan : scan_digits 0 (digit_char d :: (L.map digit_char ++ rest)) = (z.natAbs, rest) := by
    have := scan_digits_digits rest hrest (d :: L)
      (fun x hx => by
        rcases List.mem_cons.mp hx with rfl | h
        · exact hd
        · exact hL x h) 0
    rw [hv] at this
    exact this
  unfold decimal
  by_cases hz : z < 0
  · rw [if_pos hz, he]
    refine ⟨?_, ?_, by simp⟩
    · simp only [List.map_cons, List.cons_append, scan_int, f1, if_true, hscan]
      congr 2
      omega
    · simp only [List.map_cons, List.cons_append]
      rw [List.dropWhile_cons_of_neg (by decide)]
  · rw [if_neg hz, he]
    refine ⟨?_, ?_, by simp⟩
    · simp only [List.map_cons, List.cons_append]
      unfold scan_int
      split
      · rename_i heq
        simp only [List.cons.injEq] at heq
        exact absurd heq.1 f3
      · rename_i heq
        simp only [List.cons.injEq] at heq
        exact absurd heq.1 f4
      · rename_i c cs _ _ heq
        simp only [List.cons.injEq] at heq
        obtain ⟨h1, h2⟩ := heq
        subst h1 h2
        rw [if_pos f1, hscan]
        congr 2
        omega
      · rename_i heq
        cases heq
    · simp only [List.map_cons, List.cons_append]
      rw [List.dropWhile_cons_of_neg (by rw [f5]; decide)]

theorem sscanf_range_two (a b beginRange0 endRange0 : Int) :
    sscanf_range (decimal a ++ '-' :: decimal b) beginRange0 endRange0
      = (2, toInt32 a, toInt32 b) := by
  obtain ⟨a1, a2, a3⟩ := scan_int_decimal ('-' :: decimal b)
    (fun c cs h => by simp only [List.cons.injEq] at h; rw [← h.1]; decide) a
  obtain ⟨b1, b2, _⟩ := scan_int_decimal [] (fun c cs h => by cases h) b
  rw [List.append_nil] at b1 b2
  unfold sscanf_range
  rw [a2, if_neg a3, a1]
  simp only [b2, b1]

theorem sscanf_range_one (a beginRange0 endRange0 : Int) :
    sscanf_range (decimal a) beginRange0 endRange0 = (1, toInt32 a, endRange0) := by
  obtain ⟨a1, a2, a3⟩ := scan_int_decimal [] (fun c cs h => by cases h) a
  rw [List.append_nil] at a1 a2 a3
  unfold sscanf_range
  rw [a2, if_neg a3, a1]

theorem toInt32_of_range (a : Int) (h1 : -2147483648 ≤ a) (h2 : a ≤ 2147483647) :
    toInt32 a = a := by
  unfold toInt32
  omega

/-- `NumInRange` on decimal numerals of `int` values: on `a-b` it is true exactly when
`i_num` lies between `min(a, b)` and `max(a, b)`, on `a` exactly when `i_num = a`; on a
string whose first character after the white space cannot begin a number it is false. -/
theorem NumInRange_spec (a b i_num beginRange0 endRange0 : Int)
    (ha1 : -2147483648 ≤ a) (ha2 : a ≤ 2147483647)
    (hb1 : -2147483648 ≤ b) (hb2 : b ≤ 2147483647) :
    (NumInRange beginRange0 endRange0 (decimal a ++ '-' :: decimal b) i_num = true
      ↔ min a b ≤ i_num ∧ i_num ≤ max a b) ∧
    (NumInRange beginRange0 endRange0 (decimal a) i_num = true ↔ i_num = a) ∧
    (∀ s c cs, s.dropWhile isspace = c :: cs → scan_int (c :: cs) = none →
      NumInRange beginRange0 endRange0 s i_num = false) := by
  refine ⟨?_, ?_, ?_⟩
  · unfold NumInRange
    rw [sscanf_range_two, toInt32_of_range a ha1 ha2, toInt32_of_range b hb1 hb2]
    simp only [show ¬ ((2 : Int) = 0) by decide, show ¬ ((2 : Int) = 1) by decide, if_false,
      Bool.or_eq_true, Bool.and_eq_true, decide_eq_true_eq]
    constructor
    · rintro (⟨h1, h2⟩ | ⟨h1, h2, h3⟩)
      · exact ⟨le_trans (min_le_left _ _) h1, le_trans h2 (le_max_right _ _)⟩
      · exact ⟨le_trans (min_le_right _ _) h3, le_trans h2 (le_max_left _ _)⟩
    · rintro ⟨h1, h2⟩
      by_cases hab : a ≤ b
      · rw [min_eq_left hab] at h1
        rw [max_eq_right hab] at h2
        exact Or.inl ⟨h1, h2⟩
      · have hba : b ≤ a := le_of_lt (not_le.mp hab)
        rw [min_eq_right hba] at h1
        rw [max_eq_left hba] at h2
        exact Or.inr ⟨not_le.mp hab, h2, h1⟩
  · unfold NumInRange
    rw [sscanf_range_one, toInt32_of_range a ha1 ha2]
    simp only [show ¬ ((1 : Int) = 0) by decide, if_false, if_true, decide_eq_true_eq]
    exact eq_comm
  · intro s c cs hs hscan
    have hz : sscanf_range s beginRange0 endRange0 = (0, beginRange0, endRange0) := by
      unfold sscanf_range
      rw [hs, if_neg (by simp), hscan]
    unfold NumInRange
    rw [hz]
    rfl

/-! ## `Send` -/

/-- C31 (refuted by the code). Two outputs, the first selecting `audio` and the second
`video`, and an audio ES: `Add` returns the id with the entries (id 108, output 8) and
(NULL, output 9). For a buffer, `Send` passes a duplicate to output 8 and then the
buffer itself to output 9 with the NULL id: the test before the last call is
`last_dup_id != NULL`, on the address of the last entry, not on its id. In general the
last entry of the vector is passed to `sout_StreamIdSend` whatever its id. -/
theorem Send_passes_last_entry_with_null_id :
    Add 0 0 (fun s => some (s + 100)) true (fun _ => true) (fun _ => true)
        [⟨8, some "audio".toList⟩, ⟨9, some "video".toList⟩]
        ⟨es_format_category_e.AUDIO_ES, 5, 0⟩
      = some (some [⟨some 108, 8⟩, ⟨none, 9⟩]) ∧
    Send (fun _ _ => true) [⟨some 108, 8⟩, ⟨none, 9⟩] [1]
      = some [send_event.StreamIdSend 8 (some 108) 1 true,
          send_event.StreamIdSend 9 none 1 false] ∧
    (∀ (block_Duplicate_ok : Nat → Bool) (front : List duplicated_id_t)
        (last_dup_id : duplicated_id_t) (p_buffer : Nat),
      ∃ events, Send_buffer block_Duplicate_ok (front ++ [last_dup_id]) p_buffer
        = some (events ++ [send_event.StreamIdSend last_dup_id.stream_owner last_dup_id.id
            p_buffer false])) := by
  refine ⟨by decide, by decide, ?_⟩
  intro ok front last p
  unfold Send_buffer
  rw [if_pos (by simp), List.getLast?_append_of_ne_nil _ (by simp)]
  exact ⟨_, rfl⟩

end Duplicate
